import Mathlib

/-
Verification of the SESE-region / Program Structure Tree computation
(`pst.py`).  The implementation is shallowly embedded below: the Python
dataclasses become structures, the mutable per-edge / per-node state is
threaded explicitly, the iterative DFS stack machines become fuel-indexed
loops, and the bracket lists are modelled as an explicit arena of
doubly-linked nodes exactly as in the source.  The fallible core returns
`Except String`, mirroring the single `ValueError` raise site.
-/

namespace SESE

/-- One entry of the input adjacency: the `out` and `in` lists of a node.
(`in'` embeds the Python key `"in"`, which is a Lean keyword.) -/
structure AdjInfo where
  out : List String
  in' : List String
deriving Repr, DecidableEq

/-- Published edge record (dataclass `EdgeInfo`). `class_id` uses the
sentinel `-1` for an unclassified edge, as in the source. -/
structure EdgeInfo where
  id : Nat
  src : String
  dst : String
  kind : String
  class_id : Int
deriving Repr, DecidableEq

/-- Region record (dataclass `RegionInfo`).  `parent` is `none` exactly
while the Python field is `None` (the root keeps `None`). -/
structure RegionInfo where
  id : Nat
  entry_edge : Option Nat
  exit_edge : Option Nat
  parent : Option Nat
  children : List Nat
deriving Repr, DecidableEq

/-- Result record (dataclass `PSTResult`).  The Python `regions` dict is
kept as a list in dict insertion order (ids `1..k` then `0`); lookups go
through `findRegion`. -/
structure PSTResult where
  root : Nat
  regions : List RegionInfo
  edges : List EdgeInfo
  super_entry : String
  super_exit : String
deriving Repr, DecidableEq

/-- Internal edge (class `_Edge`), with its mutable fields. `list_node`
is an index into the bracket-node arena (the Python object reference). -/
structure Edge where
  id : Nat
  u : Nat
  v : Nat
  kind : String
  class_id : Option Nat
  recent_size : Option Nat
  recent_class : Option Nat
  list_node : Option Nat
deriving Repr, DecidableEq

/-- Fresh internal edge, as built by `_Edge.__init__`. -/
def mkEdge (id u v : Nat) (kind : String) : Edge :=
  ⟨id, u, v, kind, none, none, none, none⟩

def defaultEdge : Edge := mkEdge 0 0 0 ""

/-- Bracket-list node (class `_BracketNode`): the held edge id and the
doubly-linked `prev`/`next` arena indices. -/
structure BracketNode where
  edge : Nat
  prev : Option Nat
  next : Option Nat
deriving Repr, DecidableEq

/-- Bracket-list header (class `_BracketList`). -/
structure BracketList where
  head : Option Nat
  tail : Option Nat
  size : Nat
deriving Repr, DecidableEq

def emptyBracketList : BracketList := ⟨none, none, 0⟩

/-- In-place update of one list cell (no-op out of bounds), used for all
the Python in-place array/dict mutations. -/
def listModify (xs : List α) (i : Nat) (f : α → α) : List α :=
  match xs, i with
  | [], _ => []
  | x :: rest, 0 => f x :: rest
  | x :: rest, n + 1 => x :: listModify rest n f

/-- `_unique_label`: search `base`, `base_1`, `base_2`, … for a label not
in `used`.  The fuel `|used| + 1` always suffices. -/
def unique_label_aux (base : String) (used : List String) : Nat → Nat → String
  | 0, _ => base
  | fuel + 1, i =>
    let candidate := base ++ "_" ++ toString i
    if used.contains candidate then unique_label_aux base used fuel (i + 1)
    else candidate

def unique_label (base : String) (used : List String) : String :=
  if used.contains base then unique_label_aux base used (used.length + 1) 1
  else base

/-! ### Undirected DFS of `_cycle_equivalence` -/

/-- The per-node / per-edge bookkeeping of the undirected DFS inside
`_cycle_equivalence`.  `-1` sentinels are kept as `Int` values, as in the
Python arrays. -/
structure UDfsState where
  dfsnum : List Nat
  parent : List Int
  parent_edge : List Int
  children : List (List Nat)
  backedges_from : List (List Nat)
  backedges_to : List (List Nat)
  edge_upper : List Int
  edge_seen : List Bool
  postorder : List Nat
  time : Nat
deriving Repr, DecidableEq

/-- One `while stack:` loop of the inner `dfs` of `_cycle_equivalence`.
The stack holds `(node, position of the node's adjacency iterator)`. -/
def udfsLoop (und : List (List (Nat × Nat))) :
    Nat → UDfsState → List (Nat × Nat) → UDfsState
  | 0, s, _ => s
  | _ + 1, s, [] => s
  | fuel + 1, s, (node, i) :: rest =>
    let adjn := und.getD node []
    if i < adjn.length then
      let q := adjn.getD i (0, 0)
      let stack' := (node, i + 1) :: rest
      if s.edge_seen.getD q.1 false then
        udfsLoop und fuel s stack'
      else
        let s := { s with edge_seen := s.edge_seen.set q.1 true }
        if s.dfsnum.getD q.2 0 == 0 then
          let s := { s with
            parent := s.parent.set q.2 (Int.ofNat node),
            parent_edge := s.parent_edge.set q.2 (Int.ofNat q.1),
            children := listModify s.children node (fun l => l ++ [q.2]),
            time := s.time + 1 }
          let s := { s with dfsnum := s.dfsnum.set q.2 s.time }
          udfsLoop und fuel s ((q.2, 0) :: stack')
        else
          let da :=
            if s.dfsnum.getD q.2 0 < s.dfsnum.getD node 0 then (node, q.2)
            else (q.2, node)
          let s := { s with
            backedges_from := listModify s.backedges_from da.1 (fun l => l ++ [q.1]),
            backedges_to := listModify s.backedges_to da.2 (fun l => l ++ [q.1]),
            edge_upper := s.edge_upper.set q.1 (Int.ofNat da.2) }
          udfsLoop und fuel s stack'
    else
      udfsLoop und fuel { s with postorder := s.postorder ++ [node] } rest

/-- One `dfs(start)` call: stamp the start node, then drain the stack. -/
def udfsRun (und : List (List (Nat × Nat))) (fuel : Nat) (s : UDfsState)
    (start : Nat) : UDfsState :=
  let s := { s with time := s.time + 1 }
  let s := { s with dfsnum := s.dfsnum.set start s.time }
  udfsLoop und fuel s [(start, 0)]

/-- Fuel that upper-bounds the number of loop iterations of one `dfs`
call: every iteration either advances an adjacency iterator or pops. -/
def udfsFuel (node_count : Nat) (und : List (List (Nat × Nat))) : Nat :=
  und.foldl (fun a l => a + l.length) 0 + node_count + 2

/-- The whole DFS phase: `dfs(root)` followed by restarts on every node
still unnumbered, in index order.  `edge_count` is `len(edges)`. -/
def udfsAll (node_count edge_count : Nat) (und : List (List (Nat × Nat)))
    (root : Nat) : UDfsState :=
  let s0 : UDfsState :=
    { dfsnum := List.replicate node_count 0
      parent := List.replicate node_count (-1)
      parent_edge := List.replicate node_count (-1)
      children := List.replicate node_count []
      backedges_from := List.replicate node_count []
      backedges_to := List.replicate node_count []
      edge_upper := List.replicate edge_count (-1)
      edge_seen := List.replicate edge_count false
      postorder := []
      time := 0 }
  let fuel := udfsFuel node_count und
  let s1 := udfsRun und fuel s0 root
  (List.range node_count).foldl
    (fun s n => if s.dfsnum.getD n 0 == 0 then udfsRun und fuel s n else s) s1

/-! ### Bracket lists and the post-order sweep of `_cycle_equivalence` -/

/-- Mutable state of the post-order sweep: the edge store (capping edges
are appended to it, so its length plays the role of the Python
`edge_count` counter), the bracket-node arena, and the per-node arrays. -/
structure SweepState where
  edges : List Edge
  arena : List BracketNode
  blists : List BracketList
  capping_to : List (List Nat)
  hi : List Nat
  class_counter : Nat
deriving Repr, DecidableEq

/-- `_BracketList.push`: append a fresh bracket node holding `eid` at the
tail and record the handle on the edge. -/
def blPush (st : SweepState) (bl : BracketList) (eid : Nat) :
    SweepState × BracketList :=
  let idx := st.arena.length
  let st := { st with
    arena := st.arena ++ [⟨eid, bl.tail, none⟩],
    edges := listModify st.edges eid (fun e => { e with list_node := some idx }) }
  match bl.tail with
  | none => (st, ⟨some idx, some idx, bl.size + 1⟩)
  | some t =>
    let st := { st with
      arena := listModify st.arena t (fun nd => { nd with next := some idx }) }
    (st, { bl with tail := some idx, size := bl.size + 1 })

/-- The head-side splice of `_BracketList.delete`. -/
def blDeleteSplicePrev (st : SweepState) (bl : BracketList)
    (nd : BracketNode) : SweepState × BracketList :=
  match nd.prev with
  | none => (st, { bl with head := nd.next })
  | some p =>
    ({ st with arena := listModify st.arena p (fun x => { x with next := nd.next }) },
     bl)

/-- The tail-side splice of `_BracketList.delete`. -/
def blDeleteSpliceNext (st : SweepState) (bl : BracketList)
    (nd : BracketNode) : SweepState × BracketList :=
  match nd.next with
  | none => (st, { bl with tail := nd.prev })
  | some nx =>
    ({ st with arena := listModify st.arena nx (fun x => { x with prev := nd.prev }) },
     bl)

/-- `_BracketList.delete`: unlink the edge's bracket node through its
handle; a missing handle is a no-op, exactly as in the source. -/
def blDelete (st : SweepState) (bl : BracketList) (eid : Nat) :
    SweepState × BracketList :=
  match (st.edges.getD eid defaultEdge).list_node with
  | none => (st, bl)
  | some idx =>
    let nd := st.arena.getD idx ⟨0, none, none⟩
    let p1 := blDeleteSplicePrev st bl nd
    let p2 := blDeleteSpliceNext p1.1 p1.2 nd
    let st2 := { p2.1 with
      edges := listModify p2.1.edges eid (fun e => { e with list_node := none }),
      arena := listModify p2.1.arena idx (fun x => { x with prev := none, next := none }) }
    (st2, { p2.2 with size := p2.2.size - 1 })

/-- `_concat_blist`: splice `right` after `left` (either may be empty). -/
def concat_blist (st : SweepState) (left right : BracketList) :
    SweepState × BracketList :=
  if left.size == 0 then (st, right)
  else if right.size == 0 then (st, left)
  else
    match left.tail, right.head with
    | some lt, some rh =>
      let st := { st with
        arena := listModify st.arena lt (fun x => { x with next := some rh }) }
      let st := { st with
        arena := listModify st.arena rh (fun x => { x with prev := some lt }) }
      (st, ⟨left.head, right.tail, left.size + right.size⟩)
    | _, _ => (st, left)

/-- `_BracketList.top`: the edge id held at the tail, if any. -/
def blTop (st : SweepState) (bl : BracketList) : Option Nat :=
  match bl.tail with
  | none => none
  | some t => some (st.arena.getD t ⟨0, none, none⟩).edge

/-- `hi0` of the sweep: minimum `dfsnum` over ancestors reached by the
back-edges leaving `n`. -/
def sweepHi0 (node_count : Nat) (d : UDfsState) (n : Nat) : Nat :=
  (d.backedges_from.getD n []).foldl
    (fun h e =>
      let anc := d.edge_upper.getD e (-1)
      if anc != -1 then
        let anc_dfs := d.dfsnum.getD anc.toNat 0
        if anc_dfs < h then anc_dfs else h
      else h)
    (node_count + 1)

/-- `hi1`/`hi2` of the sweep: minimum and second minimum of `hi` over the
children of `n`. -/
def sweepHi12 (node_count : Nat) (d : UDfsState) (st : SweepState) (n : Nat) :
    Nat × Nat :=
  (d.children.getD n []).foldl
    (fun (p : Nat × Nat) c =>
      let (h1, h2) := p
      let val := st.hi.getD c 0
      if val < h1 then (val, h1) else if val < h2 then (h1, val) else (h1, h2))
    (node_count + 1, node_count + 1)

/-- Concatenate the children's bracket lists (each child's list in front
of the accumulated one, as in the source loop). -/
def sweepConcatChildren (st : SweepState) (children : List Nat) :
    SweepState × BracketList :=
  children.foldl
    (fun (p : SweepState × BracketList) c =>
      concat_blist p.1 (p.1.blists.getD c emptyBracketList) p.2)
    (st, emptyBracketList)

/-- Delete the capping edges registered at this node. -/
def sweepDeleteCaps (st : SweepState) (bl : BracketList) (caps : List Nat) :
    SweepState × BracketList :=
  caps.foldl (fun (p : SweepState × BracketList) cap => blDelete p.1 p.2 cap)
    (st, bl)

/-- Delete the back-edges ending at this node, minting a class for each
still-unclassified one. -/
def sweepDeleteBacks (st : SweepState) (bl : BracketList) (backs : List Nat) :
    SweepState × BracketList :=
  backs.foldl
    (fun (p : SweepState × BracketList) b_id =>
      let q := blDelete p.1 p.2 b_id
      let st := q.1
      if (st.edges.getD b_id defaultEdge).class_id == none then
        let st := { st with class_counter := st.class_counter + 1 }
        let edges' := listModify st.edges b_id
          (fun e => { e with class_id := some st.class_counter })
        ({ st with edges := edges' }, q.2)
      else (st, q.2))
    (st, bl)

/-- Push the back-edges originating at this node. -/
def sweepPushBacks (st : SweepState) (bl : BracketList) (backs : List Nat) :
    SweepState × BracketList :=
  backs.foldl (fun (p : SweepState × BracketList) e_id => blPush p.1 p.2 e_id)
    (st, bl)

/-- Allocate and push a capping edge when `hi2 < hi0`. -/
def sweepCapping (st : SweepState) (bl : BracketList)
    (node_by_dfsnum : List Nat) (n hi0 hi2 : Nat) :
    SweepState × BracketList :=
  if hi2 < hi0 then
    let upper := node_by_dfsnum.getD hi2 0
    let capId := st.edges.length
    let st := { st with edges := st.edges ++ [mkEdge capId n upper "capping"] }
    let q := blPush st bl capId
    let st := { q.1 with
      capping_to := listModify q.1.capping_to upper (fun l => l ++ [capId]) }
    (st, q.2)
  else (st, bl)

/-- Classify the tree edge to the parent from the top bracket; fails
exactly where the source raises `ValueError`. -/
def sweepTreeEdge (d : UDfsState) (st : SweepState) (bl : BracketList)
    (n : Nat) : Except String SweepState :=
  if d.parent.getD n (-1) != -1 then
    let tree_id := (d.parent_edge.getD n (-1)).toNat
    match blTop st bl with
    | none => .error "empty bracket list; graph may not be strongly connected"
    | some topId =>
      let topE := st.edges.getD topId defaultEdge
      let st :=
        if topE.recent_size != some bl.size then
          let st := { st with class_counter := st.class_counter + 1 }
          let edges' := listModify st.edges topId
            (fun e => { e with recent_size := some bl.size,
                               recent_class := some st.class_counter })
          { st with edges := edges' }
        else st
      let topE := st.edges.getD topId defaultEdge
      let edges' := listModify st.edges tree_id
        (fun e => { e with class_id := topE.recent_class })
      let st := { st with edges := edges' }
      let st :=
        if topE.recent_size == some 1 && topE.kind != "capping" then
          let tcls := (st.edges.getD tree_id defaultEdge).class_id
          let edges'' := listModify st.edges topId
            (fun e => { e with class_id := tcls })
          { st with edges := edges'' }
        else st
      .ok { st with blists := st.blists.set n bl }
  else
    .ok { st with blists := st.blists.set n bl }

/-- The body of the `for n in postorder:` sweep of `_cycle_equivalence`
for one node, threading the whole mutable state. -/
def sweepNode (node_count : Nat) (d : UDfsState) (node_by_dfsnum : List Nat)
    (st : SweepState) (n : Nat) : Except String SweepState :=
  let hi0 := sweepHi0 node_count d n
  let hi12 := sweepHi12 node_count d st n
  let st := { st with hi := st.hi.set n (if hi0 < hi12.1 then hi0 else hi12.1) }
  let p := sweepConcatChildren st (d.children.getD n [])
  let p := sweepDeleteCaps p.1 p.2 (p.1.capping_to.getD n [])
  let p := sweepDeleteBacks p.1 p.2 (d.backedges_to.getD n [])
  let p := sweepPushBacks p.1 p.2 (d.backedges_from.getD n [])
  let p := sweepCapping p.1 p.2 node_by_dfsnum n hi0 hi12.2
  sweepTreeEdge d p.1 p.2 n

/-- The sweep over the whole post-order list. -/
def sweepAll (node_count : Nat) (d : UDfsState) (node_by_dfsnum : List Nat) :
    List Nat → SweepState → Except String SweepState
  | [], st => .ok st
  | n :: rest, st =>
    match sweepNode node_count d node_by_dfsnum st n with
    | .error e => .error e
    | .ok st' => sweepAll node_count d node_by_dfsnum rest st'

/-- `_cycle_equivalence`: run the undirected DFS, then the post-order
sweep.  Returns the edge store with the class ids written (capping edges
appended at the end). -/
def cycle_equivalence (node_count : Nat) (edges : List Edge)
    (und : List (List (Nat × Nat))) (root : Nat) : Except String (List Edge) :=
  let d := udfsAll node_count edges.length und root
  let node_by_dfsnum := (List.range node_count).foldl
    (fun acc n => acc.set (d.dfsnum.getD n 0) n)
    (List.replicate (node_count + 1) 0)
  let st0 : SweepState :=
    { edges := edges
      arena := []
      blists := List.replicate node_count emptyBracketList
      capping_to := List.replicate node_count []
      hi := List.replicate node_count (node_count + 1)
      class_counter := 0 }
  match sweepAll node_count d node_by_dfsnum d.postorder st0 with
  | .error e => .error e
  | .ok st => .ok st.edges

/-! ### `_dfs_edge_order` -/

/-- The `while stack:` loop of `walk` in `_dfs_edge_order`: every
outgoing edge is appended to the order when its iterator yields it, and
unvisited targets are entered. -/
def dedgeLoop (dadj : List (List Nat)) (edges : List Edge) :
    Nat → List Bool → List Nat → List (Nat × Nat) → List Bool × List Nat
  | 0, visited, order, _ => (visited, order)
  | _ + 1, visited, order, [] => (visited, order)
  | fuel + 1, visited, order, (node, i) :: rest =>
    let adjn := dadj.getD node []
    if i < adjn.length then
      let edge_id := adjn.getD i 0
      let order := order ++ [edge_id]
      let nxt := (edges.getD edge_id defaultEdge).v
      let stack' := (node, i + 1) :: rest
      if visited.getD nxt false then dedgeLoop dadj edges fuel visited order stack'
      else dedgeLoop dadj edges fuel (visited.set nxt true) order ((nxt, 0) :: stack')
    else
      dedgeLoop dadj edges fuel visited order rest

/-- One `walk(start)` call of `_dfs_edge_order`. -/
def dedgeWalk (dadj : List (List Nat)) (edges : List Edge) (fuel : Nat)
    (visited : List Bool) (order : List Nat) (start : Nat) :
    List Bool × List Nat :=
  dedgeLoop dadj edges fuel (visited.set start true) order [(start, 0)]

/-- `_dfs_edge_order`: walk from the root, then restart on every
unvisited node in index order; returns the edge order. -/
def dfs_edge_order (dadj : List (List Nat)) (edges : List Edge) (root : Nat) :
    List Nat :=
  let fuel := dadj.foldl (fun a l => a + l.length) 0 + dadj.length + 2
  ((List.range dadj.length).foldl
    (fun (p : List Bool × List Nat) n =>
      if p.1.getD n false then p
      else dedgeWalk dadj edges fuel p.1 p.2 n)
    (dedgeWalk dadj edges fuel (List.replicate dadj.length false) [] root)).2

/-! ### Region builder -/

/-- Association-list update used for `last_edge_by_class`. -/
def alistPut (xs : List (Nat × Nat)) (k v : Nat) : List (Nat × Nat) :=
  match xs with
  | [] => [(k, v)]
  | (k', v') :: rest =>
    if k' == k then (k, v) :: rest else (k', v') :: alistPut rest k v

def alistFind (xs : List (Nat × Nat)) (k : Nat) : Option Nat :=
  match xs.find? (fun p => p.1 == k) with
  | none => none
  | some p => some p.2

/-- One step of the region-building walk of `compute_pst`: an edge of the
order with a class id closes a region against the previous edge of its
class recorded in `last_edge_by_class`. -/
def regionStep (edges : List Edge) (acc : List RegionInfo × List (Nat × Nat))
    (edge_id : Nat) : List RegionInfo × List (Nat × Nat) :=
  match (edges.getD edge_id defaultEdge).class_id with
  | none => acc
  | some cls =>
    let regions :=
      match alistFind acc.2 cls with
      | none => acc.1
      | some prev =>
        acc.1 ++ [⟨acc.1.length + 1, some prev, some edge_id, none, []⟩]
    (regions, alistPut acc.2 cls edge_id)

/-- The region-building walk of `compute_pst` over the whole edge order. -/
def buildRegions (edges : List Edge) (order : List Nat) : List RegionInfo :=
  (order.foldl (regionStep edges) ([], [])).1

/-! ### Dominators -/

/-- One `for n in range(total):` pass of `_dominators`, updating the
bitmask sets in place and reporting whether anything changed.  A set of
nodes is a `Nat` bitmask; `full` is `set(range(total))`. -/
def domPass (total start : Nat) (preds : List (List Nat)) (full : Nat)
    (dom : List Nat) : List Nat × Bool :=
  (List.range total).foldl
    (fun (p : List Nat × Bool) n =>
      let (dom, changed) := p
      if n == start then (dom, changed)
      else
        let new_dom :=
          match preds.getD n [] with
          | [] => 1 <<< n
          | ps => (ps.foldl (fun a q => a &&& dom.getD q 0) full) ||| (1 <<< n)
        if new_dom != dom.getD n 0 then (dom.set n new_dom, true)
        else (dom, changed))
    (dom, false)

/-- The `while changed:` loop of `_dominators`, with enough fuel for the
monotone fixed point (the masks only shrink). -/
def domLoop (total start : Nat) (preds : List (List Nat)) (full : Nat) :
    Nat → List Nat → List Nat
  | 0, dom => dom
  | fuel + 1, dom =>
    let (dom', changed) := domPass total start preds full dom
    if changed then domLoop total start preds full fuel dom' else dom'

/-- `_dominators`: iterative fixed point from full sets. -/
def dominators (total start : Nat) (preds : List (List Nat)) : List Nat :=
  let full := (1 <<< total) - 1
  let dom := (List.replicate total full).set start (1 <<< start)
  domLoop total start preds full (total * total + 2) dom

/-- `_edge_split_dominators`: split every non-`back`, non-`capping` edge
into `u → e → v`, then compute dominators from the super-entry and
post-dominators from the super-exit.  Returns the edge-to-split-node map
and the two bitmask tables. -/
def edge_split_dominators (node_count : Nat) (edges : List Edge)
    (super_entry_idx super_exit_idx : Nat) :
    List (Nat × Nat) × List Nat × List Nat :=
  let edge_node_index := edges.foldl
    (fun (m : List (Nat × Nat)) e =>
      if e.kind == "back" || e.kind == "capping" then m
      else m ++ [(e.id, node_count + m.length)])
    []
  let total := node_count + edge_node_index.length
  let (preds, succs) := edges.foldl
    (fun (p : List (List Nat) × List (List Nat)) e =>
      if e.kind == "back" || e.kind == "capping" then p
      else
        let (preds, succs) := p
        let e_idx := (alistFind edge_node_index e.id).getD 0
        let succs := listModify succs e.u (fun l => l ++ [e_idx])
        let preds := listModify preds e_idx (fun l => l ++ [e.u])
        let succs := listModify succs e_idx (fun l => l ++ [e.v])
        let preds := listModify preds e.v (fun l => l ++ [e_idx])
        (preds, succs))
    (List.replicate total [], List.replicate total [])
  let dom := dominators total super_entry_idx preds
  let postdom := dominators total super_exit_idx succs
  (edge_node_index, dom, postdom)

/-! ### Nesting resolver -/

/-- Lookup of `regions[id]` in the dict-ordered region list. -/
def findRegion (regions : List RegionInfo) (id : Nat) : RegionInfo :=
  (regions.find? (fun r => r.id == id)).getD ⟨0, none, none, none, []⟩

/-- Field update of `regions[id]` in the dict-ordered region list. -/
def updateRegion (regions : List RegionInfo) (id : Nat)
    (f : RegionInfo → RegionInfo) : List RegionInfo :=
  regions.map (fun r => if r.id == id then f r else r)

/-- The nested `contains(parent_id, child_id)` predicate of
`compute_pst`: root contains everything; otherwise entry-dominance and
exit-post-dominance on the edge-split graph. -/
def containsReg (regions : List RegionInfo) (edge_node_index : List (Nat × Nat))
    (dom postdom : List Nat) (parent_id child_id : Nat) : Bool :=
  if parent_id == 0 then true
  else
    let parent := findRegion regions parent_id
    let child := findRegion regions child_id
    match parent.entry_edge, parent.exit_edge, child.entry_edge, child.exit_edge with
    | some pe, some px, some ce, some cx =>
      match alistFind edge_node_index pe, alistFind edge_node_index px,
            alistFind edge_node_index ce, alistFind edge_node_index cx with
      | some p_entry, some p_exit, some c_entry, some c_exit =>
        (dom.getD c_entry 0).testBit p_entry &&
          (postdom.getD c_exit 0).testBit p_exit
      | _, _, _, _ => false
    | _, _, _, _ => false

/-- The inner candidate loop of the nesting resolver: pick the innermost
containing region for `region_id`. -/
def assignParentsPick (regionIds : List Nat)
    (edge_node_index : List (Nat × Nat)) (dom postdom : List Nat)
    (regions : List RegionInfo) (region_id : Nat) : Nat :=
  regionIds.foldl
    (fun parent_id candidate_id =>
      if candidate_id == 0 || candidate_id == region_id then parent_id
      else if containsReg regions edge_node_index dom postdom
                candidate_id region_id &&
              (parent_id == 0 ||
                containsReg regions edge_node_index dom postdom
                  parent_id candidate_id) then
        candidate_id
      else parent_id)
    0

/-- One step of the parent-assignment loop: resolve the parent of one
region and record it on both ends. -/
def assignParentsStep (regionIds : List Nat)
    (edge_node_index : List (Nat × Nat)) (dom postdom : List Nat)
    (regions : List RegionInfo) (region_id : Nat) : List RegionInfo :=
  if region_id == 0 then regions
  else
    let parent_id := assignParentsPick regionIds edge_node_index dom postdom
      regions region_id
    let regions := updateRegion regions region_id
      (fun r => { r with parent := some parent_id })
    updateRegion regions parent_id
      (fun r => { r with children := r.children ++ [region_id] })

/-- The parent-assignment double loop of `compute_pst`: for every
non-root region pick the innermost containing candidate, write `parent`,
and append to the parent's `children`. -/
def assignParents (regionIds : List Nat) (edge_node_index : List (Nat × Nat))
    (dom postdom : List Nat) (regions0 : List RegionInfo) : List RegionInfo :=
  regionIds.foldl
    (assignParentsStep regionIds edge_node_index dom postdom) regions0

/-! ### `compute_pst` -/

/-- First-seen node registration (`add_node`). -/
def addNode (order : List String) (n : String) : List String :=
  if order.contains n then order else order ++ [n]

/-- Registration of one `out` destination: add the node, append the
original edge. -/
def augmentOut (u : String)
    (q : List String × List (String × String × String)) (v : String) :
    List String × List (String × String × String) :=
  (addNode q.1 v, q.2 ++ [(u, v, "orig")])

/-- Processing of one adjacency entry: register the key, walk its `out`
list, then register the `in` nodes. -/
def augmentStep (p : List String × List (String × String × String))
    (entry : String × AdjInfo) :
    List String × List (String × String × String) :=
  let q := entry.2.out.foldl (augmentOut entry.1) (addNode p.1 entry.1, p.2)
  (entry.2.in'.foldl addNode q.1, q.2)

/-- The augmentation stage of `compute_pst` (shared with the oracle):
first-seen node order, original edge list, entry/exit detection, the two
super labels, the super edges and the closing back edge. -/
def augment (adj : List (String × AdjInfo)) :
    List String × List (String × String × String) × String × String :=
  let p := adj.foldl augmentStep ([], [])
  let nodes_order := p.1
  let edges_spec := p.2
  let indegOf := fun n =>
    (edges_spec.filter (fun e => e.2.1 == n)).length
  let outdegOf := fun n =>
    (edges_spec.filter (fun e => e.1 == n)).length
  let entry_nodes := nodes_order.filter (fun n => indegOf n == 0)
  let exit_nodes := nodes_order.filter (fun n => outdegOf n == 0)
  let entry_nodes := if entry_nodes.isEmpty then nodes_order else entry_nodes
  let exit_nodes := if exit_nodes.isEmpty then nodes_order else exit_nodes
  let super_entry := unique_label "__super_entry__" nodes_order
  let nodes_order := addNode nodes_order super_entry
  let super_exit := unique_label "__super_exit__" nodes_order
  let nodes_order := addNode nodes_order super_exit
  let edges_spec := edges_spec ++
    entry_nodes.map (fun n => (super_entry, n, "super_entry"))
  let edges_spec := edges_spec ++
    exit_nodes.map (fun n => (n, super_exit, "super_exit"))
  let edges_spec := edges_spec ++ [(super_exit, super_entry, "back")]
  (nodes_order, edges_spec, super_entry, super_exit)

/-- Numbering of the augmented edge list against the node order
(`edges.append(_Edge(edge_id, node_index[u], node_index[v], kind))`). -/
def buildEdges (nodes_order : List String)
    (edges_spec : List (String × String × String)) : List Edge :=
  edges_spec.enum.map
    (fun p => mkEdge p.1 (nodes_order.indexOf p.2.1) (nodes_order.indexOf p.2.2.1)
      p.2.2.2)

/-- Node order of the augmented graph of `adj`. -/
def augNodes (adj : List (String × AdjInfo)) : List String :=
  (augment adj).1

/-- Edge list of the augmented graph of `adj`. -/
def augEdges (adj : List (String × AdjInfo)) : List Edge :=
  buildEdges (augment adj).1 (augment adj).2.1

/-- The minted super-entry label of the augmented graph of `adj`. -/
def superEntryOf (adj : List (String × AdjInfo)) : String :=
  (augment adj).2.2.1

/-- The minted super-exit label of the augmented graph of `adj`. -/
def superExitOf (adj : List (String × AdjInfo)) : String :=
  (augment adj).2.2.2

/-- The directed adjacency (edge ids, `back` excluded) of `compute_pst`. -/
def dadjOf (adj : List (String × AdjInfo)) : List (List Nat) :=
  (augEdges adj).foldl
    (fun dadj e =>
      if e.kind != "back" then listModify dadj e.u (fun l => l ++ [e.id])
      else dadj)
    (List.replicate (augNodes adj).length [])

/-- The undirected adjacency (all edges, both directions) of
`compute_pst`. -/
def undAdjOf (adj : List (String × AdjInfo)) : List (List (Nat × Nat)) :=
  (augEdges adj).foldl
    (fun und e =>
      let und := listModify und e.u (fun l => l ++ [(e.id, e.v)])
      listModify und e.v (fun l => l ++ [(e.id, e.u)]))
    (List.replicate (augNodes adj).length [])

/-- The DFS root: the index of the super-entry node. -/
def rootOf (adj : List (String × AdjInfo)) : Nat :=
  (augNodes adj).indexOf (superEntryOf adj)

/-- One step of the publication loop: copy a non-capping internal edge
into a published record. -/
def publishStep (nodes_order : List String) (acc : List EdgeInfo) (e : Edge) :
    List EdgeInfo :=
  if e.kind == "capping" then acc
  else
    acc ++ [{ id := e.id,
              src := nodes_order.getD e.u "",
              dst := nodes_order.getD e.v "",
              kind := e.kind,
              class_id :=
                match e.class_id with
                | some c => Int.ofNat c
                | none => -1 }]

/-- Everything `compute_pst` does after a successful classification:
edge order, region building, dominators, nesting, publication. -/
def publishResult (adj : List (String × AdjInfo)) (edges : List Edge) :
    PSTResult :=
  let nodes_order := augNodes adj
  let edge_order := dfs_edge_order (dadjOf adj) edges (rootOf adj)
  let regions := buildRegions edges edge_order
  let regions := regions ++ [⟨0, none, none, none, []⟩]
  let t := edge_split_dominators
    nodes_order.length edges (nodes_order.indexOf (superEntryOf adj))
    (nodes_order.indexOf (superExitOf adj))
  let regions := regions.map (fun r => { r with children := [] })
  let regionIds := regions.map (fun r => r.id)
  let regions := assignParents regionIds t.1 t.2.1 t.2.2 regions
  let edges_out := edges.foldl (publishStep nodes_order) []
  { root := 0, regions := regions, edges := edges_out,
    super_entry := superEntryOf adj, super_exit := superExitOf adj }

/-- `compute_pst`: the full pipeline.  The `strict` flag is accepted and,
as in the source, never read. -/
def compute_pst (adj : List (String × AdjInfo)) (strict : Bool := true) :
    Except String PSTResult :=
  match cycle_equivalence (augNodes adj).length (augEdges adj) (undAdjOf adj)
      (rootOf adj) with
  | .error e => .error e
  | .ok edges => .ok (publishResult adj edges)

/-! ### Observation helpers on published results -/

/-- The `(src, dst, kind)` triple of a published edge. -/
def pubTriple (r : PSTResult) (eid : Nat) : String × String × String :=
  match r.edges.find? (fun e => e.id == eid) with
  | some e => (e.src, e.dst, e.kind)
  | none => ("", "", "")

/-- The published `class_id` of an edge (sentinel `-1` when absent). -/
def pubClass (r : PSTResult) (eid : Nat) : Int :=
  match r.edges.find? (fun e => e.id == eid) with
  | some e => e.class_id
  | none => -1

/-- The non-root regions, in region-id order of the result table. -/
def nonRootRegions (r : PSTResult) : List RegionInfo :=
  r.regions.filter (fun g => g.id != r.root)

/-- The boundary pairs of the non-root regions, each boundary edge
identified by its `(src, dst, kind)` triple. -/
def pst_pairs (r : PSTResult) :
    List ((String × String × String) × (String × String × String)) :=
  (nonRootRegions r).map
    (fun g => (pubTriple r (g.entry_edge.getD 0), pubTriple r (g.exit_edge.getD 0)))

/-! ### Cycle-membership oracle

Modelled from the spec: two edges are cycle-equivalent iff every simple
cycle of the undirected augmented multigraph contains both or neither;
the canonical-SESE oracle enumerates edge pairs with identical cycle
membership, keeps dominating/post-dominating pairs, and filters to the
innermost ones (spec property 3, mirrored by `_canonical_pairs` of the
test suite). -/

/-- Degree of node `x` in the edge subset `S` of the undirected
multigraph; a self-loop contributes 2. -/
def cycleDeg (edges : List Edge) (S : List Nat) (x : Nat) : Nat :=
  S.foldl
    (fun a e =>
      let ed := edges.getD e defaultEdge
      a + (if ed.u == x then 1 else 0) + (if ed.v == x then 1 else 0))
    0

/-- One closure round of node reachability through the edges of `S`. -/
def cycleExpand (edges : List Edge) (S : List Nat) (reach : List Nat) :
    List Nat :=
  S.foldl
    (fun r e =>
      let ed := edges.getD e defaultEdge
      if r.contains ed.u || r.contains ed.v then
        let r := if r.contains ed.u then r else r ++ [ed.u]
        if r.contains ed.v then r else r ++ [ed.v]
      else r)
    reach

/-- Iterated reachability closure through the edges of `S`. -/
def spanReach (edges : List Edge) (S : List Nat) : Nat → List Nat → List Nat
  | 0, r => r
  | fuel + 1, r => spanReach edges S fuel (cycleExpand edges S r)

/-- `S` is a simple cycle of the undirected multigraph: non-empty, every
touched node has degree exactly 2, and the touched nodes are connected
through `S`. -/
def isSimpleCycle (node_count : Nat) (edges : List Edge) (S : List Nat) :
    Bool :=
  !S.isEmpty &&
    ((List.range node_count).all
      (fun x => cycleDeg edges S x == 0 || cycleDeg edges S x == 2)) &&
    (match (List.range node_count).filter (fun x => cycleDeg edges S x != 0) with
     | [] => false
     | h :: t =>
       (h :: t).all (fun x => (spanReach edges S node_count [h]).contains x))

/-- The set of simple cycles containing edge `e`, as the filtered subset
enumeration (a canonical list, so list equality is set equality). -/
def cycleMembership (node_count : Nat) (edges : List Edge) (e : Nat) :
    List (List Nat) :=
  ((List.range edges.length).sublists).filter
    (fun S => S.contains e && isSimpleCycle node_count edges S)

/-- The naive canonical-SESE oracle of spec property 3: all ordered pairs
`(a, b)` of non-`back` augmented edges with identical simple-cycle
membership such that edge-split `a` dominates edge-split `b` and
edge-split `b` post-dominates edge-split `a`, filtered to the canonical
innermost pairs, reported as `(src, dst, kind)` triple pairs. -/
def oracle_pairs (adj : List (String × AdjInfo)) :
    List ((String × String × String) × (String × String × String)) :=
  let (nodes_order, edges_spec, super_entry, super_exit) := augment adj
  let edges := buildEdges nodes_order edges_spec
  let nc := nodes_order.length
  let (eni, dom, postdom) := edge_split_dominators nc edges
    (nodes_order.indexOf super_entry) (nodes_order.indexOf super_exit)
  let split := fun a => (alistFind eni a).getD 0
  let ids := List.range edges.length
  let nonback := fun a => (edges.getD a defaultEdge).kind != "back"
  let sese := (ids.flatMap (fun a => ids.map (fun b => (a, b)))).filter
    (fun p =>
      let (a, b) := p
      a != b && nonback a && nonback b &&
        cycleMembership nc edges a == cycleMembership nc edges b &&
        (dom.getD (split b) 0).testBit (split a) &&
        (postdom.getD (split a) 0).testBit (split b))
  let filtered := sese.filter
    (fun p =>
      let (a, b) := p
      (sese.filter (fun q => q.1 == a)).all
        (fun q => (dom.getD (split q.2) 0).testBit (split b)) &&
      (sese.filter (fun q => q.2 == b)).all
        (fun q => (postdom.getD (split q.1) 0).testBit (split a)))
  let triple := fun a =>
    let e := edges.getD a defaultEdge
    (nodes_order.getD e.u "", nodes_order.getD e.v "", e.kind)
  filtered.map (fun p => (triple p.1, triple p.2))

/-! ### Concrete inputs -/

/-- The single-node self-loop input `A→A`. -/
def selfLoopAdj : List (String × AdjInfo) := [("A", ⟨["A"], ["A"]⟩)]

/-- The linear chain input `A→B, B→C` (spec scenario D3). -/
def chainAdj : List (String × AdjInfo) :=
  [("A", ⟨["B"], []⟩), ("B", ⟨["C"], ["A"]⟩), ("C", ⟨[], ["B"]⟩)]

/-- A component with neither an indegree-0 nor an outdegree-0 node
(`A↔B, B→C, C↔D`) next to a chain `X→Y` that supplies the graph's only
entry and exit: the cycle component receives no super edges. -/
def c4Adj : List (String × AdjInfo) :=
  [("A", ⟨["B"], []⟩), ("B", ⟨["A", "C"], []⟩), ("C", ⟨["D"], []⟩),
   ("D", ⟨["C"], []⟩), ("X", ⟨["Y"], []⟩), ("Y", ⟨[], []⟩)]

/-- Two disjoint 2-cycles `C↔D` and `E↔F` next to a chain `X→Y` that
supplies the only entry and exit: both cycle regions are unreachable in
the edge-split graph, so their dominator sets degenerate to full sets. -/
def c3Adj : List (String × AdjInfo) :=
  [("X", ⟨["Y"], []⟩), ("Y", ⟨[], []⟩), ("C", ⟨["D"], []⟩),
   ("D", ⟨["C"], []⟩), ("E", ⟨["F"], []⟩), ("F", ⟨["E"], []⟩)]

/-! ### Invariant definitions for the verification -/

/-- Total number of occurrences of edge id `e` over all adjacency lists
of `dadj`. -/
def totalCount (dadj : List (List Nat)) (e : Nat) : Nat :=
  ∑ n ∈ Finset.range dadj.length, ((dadj.getD n []).count e)

/-- Occurrences of edge id `e` still to be yielded by the iterators on
the DFS stack. -/
def stackRem (dadj : List (List Nat)) (stack : List (Nat × Nat)) (e : Nat) :
    Nat :=
  (stack.map (fun p => (((dadj.getD p.1 []).drop p.2).count e))).sum

/-- Occurrences of edge id `e` in the adjacency lists of the nodes not
yet visited. -/
def unvisCount (dadj : List (List Nat)) (visited : List Bool) (e : Nat) :
    Nat :=
  ∑ n ∈ Finset.range dadj.length,
    (if visited.getD n false then 0 else (dadj.getD n []).count e)

/-- The immutable projection of an internal edge (everything but the
classification scratch fields). -/
def projEdge (e : Edge) : Nat × Nat × Nat × String := (e.id, e.u, e.v, e.kind)

/-- `es'` extends `es` up to the edges' immutable projections: the sweep
only rewrites scratch fields and appends capping edges. -/
def EdgesExt (es es' : List Edge) : Prop :=
  ∃ extra, es'.map projEdge = es.map projEdge ++ extra

/-- The immutable projection of a region (identity and boundary). -/
def projReg (r : RegionInfo) : Nat × Option Nat × Option Nat :=
  (r.id, r.entry_edge, r.exit_edge)

/-- Invariant of the region-building walk after consuming `processed`:
the `last_edge_by_class` table has nodup keys, nodup values drawn from
the processed prefix, every region has boundary edges in the prefix with
distinct ids, entry and exit ids are region-wise nodup, region ids are
positive, and no region's entry is still a pending `last` value. -/
def RBInv (processed : List Nat) (acc : List RegionInfo × List (Nat × Nat)) :
    Prop :=
  ((acc.2.map (fun p => p.1)).Nodup) ∧
  ((acc.2.map (fun p => p.2)).Nodup) ∧
  (∀ p ∈ acc.2, p.2 ∈ processed) ∧
  (∀ r ∈ acc.1, ∃ a b, r.entry_edge = some a ∧ r.exit_edge = some b ∧
     a ∈ processed ∧ b ∈ processed ∧ a ≠ b) ∧
  ((acc.1.map (fun r => r.entry_edge)).Nodup) ∧
  ((acc.1.map (fun r => r.exit_edge)).Nodup) ∧
  (∀ r ∈ acc.1, r.id ≠ 0) ∧
  (∀ r ∈ acc.1, ∀ p ∈ acc.2, r.entry_edge ≠ some p.2)

/-- Edge `e` has been recorded by the undirected DFS: either as the tree
edge of a visited node, or as a back-edge registered at its upper
endpoint.  These are exactly the edges the post-order sweep classifies. -/
def UdfsClassified (node_count : Nat) (s : UDfsState) (e : Nat) : Prop :=
  (∃ n, n < node_count ∧ s.dfsnum.getD n 0 ≠ 0 ∧
    s.parent.getD n (-1) ≠ -1 ∧ s.parent_edge.getD n (-1) = Int.ofNat e) ∨
  (∃ n, n < node_count ∧ s.dfsnum.getD n 0 ≠ 0 ∧
    e ∈ s.backedges_to.getD n [])

/-- Remaining work of the undirected DFS loop: pending iterator
positions on the stack plus the whole adjacency of unvisited nodes. -/
def udfsUnvis (und : List (List (Nat × Nat))) (node_count : Nat)
    (dfsnum : List Nat) : Nat :=
  ∑ n ∈ Finset.range node_count,
    (if dfsnum.getD n 0 == 0 then (und.getD n []).length + 1 else 0)

/-- The termination measure of the undirected DFS loop: remaining work on
the stack plus all the work of still-unvisited nodes. -/
def udfsMeasure (und : List (List (Nat × Nat))) (node_count : Nat)
    (dfsnum : List Nat) (stack : List (Nat × Nat)) : Nat :=
  (stack.map (fun p => (und.getD p.1 []).length - p.2 + 1)).sum +
    udfsUnvis und node_count dfsnum

/-- Well-formedness of the undirected adjacency structure handed to the
DFS: one adjacency row per node, targets in range, edge ids in range. -/
def UdfsWF (und : List (List (Nat × Nat))) (node_count edge_count : Nat) : Prop :=
  und.length = node_count ∧
  ∀ n, ∀ q ∈ und.getD n [], q.2 < node_count ∧ q.1 < edge_count

/-- The invariant of the undirected DFS loop. -/
def UdfsInv (und : List (List (Nat × Nat))) (node_count edge_count : Nat)
    (s : UDfsState) (stack : List (Nat × Nat)) : Prop :=
  s.dfsnum.length = node_count ∧
  s.parent.length = node_count ∧
  s.parent_edge.length = node_count ∧
  s.backedges_to.length = node_count ∧
  s.edge_seen.length = edge_count ∧
  1 ≤ s.time ∧
  (∀ p ∈ stack, p.1 < node_count ∧ s.dfsnum.getD p.1 0 ≠ 0) ∧
  (∀ p ∈ stack, ∀ j, j < p.2 →
    s.edge_seen.getD ((und.getD p.1 []).getD j (0, 0)).1 false = true) ∧
  (∀ n, n < node_count → s.dfsnum.getD n 0 ≠ 0 →
    (∃ i, (n, i) ∈ stack) ∨
      (∀ j, j < (und.getD n []).length →
        s.edge_seen.getD ((und.getD n []).getD j (0, 0)).1 false = true)) ∧
  (∀ n, n < node_count → s.dfsnum.getD n 0 ≠ 0 →
    (∃ i, (n, i) ∈ stack) ∨ n ∈ s.postorder) ∧
  (∀ e, s.edge_seen.getD e false = true → UdfsClassified node_count s e) ∧
  (∀ n, n < node_count → s.dfsnum.getD n 0 = 0 →
    s.parent_edge.getD n (-1) = -1 ∧ s.parent.getD n (-1) = -1)

/-! ### Supporting lemmas: list cells and association lists -/

theorem listModify_length (f : α → α) :
    ∀ (xs : List α) (i : Nat), (listModify xs i f).length = xs.length := by
  intro xs
  induction xs with
  | nil => intro i; rfl
  | cons x rest ih =>
    intro i
    cases i with
    | zero => simp [listModify]
    | succ n => simp [listModify, ih]

theorem getD_listModify_ne (f : α → α) (d : α) :
    ∀ (xs : List α) (i j : Nat), i ≠ j →
      (listModify xs i f).getD j d = xs.getD j d := by
  intro xs
  induction xs with
  | nil => intro i j _; rfl
  | cons x rest ih =>
    intro i j hne
    cases i with
    | zero =>
      cases j with
      | zero => exact absurd rfl hne
      | succ m => simp [listModify]
    | succ n =>
      cases j with
      | zero => simp [listModify]
      | succ m =>
        simp only [listModify, List.getD_cons_succ]
        exact ih n m (fun h => hne (by rw [h]))

theorem getD_listModify_self (f : α → α) (d : α) :
    ∀ (xs : List α) (i : Nat), i < xs.length →
      (listModify xs i f).getD i d = f (xs.getD i d) := by
  intro xs
  induction xs with
  | nil => intro i h; simp at h
  | cons x rest ih =>
    intro i h
    cases i with
    | zero => simp [listModify]
    | succ n =>
      simp only [listModify, List.getD_cons_succ]
      exact ih n (by simpa using h)

theorem listModify_oob (f : α → α) :
    ∀ (xs : List α) (i : Nat), xs.length ≤ i → listModify xs i f = xs := by
  intro xs
  induction xs with
  | nil => intro i _; rfl
  | cons x rest ih =>
    intro i h
    cases i with
    | zero => simp at h
    | succ n => simp [listModify, ih n (by simpa using h)]

theorem listModify_map_eq (f : α → α) (g : α → β)
    (hg : ∀ a, g (f a) = g a) :
    ∀ (xs : List α) (i : Nat), (listModify xs i f).map g = xs.map g := by
  intro xs
  induction xs with
  | nil => intro i; rfl
  | cons x rest ih =>
    intro i
    cases i with
    | zero => simp [listModify, hg]
    | succ n => simp [listModify, ih]

theorem getD_set_ne (l : List α) (a d : α) {i j : Nat} (h : i ≠ j) :
    (l.set i a).getD j d = l.getD j d := by
  simp [List.getD_eq_getElem?_getD, List.getElem?_set_ne h]

theorem getD_set_self (l : List α) (a d : α) {i : Nat} (h : i < l.length) :
    (l.set i a).getD i d = a := by
  simp [List.getD_eq_getElem?_getD, List.getElem?_set_self h]

theorem getD_replicate (c : α) : ∀ (n i : Nat),
    (List.replicate n c).getD i c = c := by
  intro n
  induction n with
  | zero => intro i; rfl
  | succ m ih =>
    intro i
    cases i with
    | zero => rfl
    | succ k => exact ih k

theorem alistFind_mem {l : List (Nat × Nat)} {k v : Nat}
    (h : alistFind l k = some v) : (k, v) ∈ l := by
  unfold alistFind at h
  cases hf : l.find? (fun p => p.1 == k) with
  | none => rw [hf] at h; simp at h
  | some x =>
    rw [hf] at h
    have hv : x.2 = v := by simpa using h
    have hx := List.mem_of_find?_eq_some hf
    have hpred := List.find?_some hf
    have hk : x.1 = k := by simpa using hpred
    have : (k, v) = x := by
      cases x
      simp only [Prod.mk.injEq]
      exact ⟨hk.symm, hv.symm⟩
    rwa [this]

theorem alistPut_mem {l : List (Nat × Nat)} {k v : Nat}
    (hkeys : (l.map (fun p => p.1)).Nodup) :
    ∀ p ∈ alistPut l k v, p = (k, v) ∨ (p ∈ l ∧ p.1 ≠ k) := by
  induction l with
  | nil => intro p hp; simp [alistPut] at hp; exact Or.inl hp
  | cons q rest ih =>
    have hmap := hkeys
    rw [List.map_cons] at hmap
    have hh := List.nodup_cons.mp hmap
    intro p hp
    by_cases hk : q.1 == k
    · have hqk : q.1 = k := by simpa using hk
      simp only [alistPut, hk, if_pos] at hp
      rcases List.mem_cons.mp hp with h | h
      · exact Or.inl h
      · right
        refine ⟨List.mem_cons_of_mem _ h, ?_⟩
        intro hpk
        exact hh.1 (by rw [hqk, ← hpk]; exact List.mem_map_of_mem _ h)
    · simp only [alistPut, hk, if_neg, Bool.false_eq_true, not_false_iff] at hp
      rcases List.mem_cons.mp hp with h | h
      · right
        refine ⟨by simp [h], ?_⟩
        rw [h]
        simpa using hk
      · rcases ih hh.2 p h with h' | h'
        · exact Or.inl h'
        · exact Or.inr ⟨List.mem_cons_of_mem _ h'.1, h'.2⟩

theorem alistPut_keys_subset {l : List (Nat × Nat)} {k v x : Nat} :
    x ∈ (alistPut l k v).map (fun p => p.1) →
      x = k ∨ x ∈ l.map (fun p => p.1) := by
  induction l with
  | nil => intro h; simp [alistPut] at h; exact Or.inl h
  | cons q rest ih =>
    intro h
    by_cases hk : q.1 == k
    · simp only [alistPut, hk, if_pos, List.map_cons, List.mem_cons] at h
      rcases h with h | h
      · exact Or.inl h
      · exact Or.inr (by simp [h])
    · simp only [alistPut, hk, Bool.false_eq_true, if_neg, not_false_iff,
        List.map_cons, List.mem_cons] at h
      rcases h with h | h
      · exact Or.inr (by simp [h])
      · rcases ih h with h' | h'
        · exact Or.inl h'
        · exact Or.inr (by simp [h'])

theorem alistPut_values_subset {l : List (Nat × Nat)} {k v x : Nat} :
    x ∈ (alistPut l k v).map (fun p => p.2) →
      x = v ∨ x ∈ l.map (fun p => p.2) := by
  induction l with
  | nil => intro h; simp [alistPut] at h; exact Or.inl h
  | cons q rest ih =>
    intro h
    by_cases hk : q.1 == k
    · simp only [alistPut, hk, if_pos, List.map_cons, List.mem_cons] at h
      rcases h with h | h
      · exact Or.inl h
      · exact Or.inr (by simp [h])
    · simp only [alistPut, hk, Bool.false_eq_true, if_neg, not_false_iff,
        List.map_cons, List.mem_cons] at h
      rcases h with h | h
      · exact Or.inr (by simp [h])
      · rcases ih h with h' | h'
        · exact Or.inl h'
        · exact Or.inr (by simp [h'])

theorem alistPut_keys_nodup {l : List (Nat × Nat)} {k v : Nat}
    (h : (l.map (fun p => p.1)).Nodup) :
    ((alistPut l k v).map (fun p => p.1)).Nodup := by
  induction l with
  | nil => simp [alistPut]
  | cons q rest ih =>
    have hmap := h
    rw [List.map_cons] at hmap
    have hh := List.nodup_cons.mp hmap
    by_cases hk : q.1 == k
    · have hqk : q.1 = k := by simpa using hk
      simp only [alistPut, hk, if_pos, List.map_cons]
      exact List.nodup_cons.mpr ⟨by rw [← hqk]; exact hh.1, hh.2⟩
    · simp only [alistPut, hk, Bool.false_eq_true, if_neg, not_false_iff,
        List.map_cons]
      refine List.nodup_cons.mpr ⟨?_, ih hh.2⟩
      intro hmem
      rcases alistPut_keys_subset hmem with h' | h'
      · exact absurd h' (by simpa using hk)
      · exact hh.1 h'

theorem alistPut_values_nodup {l : List (Nat × Nat)} {k v : Nat}
    (h : (l.map (fun p => p.2)).Nodup) (hv : v ∉ l.map (fun p => p.2)) :
    ((alistPut l k v).map (fun p => p.2)).Nodup := by
  induction l with
  | nil => simp [alistPut]
  | cons q rest ih =>
    have hmap := h
    rw [List.map_cons] at hmap
    have hh := List.nodup_cons.mp hmap
    have hv' : v ∉ rest.map (fun p => p.2) := fun hc => hv (by simp [hc])
    by_cases hk : q.1 == k
    · simp only [alistPut, hk, if_pos, List.map_cons]
      exact List.nodup_cons.mpr ⟨hv', hh.2⟩
    · simp only [alistPut, hk, Bool.false_eq_true, if_neg, not_false_iff,
        List.map_cons]
      refine List.nodup_cons.mpr ⟨?_, ih hh.2 hv'⟩
      intro hmem
      rcases alistPut_values_subset hmem with h' | h'
      · exact hv (by simp [h'])
      · exact hh.1 h'

/-! ### Supporting lemmas: the region builder -/

theorem regionStep_inv (edges : List Edge) (processed : List Nat)
    (acc : List RegionInfo × List (Nat × Nat)) (cur : Nat)
    (hcur : cur ∉ processed) (h : RBInv processed acc) :
    RBInv (processed ++ [cur]) (regionStep edges acc cur) := by
  obtain ⟨regions, last⟩ := acc
  obtain ⟨hK, hV, hVmem, hreg, hEnt, hEx, hId, hLast⟩ := h
  simp only at hK hV hVmem hreg hEnt hEx hId hLast
  have hcurNotVal : cur ∉ last.map (fun p => p.2) := by
    intro hc
    rcases List.mem_map.mp hc with ⟨p, hp, hpv⟩
    exact hcur (hpv ▸ hVmem p hp)
  unfold regionStep
  cases hcls : (edges.getD cur defaultEdge).class_id with
  | none =>
    dsimp only
    refine ⟨hK, hV, ?_, ?_, hEnt, hEx, hId, hLast⟩
    · exact fun p hp => List.mem_append.mpr (Or.inl (hVmem p hp))
    · intro r hr
      obtain ⟨a, b, h1, h2, h3, h4, h5⟩ := hreg r hr
      exact ⟨a, b, h1, h2, List.mem_append.mpr (Or.inl h3),
        List.mem_append.mpr (Or.inl h4), h5⟩
  | some cls =>
    dsimp only
    have hKput := alistPut_keys_nodup (k := cls) (v := cur) hK
    have hVput := alistPut_values_nodup (k := cls) (v := cur) hV hcurNotVal
    have hVmemput : ∀ p ∈ alistPut last cls cur, p.2 ∈ processed ++ [cur] := by
      intro p hp
      rcases alistPut_mem hK p hp with h' | h'
      · rw [h']; exact List.mem_append.mpr (Or.inr (List.mem_singleton.mpr rfl))
      · exact List.mem_append.mpr (Or.inl (hVmem p h'.1))
    cases hfind : alistFind last cls with
    | none =>
      dsimp only
      refine ⟨hKput, hVput, hVmemput, ?_, hEnt, hEx, hId, ?_⟩
      · intro r hr
        obtain ⟨a, b, h1, h2, h3, h4, h5⟩ := hreg r hr
        exact ⟨a, b, h1, h2, List.mem_append.mpr (Or.inl h3),
          List.mem_append.mpr (Or.inl h4), h5⟩
      · intro r hr p hp
        rcases alistPut_mem hK p hp with h' | h'
        · obtain ⟨a, _, h1, _, h3, _, _⟩ := hreg r hr
          rw [h', h1]
          intro hc
          have hac : a = cur := by simpa using hc
          exact hcur (hac ▸ h3)
        · exact hLast r hr p h'.1
    | some prev =>
      dsimp only
      have hprevmem : (cls, prev) ∈ last := alistFind_mem hfind
      have hprevproc : prev ∈ processed := hVmem _ hprevmem
      have hprevne : prev ≠ cur := fun hc => hcur (hc ▸ hprevproc)
      refine ⟨hKput, hVput, hVmemput, ?_, ?_, ?_, ?_, ?_⟩
      · intro r hr
        rcases List.mem_append.mp hr with h' | h'
        · obtain ⟨a, b, h1, h2, h3, h4, h5⟩ := hreg r h'
          exact ⟨a, b, h1, h2, List.mem_append.mpr (Or.inl h3),
            List.mem_append.mpr (Or.inl h4), h5⟩
        · rw [List.mem_singleton.mp h']
          exact ⟨prev, cur, rfl, rfl, List.mem_append.mpr (Or.inl hprevproc),
            List.mem_append.mpr (Or.inr (List.mem_singleton.mpr rfl)), hprevne⟩
      · rw [List.map_append]
        refine List.nodup_append.mpr ⟨hEnt, by simp, ?_⟩
        intro x hx hx'
        simp only [List.map_cons, List.map_nil, List.mem_singleton] at hx'
        rcases List.mem_map.mp hx with ⟨r, hr, hre⟩
        exact hLast r hr (cls, prev) hprevmem (by rw [hre, hx'])
      · rw [List.map_append]
        refine List.nodup_append.mpr ⟨hEx, by simp, ?_⟩
        intro x hx hx'
        simp only [List.map_cons, List.map_nil, List.mem_singleton] at hx'
        rcases List.mem_map.mp hx with ⟨r, hr, hre⟩
        obtain ⟨_, b, _, h2, _, h4, _⟩ := hreg r hr
        rw [← hre, h2] at hx'
        exact hcur ((Option.some.inj hx') ▸ h4)
      · intro r hr
        rcases List.mem_append.mp hr with h' | h'
        · exact hId r h'
        · rw [List.mem_singleton.mp h']
          exact Nat.succ_ne_zero _
      · intro r hr p hp
        rcases List.mem_append.mp hr with h' | h'
        · rcases alistPut_mem hK p hp with h'' | h''
          · obtain ⟨a, _, h1, _, h3, _, _⟩ := hreg r h'
            rw [h'', h1]
            intro hc
            have hac : a = cur := by simpa using hc
            exact hcur (hac ▸ h3)
          · exact hLast r h' p h''.1
        · rw [List.mem_singleton.mp h']
          rcases alistPut_mem hK p hp with h'' | h''
          · rw [h'']
            exact fun hc => hprevne (Option.some.inj hc)
          · intro hc
            have hsame : p.2 = (cls, prev).2 := (Option.some.inj hc).symm
            have := List.inj_on_of_nodup_map hV h''.1 hprevmem hsame
            exact h''.2 (by rw [this])

theorem foldl_regionStep_inv (edges : List Edge) :
    ∀ (rest processed : List Nat) (acc : List RegionInfo × List (Nat × Nat)),
      (processed ++ rest).Nodup → RBInv processed acc →
      RBInv (processed ++ rest) (rest.foldl (regionStep edges) acc) := by
  intro rest
  induction rest with
  | nil => intro processed acc _ hi; simpa using hi
  | cons cur rest ih =>
    intro processed acc h hi
    have hparts := List.nodup_append.mp h
    have hcur : cur ∉ processed :=
      fun hc => hparts.2.2 hc (List.mem_cons_self _ _)
    have h' : ((processed ++ [cur]) ++ rest).Nodup := by
      rw [List.append_assoc, List.singleton_append]
      exact h
    have := ih (processed ++ [cur]) (regionStep edges acc cur) h'
      (regionStep_inv _ _ _ _ hcur hi)
    rw [List.append_assoc, List.singleton_append] at this
    simpa using this

theorem buildRegions_inv (edges : List Edge) (order : List Nat)
    (h : order.Nodup) :
    RBInv order (order.foldl (regionStep edges) ([], [])) := by
  have h0 : RBInv [] (([] : List RegionInfo), ([] : List (Nat × Nat))) :=
    ⟨List.nodup_nil, List.nodup_nil, by simp, by simp, List.nodup_nil,
     List.nodup_nil, by simp, by simp⟩
  have := foldl_regionStep_inv edges order [] ([], []) (by simpa using h) h0
  simpa using this

/-! ### Supporting lemmas: the edge-order DFS visits each edge at most
once -/

theorem unvisCount_set (dadj : List (List Nat)) (visited : List Bool)
    (nxt e : Nat) (hlen : visited.length = dadj.length)
    (hnx : visited.getD nxt false = false) :
    unvisCount dadj (visited.set nxt true) e + (dadj.getD nxt []).count e =
      unvisCount dadj visited e := by
  by_cases h : nxt < dadj.length
  · unfold unvisCount
    rw [Finset.sum_eq_sum_diff_singleton_add (Finset.mem_range.mpr h)
        (fun n => if (visited.set nxt true).getD n false then 0
                  else (dadj.getD n []).count e),
      Finset.sum_eq_sum_diff_singleton_add (Finset.mem_range.mpr h)
        (fun n => if visited.getD n false then 0 else (dadj.getD n []).count e)]
    have hcong :
        (∑ n ∈ Finset.range dadj.length \ {nxt},
          (if (visited.set nxt true).getD n false then 0
           else (dadj.getD n []).count e)) =
        ∑ n ∈ Finset.range dadj.length \ {nxt},
          (if visited.getD n false then 0 else (dadj.getD n []).count e) := by
      refine Finset.sum_congr rfl (fun n hn => ?_)
      have hne : nxt ≠ n := by
        intro hc
        exact ((Finset.mem_sdiff.mp hn).2) (by simp [hc])
      rw [getD_set_ne _ _ _ hne]
    rw [hcong]
    have hset : (visited.set nxt true).getD nxt false = true :=
      getD_set_self _ _ _ (by rw [hlen]; exact h)
    rw [hset, hnx]
    simp
  · have hge : dadj.length ≤ nxt := Nat.le_of_not_lt h
    have h1 : (dadj.getD nxt []).count e = 0 := by
      rw [List.getD_eq_default _ _ hge]
      exact List.count_nil e
    have h2 : visited.set nxt true = visited :=
      List.set_eq_of_length_le (by rw [hlen]; exact hge)
    rw [h1, h2, Nat.add_zero]

theorem unvisCount_replicate (dadj : List (List Nat)) (e : Nat) :
    unvisCount dadj (List.replicate dadj.length false) e = totalCount dadj e := by
  unfold unvisCount totalCount
  refine Finset.sum_congr rfl (fun n _ => ?_)
  rw [getD_replicate]
  rfl

theorem stackRem_cons (dadj : List (List Nat)) (node i e : Nat)
    (rest : List (Nat × Nat)) :
    stackRem dadj ((node, i) :: rest) e =
      ((dadj.getD node []).drop i).count e + stackRem dadj rest e := by
  simp [stackRem]

theorem drop_count_split (l : List Nat) (i e : Nat) (h : i < l.length) :
    (l.drop i).count e =
      (if l.getD i 0 == e then 1 else 0) + (l.drop (i + 1)).count e := by
  rw [List.drop_eq_getElem_cons h, List.count_cons, List.getD_eq_getElem _ _ h]
  omega

theorem dedgeLoop_le (dadj : List (List Nat)) (edges : List Edge) (e : Nat) :
    ∀ (fuel : Nat) (visited : List Bool) (order : List Nat)
      (stack : List (Nat × Nat)),
      visited.length = dadj.length →
      order.count e + stackRem dadj stack e + unvisCount dadj visited e ≤
        totalCount dadj e →
      ((dedgeLoop dadj edges fuel visited order stack).2.count e +
          unvisCount dadj (dedgeLoop dadj edges fuel visited order stack).1 e ≤
        totalCount dadj e) ∧
      (dedgeLoop dadj edges fuel visited order stack).1.length =
        dadj.length := by
  intro fuel
  induction fuel with
  | zero =>
    intro visited order stack hlen hinv
    unfold dedgeLoop
    dsimp only
    exact ⟨by omega, hlen⟩
  | succ f ih =>
    intro visited order stack hlen hinv
    cases stack with
    | nil =>
      unfold dedgeLoop
      dsimp only
      exact ⟨by omega, hlen⟩
    | cons top rest =>
      obtain ⟨node, i⟩ := top
      simp only [dedgeLoop]
      by_cases hlt : i < (dadj.getD node []).length
      · rw [if_pos hlt]
        have hcount_ord :
            (order ++ [(dadj.getD node []).getD i 0]).count e =
              order.count e +
                (if (dadj.getD node []).getD i 0 == e then 1 else 0) := by
          rw [List.count_append, List.count_singleton]
        have hsplit := drop_count_split (dadj.getD node []) i e hlt
        have hrem := stackRem_cons dadj node i e rest
        have hrem' := stackRem_cons dadj node (i + 1) e rest
        by_cases hvis :
            visited.getD (edges.getD ((dadj.getD node []).getD i 0)
              defaultEdge).v false
        · rw [if_pos hvis]
          exact ih visited _ _ hlen (by omega)
        · rw [if_neg hvis]
          have hnx : visited.getD (edges.getD ((dadj.getD node []).getD i 0)
              defaultEdge).v false = false := by
            exact Bool.not_eq_true _ ▸ (by simpa using hvis)
          have hset := unvisCount_set dadj visited
            ((edges.getD ((dadj.getD node []).getD i 0) defaultEdge).v) e hlen hnx
          have hrem'' := stackRem_cons dadj
            ((edges.getD ((dadj.getD node []).getD i 0) defaultEdge).v) 0 e
            ((node, i + 1) :: rest)
          refine ih _ _ _ (by rw [List.length_set]; exact hlen) ?_
          rw [hcount_ord, hrem'']
          simp only [List.drop_zero] at hrem'' ⊢
          omega
      · rw [if_neg hlt]
        have hdrop : ((dadj.getD node []).drop i).count e = 0 := by
          rw [List.drop_eq_nil_of_le (Nat.le_of_not_lt hlt)]
          exact List.count_nil e
        have hrem := stackRem_cons dadj node i e rest
        exact ih visited order rest hlen (by omega)

theorem dedgeWalk_le (dadj : List (List Nat)) (edges : List Edge) (e : Nat)
    (fuel : Nat) (visited : List Bool) (order : List Nat) (start : Nat)
    (hlen : visited.length = dadj.length)
    (hstart : visited.getD start false = false)
    (hinv : order.count e + unvisCount dadj visited e ≤ totalCount dadj e) :
    ((dedgeWalk dadj edges fuel visited order start).2.count e +
        unvisCount dadj (dedgeWalk dadj edges fuel visited order start).1 e ≤
      totalCount dadj e) ∧
    (dedgeWalk dadj edges fuel visited order start).1.length = dadj.length := by
  unfold dedgeWalk
  refine dedgeLoop_le dadj edges e fuel _ order _ ?_ ?_
  · rw [List.length_set]; exact hlen
  · have hset := unvisCount_set dadj visited start e hlen hstart
    have hrem := stackRem_cons dadj start 0 e []
    have hnil : stackRem dadj [] e = 0 := by simp [stackRem]
    simp only [List.drop_zero] at hrem
    omega

theorem foldWalk_le (dadj : List (List Nat)) (edges : List Edge) (e fuel : Nat) :
    ∀ (ns : List Nat) (p : List Bool × List Nat),
      p.2.count e + unvisCount dadj p.1 e ≤ totalCount dadj e →
      p.1.length = dadj.length →
      ((ns.foldl
          (fun (p : List Bool × List Nat) n =>
            if p.1.getD n false then p else dedgeWalk dadj edges fuel p.1 p.2 n)
          p).2.count e +
        unvisCount dadj
          (ns.foldl
            (fun (p : List Bool × List Nat) n =>
              if p.1.getD n false then p
              else dedgeWalk dadj edges fuel p.1 p.2 n)
            p).1 e ≤ totalCount dadj e) ∧
      (ns.foldl
        (fun (p : List Bool × List Nat) n =>
          if p.1.getD n false then p else dedgeWalk dadj edges fuel p.1 p.2 n)
        p).1.length = dadj.length := by
  intro ns
  induction ns with
  | nil => intro p h1 h2; exact ⟨h1, h2⟩
  | cons n rest ih =>
    intro p h1 h2
    simp only [List.foldl_cons]
    by_cases hv : p.1.getD n false
    · rw [if_pos hv]
      exact ih p h1 h2
    · rw [if_neg hv]
      have hw := dedgeWalk_le dadj edges e fuel p.1 p.2 n h2
        (by simpa using hv) h1
      exact ih _ hw.1 hw.2

theorem dfs_edge_order_count_le (dadj : List (List Nat)) (edges : List Edge)
    (root e : Nat) :
    (dfs_edge_order dadj edges root).count e ≤ totalCount dadj e := by
  unfold dfs_edge_order
  dsimp only
  have hstart : (List.replicate dadj.length false).getD root false = false :=
    getD_replicate false dadj.length root
  have hinit : (([] : List Nat)).count e +
      unvisCount dadj (List.replicate dadj.length false) e ≤
      totalCount dadj e := by
    rw [unvisCount_replicate]
    simp
  have hw := dedgeWalk_le dadj edges e
    (dadj.foldl (fun a l => a + l.length) 0 + dadj.length + 2)
    (List.replicate dadj.length false) [] root
    (List.length_replicate _ _) hstart hinit
  have := foldWalk_le dadj edges e
    (dadj.foldl (fun a l => a + l.length) 0 + dadj.length + 2)
    (List.range dadj.length) _ hw.1 hw.2
  omega

/-! ### Supporting lemmas: the constructed adjacency and the edge order -/

theorem totalCount_listModify_append (dadj : List (List Nat)) (u x e : Nat) :
    totalCount (listModify dadj u (fun l => l ++ [x])) e ≤
      totalCount dadj e + (if x == e then 1 else 0) := by
  by_cases hu : u < dadj.length
  · unfold totalCount
    rw [listModify_length]
    rw [Finset.sum_eq_sum_diff_singleton_add (Finset.mem_range.mpr hu)
        (fun n => ((listModify dadj u (fun l => l ++ [x])).getD n []).count e),
      Finset.sum_eq_sum_diff_singleton_add (Finset.mem_range.mpr hu)
        (fun n => ((dadj.getD n []).count e))]
    have hcong :
        (∑ n ∈ Finset.range dadj.length \ {u},
          ((listModify dadj u (fun l => l ++ [x])).getD n []).count e) =
        ∑ n ∈ Finset.range dadj.length \ {u}, ((dadj.getD n []).count e) := by
      refine Finset.sum_congr rfl (fun n hn => ?_)
      have hne : u ≠ n := fun hc => (Finset.mem_sdiff.mp hn).2 (by simp [hc])
      rw [getD_listModify_ne _ _ _ _ _ hne]
    rw [hcong, getD_listModify_self _ _ _ _ hu, List.count_append,
      List.count_singleton]
    omega
  · rw [listModify_oob _ _ _ (Nat.le_of_not_lt hu)]
    omega

theorem totalCount_replicate_nil (n e : Nat) :
    totalCount (List.replicate n ([] : List Nat)) e = 0 := by
  unfold totalCount
  rw [List.length_replicate]
  refine Finset.sum_eq_zero (fun i _ => ?_)
  rw [getD_replicate]
  rfl

theorem dadj_fold_count_le (e : Nat) :
    ∀ (es : List Edge) (acc : List (List Nat)),
      totalCount
        (es.foldl
          (fun dadj ed =>
            if ed.kind != "back" then
              listModify dadj ed.u (fun l => l ++ [ed.id])
            else dadj)
          acc) e ≤
        totalCount acc e + List.count e (es.map (fun ed => ed.id)) := by
  intro es
  induction es with
  | nil => intro acc; simp
  | cons ed rest ih =>
    intro acc
    simp only [List.foldl_cons, List.map_cons, List.count_cons]
    by_cases hk : ed.kind != "back"
    · rw [if_pos hk]
      have h1 := ih (listModify acc ed.u (fun l => l ++ [ed.id]))
      have h2 := totalCount_listModify_append acc ed.u ed.id e
      by_cases hx : ed.id == e
      · rw [if_pos hx] at h2 ⊢
        omega
      · rw [if_neg hx] at h2 ⊢
        omega
    · rw [if_neg hk]
      have h1 := ih acc
      omega

theorem augEdges_map_id (adj : List (String × AdjInfo)) :
    (augEdges adj).map (fun ed => ed.id) =
      List.range (augEdges adj).length := by
  unfold augEdges buildEdges
  rw [List.map_map, List.length_map, List.enum_length]
  have : ((fun ed => Edge.id ed) ∘ fun (p : Nat × String × String × String) =>
      mkEdge p.1 (((augment adj).1).indexOf p.2.1)
        (((augment adj).1).indexOf p.2.2.1) p.2.2.2) = Prod.fst := by
    funext p
    rfl
  rw [this, List.enum_map_fst]

theorem dadjOf_totalCount_le_one (adj : List (String × AdjInfo)) (e : Nat) :
    totalCount (dadjOf adj) e ≤ 1 := by
  unfold dadjOf
  have h1 := dadj_fold_count_le e (augEdges adj)
    (List.replicate (augNodes adj).length [])
  rw [totalCount_replicate_nil, augEdges_map_id] at h1
  have h2 : List.count e (List.range (augEdges adj).length) ≤ 1 :=
    List.nodup_iff_count_le_one.mp (List.nodup_range _) e
  omega

theorem edge_order_nodup (adj : List (String × AdjInfo)) (edges : List Edge) :
    (dfs_edge_order (dadjOf adj) edges (rootOf adj)).Nodup := by
  refine List.nodup_iff_count_le_one.mpr (fun e => ?_)
  exact le_trans (dfs_edge_order_count_le _ _ _ _)
    (dadjOf_totalCount_le_one adj e)

theorem dedgeLoop_mem (dadj : List (List Nat)) (edges : List Edge) :
    ∀ (fuel : Nat) (visited : List Bool) (order : List Nat)
      (stack : List (Nat × Nat)),
      (∀ x ∈ order, ∃ n, n < dadj.length ∧ x ∈ dadj.getD n []) →
      ∀ x ∈ (dedgeLoop dadj edges fuel visited order stack).2,
        ∃ n, n < dadj.length ∧ x ∈ dadj.getD n [] := by
  intro fuel
  induction fuel with
  | zero => intro visited order stack h; unfold dedgeLoop; exact h
  | succ f ih =>
    intro visited order stack h
    cases stack with
    | nil => unfold dedgeLoop; exact h
    | cons top rest =>
      obtain ⟨node, i⟩ := top
      simp only [dedgeLoop]
      by_cases hlt : i < (dadj.getD node []).length
      · rw [if_pos hlt]
        have hnode : node < dadj.length := by
          by_contra hc
          rw [List.getD_eq_default _ _ (Nat.le_of_not_lt hc)] at hlt
          exact Nat.not_lt_zero i hlt
        have hmem : (dadj.getD node []).getD i 0 ∈ dadj.getD node [] := by
          rw [List.getD_eq_getElem _ _ hlt]
          exact List.getElem_mem hlt
        have horder : ∀ x ∈ order ++ [(dadj.getD node []).getD i 0],
            ∃ n, n < dadj.length ∧ x ∈ dadj.getD n [] := by
          intro x hx
          rcases List.mem_append.mp hx with hx | hx
          · exact h x hx
          · rw [List.mem_singleton.mp hx]
            exact ⟨node, hnode, hmem⟩
        by_cases hvis :
            visited.getD (edges.getD ((dadj.getD node []).getD i 0)
              defaultEdge).v false
        · rw [if_pos hvis]
          exact ih _ _ _ horder
        · rw [if_neg hvis]
          exact ih _ _ _ horder
      · rw [if_neg hlt]
        exact ih _ _ _ h

theorem dfs_edge_order_mem (dadj : List (List Nat)) (edges : List Edge)
    (root : Nat) :
    ∀ x ∈ dfs_edge_order dadj edges root,
      ∃ n, n < dadj.length ∧ x ∈ dadj.getD n [] := by
  unfold dfs_edge_order
  dsimp only
  have hfold : ∀ (ns : List Nat) (p : List Bool × List Nat),
      (∀ x ∈ p.2, ∃ n, n < dadj.length ∧ x ∈ dadj.getD n []) →
      ∀ x ∈ (ns.foldl
        (fun (p : List Bool × List Nat) n =>
          if p.1.getD n false then p
          else dedgeWalk dadj edges
            (dadj.foldl (fun a l => a + l.length) 0 + dadj.length + 2) p.1 p.2 n)
        p).2,
        ∃ n, n < dadj.length ∧ x ∈ dadj.getD n [] := by
    intro ns
    induction ns with
    | nil => intro p h; exact h
    | cons n rest ihn =>
      intro p h
      simp only [List.foldl_cons]
      by_cases hv : p.1.getD n false
      · rw [if_pos hv]; exact ihn p h
      · rw [if_neg hv]
        exact ihn _ (dedgeLoop_mem dadj edges _ _ _ _ h)
  exact hfold (List.range dadj.length) _
    (dedgeLoop_mem dadj edges _ _ _ _ (by simp))

/-! ### Supporting lemmas: which ids inhabit the directed adjacency -/

theorem dadj_fold_mem (P : Nat → Prop) :
    ∀ (es : List Edge) (acc : List (List Nat)),
      (∀ ed ∈ es, ed.kind ≠ "back" → P ed.id) →
      (∀ n x, x ∈ acc.getD n [] → P x) →
      ∀ n x,
        x ∈ ((es.foldl
          (fun dadj ed =>
            if ed.kind != "back" then
              listModify dadj ed.u (fun l => l ++ [ed.id])
            else dadj)
          acc).getD n []) → P x := by
  intro es
  induction es with
  | nil => intro acc _ hacc n x hx; exact hacc n x hx
  | cons ed rest ih =>
    intro acc hes hacc n x hx
    simp only [List.foldl_cons] at hx
    by_cases hk : ed.kind != "back"
    · rw [if_pos hk] at hx
      refine ih _ (fun d hd => hes d (List.mem_cons_of_mem _ hd)) ?_ n x hx
      intro m y hy
      by_cases hmu : ed.u = m
      · subst hmu
        by_cases hu : ed.u < acc.length
        · rw [getD_listModify_self _ _ _ _ hu] at hy
          rcases List.mem_append.mp hy with hy | hy
          · exact hacc _ y hy
          · rw [List.mem_singleton.mp hy]
            exact hes ed (List.mem_cons_self _ _) (by simpa using hk)
        · rw [listModify_oob _ _ _ (Nat.le_of_not_lt hu)] at hy
          exact hacc _ y hy
      · rw [getD_listModify_ne _ _ _ _ _ hmu] at hy
        exact hacc m y hy
    · rw [if_neg hk] at hx
      exact ih _ (fun d hd => hes d (List.mem_cons_of_mem _ hd)) hacc n x hx

theorem dadjOf_mem (adj : List (String × AdjInfo)) :
    ∀ n x, x ∈ (dadjOf adj).getD n [] →
      ∃ ed ∈ augEdges adj, ed.id = x ∧ ed.kind ≠ "back" := by
  unfold dadjOf
  refine dadj_fold_mem _ (augEdges adj) _ ?_ ?_
  · intro ed hed hkind
    exact ⟨ed, hed, rfl, hkind⟩
  · intro n x hx
    rw [getD_replicate] at hx
    simp at hx

/-! ### Supporting lemmas: kinds of augmented edges -/

theorem augmentOut_spec_mem (u : String) :
    ∀ (outl : List String)
      (q : List String × List (String × String × String)) (s : _),
      s ∈ (outl.foldl (augmentOut u) q).2 → s ∈ q.2 ∨ s.2.2 = "orig" := by
  intro outl
  induction outl with
  | nil => intro q s hs; exact Or.inl hs
  | cons v rest ih =>
    intro q s hs
    simp only [List.foldl_cons] at hs
    rcases ih _ s hs with h | h
    · unfold augmentOut at h
      rcases List.mem_append.mp h with h' | h'
      · exact Or.inl h'
      · rw [List.mem_singleton.mp h']
        exact Or.inr rfl
    · exact Or.inr h

theorem augment_fold_spec_mem :
    ∀ (al : List (String × AdjInfo))
      (acc : List String × List (String × String × String)) (s : _),
      s ∈ (al.foldl augmentStep acc).2 → s ∈ acc.2 ∨ s.2.2 = "orig" := by
  intro al
  induction al with
  | nil => intro acc s hs; exact Or.inl hs
  | cons entry rest ih =>
    intro acc s hs
    simp only [List.foldl_cons] at hs
    rcases ih _ s hs with h | h
    · unfold augmentStep at h
      dsimp only at h
      rcases augmentOut_spec_mem entry.1 entry.2.out _ s h with h' | h'
      · exact Or.inl h'
      · exact Or.inr h'
    · exact Or.inr h

theorem augment_kinds (adj : List (String × AdjInfo)) :
    ∀ s ∈ (augment adj).2.1,
      s.2.2 = "orig" ∨ s.2.2 = "super_entry" ∨ s.2.2 = "super_exit" ∨
        s.2.2 = "back" := by
  intro s hs
  unfold augment at hs
  dsimp only at hs
  rcases List.mem_append.mp hs with hs | hs
  · rcases List.mem_append.mp hs with hs | hs
    · rcases List.mem_append.mp hs with hs | hs
      · rcases augment_fold_spec_mem adj ([], []) s hs with h | h
        · simp at h
        · exact Or.inl h
      · rcases List.mem_map.mp hs with ⟨n, _, hn⟩
        rw [← hn]
        exact Or.inr (Or.inl rfl)
    · rcases List.mem_map.mp hs with ⟨n, _, hn⟩
      rw [← hn]
      exact Or.inr (Or.inr (Or.inl rfl))
  · rw [List.mem_singleton.mp hs]
    exact Or.inr (Or.inr (Or.inr rfl))

theorem augEdges_kind (adj : List (String × AdjInfo)) :
    ∀ ed ∈ augEdges adj,
      ed.kind = "orig" ∨ ed.kind = "super_entry" ∨ ed.kind = "super_exit" ∨
        ed.kind = "back" := by
  intro ed hed
  unfold augEdges buildEdges at hed
  rcases List.mem_map.mp hed with ⟨p, hp, hpe⟩
  have hspec : p.2 ∈ (augment adj).2.1 := List.snd_mem_of_mem_enum hp
  have : ed.kind = p.2.2.2 := by rw [← hpe]; rfl
  rw [this]
  exact augment_kinds adj p.2 hspec

theorem mem_ids_position {es : List Edge}
    (hid : es.map (fun e => e.id) = List.range es.length) {ed : Edge}
    (hed : ed ∈ es) :
    ed.id < es.length ∧ es.getD ed.id defaultEdge = ed := by
  obtain ⟨j, hj, hje⟩ := List.getElem_of_mem hed
  have hmap : (es.map (fun e => e.id))[j]? = some es[j].id := by
    rw [List.getElem?_eq_getElem (by simpa using hj)]
    exact congrArg some (List.getElem_map _)
  rw [hid] at hmap
  have hrange : (List.range es.length)[j]? = some j := by
    rw [List.getElem?_eq_getElem (by simpa using hj)]
    exact congrArg some (List.getElem_range _ _)
  rw [hrange] at hmap
  have hidj : ed.id = j := by
    rw [← hje]
    exact (Option.some.inj hmap).symm
  constructor
  · rw [hidj]; exact hj
  · rw [hidj, List.getD_eq_getElem _ _ hj, hje]

/-! ### Supporting lemmas: the sweep only rewrites scratch fields of the
original edges (and appends capping edges) -/

theorem EdgesExt.rfl (es : List Edge) : EdgesExt es es := ⟨[], by simp⟩

theorem EdgesExt.trans {es es' es'' : List Edge} (h1 : EdgesExt es es')
    (h2 : EdgesExt es' es'') : EdgesExt es es'' := by
  obtain ⟨x1, h1⟩ := h1
  obtain ⟨x2, h2⟩ := h2
  exact ⟨x1 ++ x2, by rw [h2, h1, List.append_assoc]⟩

theorem EdgesExt.of_map_eq {es es' : List Edge}
    (h : es'.map projEdge = es.map projEdge) : EdgesExt es es' :=
  ⟨[], by rw [h, List.append_nil]⟩

theorem listModify_proj_listNode (xs : List Edge) (i : Nat) (o : Option Nat) :
    (listModify xs i (fun e => { e with list_node := o })).map projEdge =
      xs.map projEdge := by
  apply listModify_map_eq
  intro a
  rfl

theorem listModify_proj_class (xs : List Edge) (i : Nat) (c : Option Nat) :
    (listModify xs i (fun e => { e with class_id := c })).map projEdge =
      xs.map projEdge := by
  apply listModify_map_eq
  intro a
  rfl

theorem listModify_proj_recent (xs : List Edge) (i : Nat)
    (sz c : Option Nat) :
    (listModify xs i
      (fun e => { e with recent_size := sz, recent_class := c })).map projEdge =
      xs.map projEdge := by
  apply listModify_map_eq
  intro a
  rfl

theorem blPush_edges_proj (st : SweepState) (bl : BracketList) (eid : Nat) :
    ((blPush st bl eid).1).edges.map projEdge = st.edges.map projEdge := by
  unfold blPush
  cases htail : bl.tail with
  | none =>
    dsimp only
    exact listModify_proj_listNode _ _ _
  | some t =>
    dsimp only
    exact listModify_proj_listNode _ _ _

theorem blDeleteSplicePrev_edges (st : SweepState) (bl : BracketList)
    (nd : BracketNode) : (blDeleteSplicePrev st bl nd).1.edges = st.edges := by
  unfold blDeleteSplicePrev
  cases nd.prev with
  | none => rfl
  | some p => rfl

theorem blDeleteSpliceNext_edges (st : SweepState) (bl : BracketList)
    (nd : BracketNode) : (blDeleteSpliceNext st bl nd).1.edges = st.edges := by
  unfold blDeleteSpliceNext
  cases nd.next with
  | none => rfl
  | some nx => rfl

theorem blDelete_edges_proj (st : SweepState) (bl : BracketList) (eid : Nat) :
    ((blDelete st bl eid).1).edges.map projEdge = st.edges.map projEdge := by
  unfold blDelete
  cases hln : (st.edges.getD eid defaultEdge).list_node with
  | none => rfl
  | some idx =>
    dsimp only
    rw [listModify_proj_listNode, blDeleteSpliceNext_edges,
      blDeleteSplicePrev_edges]

theorem concat_blist_edges (st : SweepState) (l r : BracketList) :
    (concat_blist st l r).1.edges = st.edges := by
  unfold concat_blist
  by_cases h1 : l.size == 0
  · rw [if_pos h1]
  · rw [if_neg h1]
    by_cases h2 : r.size == 0
    · rw [if_pos h2]
    · rw [if_neg h2]
      cases l.tail with
      | none => cases r.head with
        | none => rfl
        | some rh => rfl
      | some lt => cases r.head with
        | none => rfl
        | some rh => rfl

theorem sweepConcatChildren_edges (cs : List Nat) :
    ∀ (p : SweepState × BracketList),
      ((cs.foldl
        (fun (p : SweepState × BracketList) c =>
          concat_blist p.1 (p.1.blists.getD c emptyBracketList) p.2) p).1).edges
        = p.1.edges := by
  induction cs with
  | nil => intro p; rfl
  | cons c rest ih =>
    intro p
    simp only [List.foldl_cons]
    rw [ih]
    exact concat_blist_edges _ _ _

theorem sweepDeleteCaps_proj (caps : List Nat) :
    ∀ (p : SweepState × BracketList),
      ((caps.foldl
        (fun (p : SweepState × BracketList) cap => blDelete p.1 p.2 cap)
        p).1).edges.map projEdge = p.1.edges.map projEdge := by
  induction caps with
  | nil => intro p; rfl
  | cons c rest ih =>
    intro p
    simp only [List.foldl_cons]
    rw [ih]
    exact blDelete_edges_proj _ _ _

theorem sweepDeleteBacks_proj (backs : List Nat) :
    ∀ (p : SweepState × BracketList),
      ((backs.foldl
        (fun (p : SweepState × BracketList) b_id =>
          let q := blDelete p.1 p.2 b_id
          let st := q.1
          if (st.edges.getD b_id defaultEdge).class_id == none then
            let st := { st with class_counter := st.class_counter + 1 }
            let edges' := listModify st.edges b_id
              (fun e => { e with class_id := some st.class_counter })
            ({ st with edges := edges' }, q.2)
          else (st, q.2))
        p).1).edges.map projEdge = p.1.edges.map projEdge := by
  induction backs with
  | nil => intro p; rfl
  | cons b rest ih =>
    intro p
    simp only [List.foldl_cons]
    rw [ih]
    by_cases hc : ((blDelete p.1 p.2 b).1.edges.getD b defaultEdge).class_id
        == none
    · rw [if_pos hc]
      dsimp only
      rw [listModify_proj_class]
      exact blDelete_edges_proj _ _ _
    · rw [if_neg hc]
      exact blDelete_edges_proj _ _ _

theorem sweepPushBacks_proj (backs : List Nat) :
    ∀ (p : SweepState × BracketList),
      ((backs.foldl
        (fun (p : SweepState × BracketList) e_id => blPush p.1 p.2 e_id)
        p).1).edges.map projEdge = p.1.edges.map projEdge := by
  induction backs with
  | nil => intro p; rfl
  | cons b rest ih =>
    intro p
    simp only [List.foldl_cons]
    rw [ih]
    exact blPush_edges_proj _ _ _

theorem sweepCapping_ext (st : SweepState) (bl : BracketList)
    (node_by_dfsnum : List Nat) (n hi0 hi2 : Nat) :
    EdgesExt st.edges
      ((sweepCapping st bl node_by_dfsnum n hi0 hi2).1).edges := by
  unfold sweepCapping
  by_cases h : hi2 < hi0
  · rw [if_pos h]
    dsimp only
    refine ⟨[projEdge (mkEdge st.edges.length n (node_by_dfsnum.getD hi2 0)
      "capping")], ?_⟩
    rw [blPush_edges_proj]
    simp
  · rw [if_neg h]
    exact EdgesExt.rfl _

theorem sweepTreeEdge_proj (d : UDfsState) (st : SweepState)
    (bl : BracketList) (n : Nat) (st' : SweepState)
    (h : sweepTreeEdge d st bl n = .ok st') :
    st'.edges.map projEdge = st.edges.map projEdge := by
  unfold sweepTreeEdge at h
  by_cases hp : d.parent.getD n (-1) != -1
  · rw [if_pos hp] at h
    cases htop : blTop st bl with
    | none => rw [htop] at h; exact absurd h (by simp)
    | some topId =>
      rw [htop] at h
      dsimp only at h
      have h' := Except.ok.inj h
      subst h'
      dsimp only
      split
      · split
        · simp only [listModify_proj_class, listModify_proj_recent]
        · simp only [listModify_proj_class, listModify_proj_recent]
      · split
        · simp only [listModify_proj_class]
        · simp only [listModify_proj_class]
  · rw [if_neg hp] at h
    have h' := Except.ok.inj h
    subst h'
    rfl

theorem sweepConcatChildren_edges' (st : SweepState) (cs : List Nat) :
    (sweepConcatChildren st cs).1.edges = st.edges := by
  unfold sweepConcatChildren
  exact sweepConcatChildren_edges cs (st, emptyBracketList)

theorem sweepDeleteCaps_proj' (st : SweepState) (bl : BracketList)
    (caps : List Nat) :
    (sweepDeleteCaps st bl caps).1.edges.map projEdge =
      st.edges.map projEdge := by
  unfold sweepDeleteCaps
  exact sweepDeleteCaps_proj caps (st, bl)

theorem sweepDeleteBacks_proj' (st : SweepState) (bl : BracketList)
    (backs : List Nat) :
    (sweepDeleteBacks st bl backs).1.edges.map projEdge =
      st.edges.map projEdge := by
  unfold sweepDeleteBacks
  exact sweepDeleteBacks_proj backs (st, bl)

theorem sweepPushBacks_proj' (st : SweepState) (bl : BracketList)
    (backs : List Nat) :
    (sweepPushBacks st bl backs).1.edges.map projEdge =
      st.edges.map projEdge := by
  unfold sweepPushBacks
  exact sweepPushBacks_proj backs (st, bl)

theorem sweepNode_ext (node_count : Nat) (d : UDfsState)
    (node_by_dfsnum : List Nat) (st : SweepState) (n : Nat)
    (st' : SweepState)
    (h : sweepNode node_count d node_by_dfsnum st n = .ok st') :
    EdgesExt st.edges st'.edges := by
  unfold sweepNode at h
  have htree := sweepTreeEdge_proj _ _ _ _ _ h
  refine EdgesExt.trans ?_ (EdgesExt.of_map_eq htree)
  refine EdgesExt.trans ?_ (sweepCapping_ext _ _ _ _ _ _)
  refine EdgesExt.trans ?_ (EdgesExt.of_map_eq (sweepPushBacks_proj' _ _ _))
  refine EdgesExt.trans ?_ (EdgesExt.of_map_eq (sweepDeleteBacks_proj' _ _ _))
  refine EdgesExt.trans ?_ (EdgesExt.of_map_eq (sweepDeleteCaps_proj' _ _ _))
  exact ⟨[], by rw [sweepConcatChildren_edges', List.append_nil]⟩

theorem sweepAll_ext (node_count : Nat) (d : UDfsState)
    (node_by_dfsnum : List Nat) :
    ∀ (ns : List Nat) (st st' : SweepState),
      sweepAll node_count d node_by_dfsnum ns st = .ok st' →
      EdgesExt st.edges st'.edges := by
  intro ns
  induction ns with
  | nil =>
    intro st st' h
    unfold sweepAll at h
    rw [← Except.ok.inj h]
    exact EdgesExt.rfl _
  | cons n rest ih =>
    intro st st' h
    unfold sweepAll at h
    cases hsn : sweepNode node_count d node_by_dfsnum st n with
    | error e => rw [hsn] at h; exact absurd h (by simp)
    | ok st1 =>
      rw [hsn] at h
      exact EdgesExt.trans (sweepNode_ext _ _ _ _ _ _ hsn) (ih st1 st' h)

theorem cycle_equivalence_ext (node_count : Nat) (edges : List Edge)
    (und : List (List (Nat × Nat))) (root : Nat) (edges' : List Edge)
    (h : cycle_equivalence node_count edges und root = .ok edges') :
    EdgesExt edges edges' := by
  unfold cycle_equivalence at h
  dsimp only at h
  split at h
  · exact absurd h (by simp)
  · rename_i st hs
    have hext := sweepAll_ext _ _ _ _ _ _ hs
    rw [← Except.ok.inj h]
    exact hext

/-! ### Supporting lemmas: publication and region projections -/

theorem publish_acc_mono (nodes_order : List String) :
    ∀ (es : List Edge) (acc : List EdgeInfo) (pe : EdgeInfo), pe ∈ acc →
      pe ∈ es.foldl (publishStep nodes_order) acc := by
  intro es
  induction es with
  | nil => intro acc pe hpe; exact hpe
  | cons e rest ih =>
    intro acc pe hpe
    simp only [List.foldl_cons]
    refine ih _ pe ?_
    unfold publishStep
    by_cases hk : e.kind == "capping"
    · rw [if_pos hk]; exact hpe
    · rw [if_neg hk]; exact List.mem_append.mpr (Or.inl hpe)

theorem publish_mem (nodes_order : List String) :
    ∀ (es : List Edge) (acc : List EdgeInfo) (el : Edge), el ∈ es →
      el.kind ≠ "capping" →
      ∃ pe ∈ es.foldl (publishStep nodes_order) acc,
        pe.id = el.id ∧ pe.kind = el.kind := by
  intro es
  induction es with
  | nil => intro acc el hel; simp at hel
  | cons e rest ih =>
    intro acc el hel hkind
    rcases List.mem_cons.mp hel with hel | hel
    · subst hel
      simp only [List.foldl_cons]
      have hstep : publishStep nodes_order acc el =
          acc ++ [{ id := el.id, src := nodes_order.getD el.u "",
                    dst := nodes_order.getD el.v "", kind := el.kind,
                    class_id := match el.class_id with
                      | some c => Int.ofNat c
                      | none => -1 }] := by
        unfold publishStep
        rw [if_neg (by simpa using hkind)]
      rw [hstep]
      refine ⟨_, publish_acc_mono nodes_order rest _ _
        (List.mem_append.mpr (Or.inr (List.mem_singleton.mpr rfl))), rfl, rfl⟩
    · exact ih _ el hel hkind

theorem EdgesExt_getD {es es' : List Edge} (h : EdgesExt es es') (x : Nat)
    (hx : x < es.length) :
    projEdge (es'.getD x defaultEdge) = projEdge (es.getD x defaultEdge) ∧
      x < es'.length := by
  obtain ⟨extra, hm⟩ := h
  have hlen : es'.length = es.length + extra.length := by
    have := congrArg List.length hm
    simpa using this
  have hx' : x < es'.length := by omega
  constructor
  · have h1 : (es'.map projEdge).getD x (projEdge defaultEdge) =
        projEdge (es'.getD x defaultEdge) := List.getD_map _ _ _
    have h2 : (es.map projEdge).getD x (projEdge defaultEdge) =
        projEdge (es.getD x defaultEdge) := List.getD_map _ _ _
    rw [← h1, ← h2, hm]
    exact List.getD_append _ _ _ _ (by simpa using hx)
  · exact hx'

theorem updateRegion_proj (rs : List RegionInfo) (id : Nat)
    (f : RegionInfo → RegionInfo) (hf : ∀ r, projReg (f r) = projReg r) :
    (updateRegion rs id f).map projReg = rs.map projReg := by
  unfold updateRegion
  rw [List.map_map]
  refine List.map_congr_left (fun r _ => ?_)
  by_cases hr : r.id == id
  · simp only [Function.comp, hr, if_pos]
    exact hf r
  · simp only [Function.comp, hr, Bool.false_eq_true, if_neg, not_false_iff]

theorem updateRegion_proj_parent (rs : List RegionInfo) (id : Nat)
    (p : Option Nat) :
    (updateRegion rs id (fun r => { r with parent := p })).map projReg =
      rs.map projReg := by
  apply updateRegion_proj
  intro r
  rfl

theorem updateRegion_proj_children (rs : List RegionInfo) (id cid : Nat) :
    (updateRegion rs id
      (fun r => { r with children := r.children ++ [cid] })).map projReg =
      rs.map projReg := by
  apply updateRegion_proj
  intro r
  rfl

theorem assignParentsStep_proj (regionIds : List Nat)
    (eni : List (Nat × Nat)) (dom postdom : List Nat)
    (rs : List RegionInfo) (region_id : Nat) :
    (assignParentsStep regionIds eni dom postdom rs region_id).map projReg =
      rs.map projReg := by
  unfold assignParentsStep
  by_cases h0 : region_id == 0
  · rw [if_pos h0]
  · rw [if_neg h0]
    dsimp only
    rw [updateRegion_proj_children, updateRegion_proj_parent]

theorem assignParents_proj (regionIds : List Nat)
    (eni : List (Nat × Nat)) (dom postdom : List Nat) :
    ∀ (l : List Nat) (rs : List RegionInfo),
      (l.foldl (assignParentsStep regionIds eni dom postdom) rs).map projReg =
        rs.map projReg := by
  intro l
  induction l with
  | nil => intro rs; rfl
  | cons rid rest ih =>
    intro rs
    simp only [List.foldl_cons]
    rw [ih, assignParentsStep_proj]

theorem resetChildren_proj (l : List RegionInfo) :
    (l.map (fun r => { r with children := ([] : List Nat) })).map projReg =
      l.map projReg := by
  rw [List.map_map]
  exact List.map_congr_left (fun r _ => rfl)

theorem filter_id_map_projReg (l : List RegionInfo) :
    (l.filter (fun r => r.id != 0)).map projReg =
      (l.map projReg).filter (fun t => t.1 != 0) := by
  induction l with
  | nil => rfl
  | cons r rest ih =>
    by_cases h : r.id != 0
    · simp only [List.filter_cons, List.map_cons]
      rw [if_pos h, if_pos (show ((projReg r).1 != 0) = true from h)]
      simp only [List.map_cons]
      rw [ih]
    · simp only [List.filter_cons, List.map_cons]
      rw [if_neg h, if_neg (show ¬((projReg r).1 != 0) = true from h)]
      exact ih

theorem mem_map_proj_transfer {A B : List RegionInfo}
    (h : A.map projReg = B.map projReg) (g : RegionInfo) (hg : g ∈ A) :
    ∃ r0 ∈ B, projReg r0 = projReg g := by
  have hmem : projReg g ∈ B.map projReg := by
    rw [← h]
    exact List.mem_map_of_mem _ hg
  rcases List.mem_map.mp hmem with ⟨r0, hr0, he⟩
  exact ⟨r0, hr0, he⟩

theorem map_entry_of_proj {A B : List RegionInfo}
    (h : A.map projReg = B.map projReg) :
    A.map (fun r => r.entry_edge) = B.map (fun r => r.entry_edge) := by
  have h' := congrArg
    (List.map (fun t : Nat × Option Nat × Option Nat => t.2.1)) h
  simpa [List.map_map, Function.comp, projReg] using h'

theorem map_exit_of_proj {A B : List RegionInfo}
    (h : A.map projReg = B.map projReg) :
    A.map (fun r => r.exit_edge) = B.map (fun r => r.exit_edge) := by
  have h' := congrArg
    (List.map (fun t : Nat × Option Nat × Option Nat => t.2.2)) h
  simpa [List.map_map, Function.comp, projReg] using h'

theorem assignParents_proj' (regionIds : List Nat) (eni : List (Nat × Nat))
    (dom postdom : List Nat) (rs : List RegionInfo) :
    (assignParents regionIds eni dom postdom rs).map projReg =
      rs.map projReg := by
  unfold assignParents
  exact assignParents_proj regionIds eni dom postdom regionIds rs

theorem publishResult_regions_proj (adj : List (String × AdjInfo))
    (edges' : List Edge) :
    (publishResult adj edges').regions.map projReg =
      (buildRegions edges' (dfs_edge_order (dadjOf adj) edges' (rootOf adj)) ++
        [({ id := 0, entry_edge := none, exit_edge := none, parent := none,
            children := [] } : RegionInfo)]).map projReg := by
  unfold publishResult
  dsimp only
  rw [assignParents_proj', resetChildren_proj]

theorem order_edge_published (adj : List (String × AdjInfo))
    (edges' : List Edge) (hext : EdgesExt (augEdges adj) edges') (a : Nat)
    (ha : a ∈ dfs_edge_order (dadjOf adj) edges' (rootOf adj)) :
    ∃ pe ∈ edges'.foldl (publishStep (augNodes adj)) [],
      pe.id = a ∧ pe.kind ≠ "back" ∧ pe.kind ≠ "capping" := by
  obtain ⟨n, _, hmem⟩ := dfs_edge_order_mem _ _ _ a ha
  obtain ⟨ed, hed, hid, hkind⟩ := dadjOf_mem adj n a hmem
  have hknc : ed.kind ≠ "capping" := by
    rcases augEdges_kind adj ed hed with h4 | h4 | h4 | h4 <;>
      · rw [h4]; decide
  obtain ⟨hlt, hgetd⟩ := mem_ids_position (augEdges_map_id adj) hed
  rw [hid] at hlt hgetd
  obtain ⟨hproj, hlt'⟩ := EdgesExt_getD hext a hlt
  rw [hgetd] at hproj
  have hel : edges'.getD a defaultEdge ∈ edges' := by
    rw [List.getD_eq_getElem _ _ hlt']
    exact List.getElem_mem _
  have hidd : (edges'.getD a defaultEdge).id = ed.id :=
    congrArg (fun t : Nat × Nat × Nat × String => t.1) hproj
  have hkd : (edges'.getD a defaultEdge).kind = ed.kind :=
    congrArg (fun t : Nat × Nat × Nat × String => t.2.2.2) hproj
  obtain ⟨pe, hpe, hpid, hpkind⟩ := publish_mem (augNodes adj) edges' []
    (edges'.getD a defaultEdge) hel (by rw [hkd]; exact hknc)
  refine ⟨pe, hpe, ?_, ?_, ?_⟩
  · rw [hpid, hidd, hid]
  · rw [hpkind, hkd]; exact hkind
  · rw [hpkind, hkd]; exact hknc

theorem compute_pst_ok {adj : List (String × AdjInfo)} {strict : Bool}
    {res : PSTResult} (h : compute_pst adj strict = .ok res) :
    ∃ edges',
      cycle_equivalence (augNodes adj).length (augEdges adj) (undAdjOf adj)
        (rootOf adj) = .ok edges' ∧
      res = publishResult adj edges' := by
  unfold compute_pst at h
  split at h
  · exact absurd h (by simp)
  · rename_i edges' hce
    exact ⟨edges', hce, (Except.ok.inj h).symm⟩

/-! ### Supporting lemmas: well-formedness of the augmented graph -/

theorem addNode_self (l : List String) (x : String) : x ∈ addNode l x := by
  unfold addNode
  by_cases h : l.contains x
  · rw [if_pos h]
    simpa using h
  · rw [if_neg h]
    exact List.mem_append.mpr (Or.inr (List.mem_singleton.mpr rfl))

theorem addNode_mono (l : List String) (x y : String) (h : y ∈ l) :
    y ∈ addNode l x := by
  unfold addNode
  by_cases hx : l.contains x
  · rw [if_pos hx]; exact h
  · rw [if_neg hx]; exact List.mem_append.mpr (Or.inl h)

theorem addNode_fold_mono (xs : List String) :
    ∀ (l : List String) (y : String), y ∈ l → y ∈ xs.foldl addNode l := by
  induction xs with
  | nil => intro l y h; exact h
  | cons x rest ih => intro l y h; exact ih _ y (addNode_mono l x y h)

theorem augmentOut_nodes_mono (u : String) :
    ∀ (outl : List String)
      (q : List String × List (String × String × String)) (y : String),
      y ∈ q.1 → y ∈ (outl.foldl (augmentOut u) q).1 := by
  intro outl
  induction outl with
  | nil => intro q y h; exact h
  | cons v rest ih =>
    intro q y h
    simp only [List.foldl_cons]
    exact ih _ y (addNode_mono _ _ _ h)

theorem augmentOut_endpoints (u : String) :
    ∀ (outl : List String)
      (q : List String × List (String × String × String)),
      u ∈ q.1 → (∀ s ∈ q.2, s.1 ∈ q.1 ∧ s.2.1 ∈ q.1) →
      ∀ s ∈ (outl.foldl (augmentOut u) q).2,
        s.1 ∈ (outl.foldl (augmentOut u) q).1 ∧
          s.2.1 ∈ (outl.foldl (augmentOut u) q).1 := by
  intro outl
  induction outl with
  | nil => intro q _ hq s hs; exact hq s hs
  | cons v rest ih =>
    intro q hu hq s hs
    simp only [List.foldl_cons] at hs ⊢
    refine ih _ (addNode_mono _ _ _ hu) ?_ s hs
    intro t ht
    unfold augmentOut at ht
    rcases List.mem_append.mp ht with ht | ht
    · obtain ⟨h1, h2⟩ := hq t ht
      exact ⟨addNode_mono _ _ _ h1, addNode_mono _ _ _ h2⟩
    · rw [List.mem_singleton.mp ht]
      exact ⟨addNode_mono _ _ _ hu, addNode_self _ _⟩

theorem augment_fold_endpoints :
    ∀ (al : List (String × AdjInfo))
      (acc : List String × List (String × String × String)),
      (∀ s ∈ acc.2, s.1 ∈ acc.1 ∧ s.2.1 ∈ acc.1) →
      ∀ s ∈ (al.foldl augmentStep acc).2,
        s.1 ∈ (al.foldl augmentStep acc).1 ∧
          s.2.1 ∈ (al.foldl augmentStep acc).1 := by
  intro al
  induction al with
  | nil => intro acc hacc s hs; exact hacc s hs
  | cons entry rest ih =>
    intro acc hacc s hs
    simp only [List.foldl_cons] at hs ⊢
    refine ih _ ?_ s hs
    intro t ht
    unfold augmentStep at ht ⊢
    dsimp only at ht ⊢
    have hend := augmentOut_endpoints entry.1 entry.2.out
      (addNode acc.1 entry.1, acc.2) (addNode_self _ _) ?_ t ht
    · exact ⟨addNode_fold_mono _ _ _ hend.1, addNode_fold_mono _ _ _ hend.2⟩
    · intro w hw
      obtain ⟨h1, h2⟩ := hacc w hw
      exact ⟨addNode_mono _ _ _ h1, addNode_mono _ _ _ h2⟩

theorem augment_endpoints (adj : List (String × AdjInfo)) :
    ∀ s ∈ (augment adj).2.1, s.1 ∈ (augment adj).1 ∧ s.2.1 ∈ (augment adj).1 := by
  intro s hs
  unfold augment at hs ⊢
  dsimp only at hs ⊢
  rcases List.mem_append.mp hs with hs' | hs'
  · rcases List.mem_append.mp hs' with hs'' | hs''
    · rcases List.mem_append.mp hs'' with hb | hb
      · have hbase := augment_fold_endpoints adj ([], []) (by simp) s hb
        exact ⟨addNode_mono _ _ _ (addNode_mono _ _ _ hbase.1),
          addNode_mono _ _ _ (addNode_mono _ _ _ hbase.2)⟩
      · rcases List.mem_map.mp hb with ⟨n, hn, hne⟩
        rw [← hne]
        refine ⟨addNode_mono _ _ _ (addNode_self _ _), ?_⟩
        have hnn : n ∈ (adj.foldl augmentStep ([], [])).1 := by
          split at hn
          · exact hn
          · exact List.mem_of_mem_filter hn
        exact addNode_mono _ _ _ (addNode_mono _ _ _ hnn)
    · rcases List.mem_map.mp hs'' with ⟨n, hn, hne⟩
      rw [← hne]
      refine ⟨?_, addNode_self _ _⟩
      have hnn : n ∈ (adj.foldl augmentStep ([], [])).1 := by
        split at hn
        · exact hn
        · exact List.mem_of_mem_filter hn
      exact addNode_mono _ _ _ (addNode_mono _ _ _ hnn)
  · rw [List.mem_singleton.mp hs']
    exact ⟨addNode_self _ _, addNode_mono _ _ _ (addNode_self _ _)⟩

theorem superEntry_mem (adj : List (String × AdjInfo)) :
    superEntryOf adj ∈ augNodes adj := by
  unfold superEntryOf augNodes augment
  dsimp only
  exact addNode_mono _ _ _ (addNode_self _ _)

theorem superExit_mem (adj : List (String × AdjInfo)) :
    superExitOf adj ∈ augNodes adj := by
  unfold superExitOf augNodes augment
  dsimp only
  exact addNode_self _ _

theorem rootOf_lt (adj : List (String × AdjInfo)) :
    rootOf adj < (augNodes adj).length :=
  List.indexOf_lt_length.mpr (superEntry_mem adj)

theorem augEdges_uv_lt (adj : List (String × AdjInfo)) :
    ∀ ed ∈ augEdges adj,
      ed.u < (augNodes adj).length ∧ ed.v < (augNodes adj).length := by
  intro ed hed
  unfold augEdges buildEdges at hed
  rcases List.mem_map.mp hed with ⟨p, hp, hpe⟩
  have hspec : p.2 ∈ (augment adj).2.1 := List.snd_mem_of_mem_enum hp
  obtain ⟨h1, h2⟩ := augment_endpoints adj p.2 hspec
  have hu : ed.u = ((augment adj).1).indexOf p.2.1 := by rw [← hpe]; rfl
  have hv : ed.v = ((augment adj).1).indexOf p.2.2.1 := by rw [← hpe]; rfl
  unfold augNodes
  rw [hu, hv]
  exact ⟨List.indexOf_lt_length.mpr h1, List.indexOf_lt_length.mpr h2⟩

theorem mem_getD_listModify_append {α : Type} {dadj : List (List α)} {m : Nat}
    {x : α} {n : Nat} {q : α}
    (h : q ∈ (listModify dadj m (fun l => l ++ [x])).getD n []) :
    q ∈ dadj.getD n [] ∨ q = x := by
  by_cases hnm : m = n
  · subst hnm
    by_cases hm : m < dadj.length
    · rw [getD_listModify_self _ _ _ _ hm] at h
      rcases List.mem_append.mp h with h | h
      · exact Or.inl h
      · exact Or.inr (List.mem_singleton.mp h)
    · rw [listModify_oob _ _ _ (Nat.le_of_not_lt hm)] at h
      exact Or.inl h
  · rw [getD_listModify_ne _ _ _ _ _ hnm] at h
    exact Or.inl h

theorem mem_getD_listModify_append_persist {α : Type} {dadj : List (List α)}
    {m : Nat} {x : α} {n : Nat} {q : α} (h : q ∈ dadj.getD n []) :
    q ∈ (listModify dadj m (fun l => l ++ [x])).getD n [] := by
  by_cases hnm : m = n
  · subst hnm
    by_cases hm : m < dadj.length
    · rw [getD_listModify_self _ _ _ _ hm]
      exact List.mem_append.mpr (Or.inl h)
    · rw [listModify_oob _ _ _ (Nat.le_of_not_lt hm)]
      exact h
  · rw [getD_listModify_ne _ _ _ _ _ hnm]
    exact h

theorem getD_listModify_append_self {α : Type} {dadj : List (List α)}
    {m : Nat} {x : α} (hm : m < dadj.length) :
    x ∈ (listModify dadj m (fun l => l ++ [x])).getD m [] := by
  rw [getD_listModify_self _ _ _ _ hm]
  exact List.mem_append.mpr (Or.inr (List.mem_singleton.mpr rfl))

theorem und_fold_length :
    ∀ (es : List Edge) (acc : List (List (Nat × Nat))),
      (es.foldl
        (fun und e =>
          listModify (listModify und e.u (fun l => l ++ [(e.id, e.v)])) e.v
            (fun l => l ++ [(e.id, e.u)]))
        acc).length = acc.length := by
  intro es
  induction es with
  | nil => intro acc; rfl
  | cons e rest ih =>
    intro acc
    simp only [List.foldl_cons]
    rw [ih, listModify_length, listModify_length]

theorem undAdjOf_length (adj : List (String × AdjInfo)) :
    (undAdjOf adj).length = (augNodes adj).length := by
  unfold undAdjOf
  rw [und_fold_length]
  exact List.length_replicate _ _

theorem und_fold_mem (P : Nat × Nat → Prop) :
    ∀ (es : List Edge) (acc : List (List (Nat × Nat))),
      (∀ ed ∈ es, P (ed.id, ed.v) ∧ P (ed.id, ed.u)) →
      (∀ n q, q ∈ acc.getD n [] → P q) →
      ∀ n q,
        q ∈ ((es.foldl
          (fun und e =>
            listModify (listModify und e.u (fun l => l ++ [(e.id, e.v)])) e.v
              (fun l => l ++ [(e.id, e.u)]))
          acc).getD n []) → P q := by
  intro es
  induction es with
  | nil => intro acc _ hacc n q hq; exact hacc n q hq
  | cons e rest ih =>
    intro acc hes hacc n q hq
    simp only [List.foldl_cons] at hq
    refine ih _ (fun d hd => hes d (List.mem_cons_of_mem _ hd)) ?_ n q hq
    intro m w hw
    rcases mem_getD_listModify_append hw with hw' | hw'
    · rcases mem_getD_listModify_append hw' with hw'' | hw''
      · exact hacc m w hw''
      · rw [hw'']
        exact (hes e (List.mem_cons_self _ _)).1
    · rw [hw']
      exact (hes e (List.mem_cons_self _ _)).2

theorem undAdjOf_entries (adj : List (String × AdjInfo)) :
    ∀ n q, q ∈ (undAdjOf adj).getD n [] →
      q.2 < (augNodes adj).length ∧ q.1 < (augEdges adj).length := by
  unfold undAdjOf
  refine und_fold_mem _ (augEdges adj) _ ?_ ?_
  · intro ed hed
    obtain ⟨hu, hv⟩ := augEdges_uv_lt adj ed hed
    have hid : ed.id < (augEdges adj).length :=
      (mem_ids_position (augEdges_map_id adj) hed).1
    exact ⟨⟨hv, hid⟩, ⟨hu, hid⟩⟩
  · intro n q hq
    rw [getD_replicate] at hq
    simp at hq

theorem und_edge_present (adj : List (String × AdjInfo)) :
    ∀ ed ∈ augEdges adj, (ed.id, ed.v) ∈ (undAdjOf adj).getD ed.u [] := by
  unfold undAdjOf
  have hgen : ∀ (es : List Edge) (acc : List (List (Nat × Nat))),
      acc.length = (augNodes adj).length →
      ∀ ed ∈ es, ed.u < (augNodes adj).length →
      (ed.id, ed.v) ∈ ((es.foldl
        (fun und e =>
          listModify (listModify und e.u (fun l => l ++ [(e.id, e.v)])) e.v
            (fun l => l ++ [(e.id, e.u)]))
        acc).getD ed.u []) := by
    intro es
    induction es with
    | nil => intro acc _ ed hed; simp at hed
    | cons e rest ih =>
      intro acc hlen ed hed hu
      rcases List.mem_cons.mp hed with hed' | hed'
      · subst hed'
        simp only [List.foldl_cons]
        have hpersist : ∀ (fs : List Edge) (b : List (List (Nat × Nat))) q m,
            q ∈ b.getD m [] →
            q ∈ ((fs.foldl
              (fun und e =>
                listModify (listModify und e.u (fun l => l ++ [(e.id, e.v)]))
                  e.v (fun l => l ++ [(e.id, e.u)]))
              b).getD m []) := by
          intro fs
          induction fs with
          | nil => intro b q m h; exact h
          | cons f frest ihf =>
            intro b q m h
            simp only [List.foldl_cons]
            exact ihf _ q m (mem_getD_listModify_append_persist
              (mem_getD_listModify_append_persist h))
        refine hpersist rest _ _ _ ?_
        exact mem_getD_listModify_append_persist
          (getD_listModify_append_self (by rw [hlen]; exact hu))
      · simp only [List.foldl_cons]
        refine ih _ ?_ ed hed' hu
        rw [listModify_length, listModify_length, hlen]
  intro ed hed
  refine hgen (augEdges adj) _ ?_ ed hed (augEdges_uv_lt adj ed hed).1
  rw [List.length_replicate]

/-! ### Supporting lemmas: the undirected DFS classifies every edge -/

theorem seen_set_mono (l : List Bool) (x e : Nat)
    (h : l.getD e false = true) : (l.set x true).getD e false = true := by
  by_cases hxe : x = e
  · subst hxe
    by_cases hx : x < l.length
    · rw [getD_set_self _ _ _ hx]
    · rw [List.set_eq_of_length_le (Nat.le_of_not_lt hx)]
      exact h
  · rw [getD_set_ne _ _ _ hxe]
    exact h

theorem seen_set_self (l : List Bool) (x : Nat) (hx : x < l.length) :
    (l.set x true).getD x false = true :=
  getD_set_self _ _ _ hx

theorem udfsUnvis_set (und : List (List (Nat × Nat))) (node_count : Nat)
    (dfsnum : List Nat) (other t : Nat) (hnc : other < node_count)
    (hlen : dfsnum.length = node_count) (hz : dfsnum.getD other 0 = 0)
    (ht : t ≠ 0) :
    udfsUnvis und node_count (dfsnum.set other t) +
      ((und.getD other []).length + 1) = udfsUnvis und node_count dfsnum := by
  unfold udfsUnvis
  rw [Finset.sum_eq_sum_diff_singleton_add (Finset.mem_range.mpr hnc)
      (fun n => if (dfsnum.set other t).getD n 0 == 0 then
        (und.getD n []).length + 1 else 0),
    Finset.sum_eq_sum_diff_singleton_add (Finset.mem_range.mpr hnc)
      (fun n => if dfsnum.getD n 0 == 0 then (und.getD n []).length + 1 else 0)]
  have hcong :
      (∑ n ∈ Finset.range node_count \ {other},
        (if (dfsnum.set other t).getD n 0 == 0 then
          (und.getD n []).length + 1 else 0)) =
      ∑ n ∈ Finset.range node_count \ {other},
        (if dfsnum.getD n 0 == 0 then (und.getD n []).length + 1 else 0) := by
    refine Finset.sum_congr rfl (fun n hn => ?_)
    have hne : other ≠ n := fun hc => (Finset.mem_sdiff.mp hn).2 (by simp [hc])
    rw [getD_set_ne _ _ _ hne]
  rw [hcong, getD_set_self _ _ _ (by rw [hlen]; exact hnc), hz]
  simp [ht]

theorem pair_eq_fst {n iw node i : Nat} (h : (n, iw) = (node, i)) : n = node :=
  (Prod.mk.injEq n iw node i ▸ h).1

theorem udfsMeasure_cons (und : List (List (Nat × Nat))) (nc : Nat)
    (dfsnum : List Nat) (node i : Nat) (rest : List (Nat × Nat)) :
    udfsMeasure und nc dfsnum ((node, i) :: rest) =
      ((und.getD node []).length - i + 1) + udfsMeasure und nc dfsnum rest := by
  unfold udfsMeasure
  simp only [List.map_cons, List.sum_cons]
  omega

theorem udfsInv_skip (und : List (List (Nat × Nat))) (nc ec : Nat)
    (s : UDfsState) (node i : Nat) (rest : List (Nat × Nat))
    (hinv : UdfsInv und nc ec s ((node, i) :: rest))
    (hseen : s.edge_seen.getD ((und.getD node []).getD i (0, 0)).1 false = true) :
    UdfsInv und nc ec s ((node, i + 1) :: rest) := by
  obtain ⟨hA, hB, hC, hD, hE, hF, hG, hH, hI, hJ, hK, hL⟩ := hinv
  refine ⟨hA, hB, hC, hD, hE, hF, ?_, ?_, ?_, ?_, hK, hL⟩
  · intro p hp
    rcases List.mem_cons.mp hp with hp | hp
    · subst hp
      exact hG (node, i) (List.mem_cons_self _ _)
    · exact hG p (List.mem_cons_of_mem _ hp)
  · intro p hp j hj
    rcases List.mem_cons.mp hp with hp | hp
    · subst hp
      rcases Nat.lt_succ_iff_lt_or_eq.mp hj with hj' | hj'
      · exact hH (node, i) (List.mem_cons_self _ _) j hj'
      · subst hj'
        exact hseen
    · exact hH p (List.mem_cons_of_mem _ hp) j hj
  · intro n hn hv
    rcases hI n hn hv with ⟨iw, hw⟩ | hall
    · rcases List.mem_cons.mp hw with hw | hw
      · have h1 := pair_eq_fst hw
        subst h1
        exact Or.inl ⟨i + 1, List.mem_cons_self _ _⟩
      · exact Or.inl ⟨iw, List.mem_cons_of_mem _ hw⟩
    · exact Or.inr hall
  · intro n hn hv
    rcases hJ n hn hv with ⟨iw, hw⟩ | hpost
    · rcases List.mem_cons.mp hw with hw | hw
      · have h1 := pair_eq_fst hw
        subst h1
        exact Or.inl ⟨i + 1, List.mem_cons_self _ _⟩
      · exact Or.inl ⟨iw, List.mem_cons_of_mem _ hw⟩
    · exact Or.inr hpost

theorem udfsInv_tree (und : List (List (Nat × Nat))) (nc ec : Nat)
    (s : UDfsState) (node i : Nat) (rest : List (Nat × Nat)) (c t : Nat)
    (hinv : UdfsInv und nc ec s ((node, i) :: rest))
    (hct : (und.getD node []).getD i (0, 0) = (c, t))
    (ht : t < nc) (hc : c < ec)
    (hz : s.dfsnum.getD t 0 = 0) :
    UdfsInv und nc ec
      { s with
        dfsnum := s.dfsnum.set t (s.time + 1),
        parent := s.parent.set t (Int.ofNat node),
        parent_edge := s.parent_edge.set t (Int.ofNat c),
        children := listModify s.children node (fun l => l ++ [t]),
        edge_seen := s.edge_seen.set c true,
        time := s.time + 1 }
      ((t, 0) :: (node, i + 1) :: rest) := by
  obtain ⟨hA, hB, hC, hD, hE, hF, hG, hH, hI, hJ, hK, hL⟩ := hinv
  obtain ⟨hnodeLt, hnodeVis⟩ := hG (node, i) (List.mem_cons_self _ _)
  have hne : t ≠ node := fun h => hnodeVis (h ▸ hz)
  have htlen : t < s.dfsnum.length := by rw [hA]; exact ht
  refine ⟨?_, ?_, ?_, hD, ?_, ?_, ?_, ?_, ?_, ?_, ?_, ?_⟩
  · dsimp only
    rw [List.length_set]
    exact hA
  · dsimp only
    rw [List.length_set]
    exact hB
  · dsimp only
    rw [List.length_set]
    exact hC
  · dsimp only
    rw [List.length_set]
    exact hE
  · exact Nat.succ_le_succ (Nat.zero_le _)
  · intro p hp
    rcases List.mem_cons.mp hp with hp | hp
    · subst hp
      refine ⟨ht, ?_⟩
      dsimp only
      rw [getD_set_self _ _ _ htlen]
      exact Nat.succ_ne_zero _
    · rcases List.mem_cons.mp hp with hp | hp
      · subst hp
        refine ⟨hnodeLt, ?_⟩
        dsimp only
        rw [getD_set_ne _ _ _ hne]
        exact hnodeVis
      · have hp' := hG p (List.mem_cons_of_mem _ hp)
        refine ⟨hp'.1, ?_⟩
        dsimp only
        rw [getD_set_ne _ _ _ (fun h : t = p.1 => hp'.2 (h ▸ hz))]
        exact hp'.2
  · intro p hp j hj
    rcases List.mem_cons.mp hp with hp | hp
    · subst hp
      exact absurd hj (Nat.not_lt_zero j)
    · rcases List.mem_cons.mp hp with hp | hp
      · subst hp
        rcases Nat.lt_succ_iff_lt_or_eq.mp hj with hj' | hj'
        · exact seen_set_mono _ _ _ (hH (node, i) (List.mem_cons_self _ _) j hj')
        · subst hj'
          dsimp only
          rw [hct]
          exact seen_set_self _ _ (by rw [hE]; exact hc)
      · exact seen_set_mono _ _ _ (hH p (List.mem_cons_of_mem _ hp) j hj)
  · intro n hn hv
    by_cases hnt : n = t
    · subst hnt
      exact Or.inl ⟨0, List.mem_cons_self _ _⟩
    · have hv' : s.dfsnum.getD n 0 ≠ 0 := by
        rw [getD_set_ne _ _ _ (fun h => hnt h.symm)] at hv
        exact hv
      rcases hI n hn hv' with ⟨iw, hw⟩ | hall
      · rcases List.mem_cons.mp hw with hw | hw
        · have h1 := pair_eq_fst hw
          subst h1
          exact Or.inl ⟨i + 1, List.mem_cons_of_mem _ (List.mem_cons_self _ _)⟩
        · exact Or.inl ⟨iw, List.mem_cons_of_mem _ (List.mem_cons_of_mem _ hw)⟩
      · exact Or.inr (fun j hj => seen_set_mono _ _ _ (hall j hj))
  · intro n hn hv
    by_cases hnt : n = t
    · subst hnt
      exact Or.inl ⟨0, List.mem_cons_self _ _⟩
    · have hv' : s.dfsnum.getD n 0 ≠ 0 := by
        rw [getD_set_ne _ _ _ (fun h => hnt h.symm)] at hv
        exact hv
      rcases hJ n hn hv' with ⟨iw, hw⟩ | hpost
      · rcases List.mem_cons.mp hw with hw | hw
        · have h1 := pair_eq_fst hw
          subst h1
          exact Or.inl ⟨i + 1, List.mem_cons_of_mem _ (List.mem_cons_self _ _)⟩
        · exact Or.inl ⟨iw, List.mem_cons_of_mem _ (List.mem_cons_of_mem _ hw)⟩
      · exact Or.inr hpost
  · intro e he
    by_cases hec : e = c
    · subst hec
      refine Or.inl ⟨t, ht, ?_, ?_, ?_⟩
      · dsimp only
        rw [getD_set_self _ _ _ htlen]
        exact Nat.succ_ne_zero _
      · dsimp only
        rw [getD_set_self _ _ _ (by rw [hB]; exact ht)]
        simp
      · dsimp only
        rw [getD_set_self _ _ _ (by rw [hC]; exact ht)]
    · have he' : s.edge_seen.getD e false = true := by
        have he2 : (s.edge_seen.set c true).getD e false = true := he
        rw [getD_set_ne _ _ _ (fun h => hec h.symm)] at he2
        exact he2
      rcases hK e he' with ⟨n, hn, hvis, hpar, hpe⟩ | ⟨n, hn, hvis, hmem⟩
      · have hnt : t ≠ n := fun h => hvis (h ▸ hz)
        refine Or.inl ⟨n, hn, ?_, ?_, ?_⟩
        · dsimp only
          rw [getD_set_ne _ _ _ hnt]
          exact hvis
        · dsimp only
          rw [getD_set_ne _ _ _ hnt]
          exact hpar
        · dsimp only
          rw [getD_set_ne _ _ _ hnt]
          exact hpe
      · refine Or.inr ⟨n, hn, ?_, hmem⟩
        dsimp only
        rw [getD_set_ne _ _ _ (fun h : t = n => hvis (h ▸ hz))]
        exact hvis
  · intro n hn h0
    have hnt : t ≠ n := by
      intro h
      subst h
      rw [show ({ s with
          dfsnum := s.dfsnum.set t (s.time + 1),
          parent := s.parent.set t (Int.ofNat node),
          parent_edge := s.parent_edge.set t (Int.ofNat c),
          children := listModify s.children node (fun l => l ++ [t]),
          edge_seen := s.edge_seen.set c true,
          time := s.time + 1 } : UDfsState).dfsnum = s.dfsnum.set t (s.time + 1)
          from rfl, getD_set_self _ _ _ htlen] at h0
      exact Nat.succ_ne_zero _ h0
    have h0' : s.dfsnum.getD n 0 = 0 := by
      have h02 : (s.dfsnum.set t (s.time + 1)).getD n 0 = 0 := h0
      rw [getD_set_ne _ _ _ hnt] at h02
      exact h02
    obtain ⟨hpe0, hp0⟩ := hL n hn h0'
    constructor
    · dsimp only
      rw [getD_set_ne _ _ _ hnt]
      exact hpe0
    · dsimp only
      rw [getD_set_ne _ _ _ hnt]
      exact hp0

theorem udfsInv_back (und : List (List (Nat × Nat))) (nc ec : Nat)
    (s : UDfsState) (node i : Nat) (rest : List (Nat × Nat)) (c u v : Nat)
    (hinv : UdfsInv und nc ec s ((node, i) :: rest))
    (hct : ((und.getD node []).getD i (0, 0)).1 = c)
    (hc : c < ec) (hu : u < nc) (huvis : s.dfsnum.getD u 0 ≠ 0) :
    UdfsInv und nc ec
      { s with
        backedges_from := listModify s.backedges_from v (fun l => l ++ [c]),
        backedges_to := listModify s.backedges_to u (fun l => l ++ [c]),
        edge_upper := s.edge_upper.set c (Int.ofNat u),
        edge_seen := s.edge_seen.set c true }
      ((node, i + 1) :: rest) := by
  obtain ⟨hA, hB, hC, hD, hE, hF, hG, hH, hI, hJ, hK, hL⟩ := hinv
  refine ⟨hA, hB, hC, ?_, ?_, hF, ?_, ?_, ?_, ?_, ?_, hL⟩
  · dsimp only
    rw [listModify_length]
    exact hD
  · dsimp only
    rw [List.length_set]
    exact hE
  · intro p hp
    rcases List.mem_cons.mp hp with hp | hp
    · subst hp
      exact hG (node, i) (List.mem_cons_self _ _)
    · exact hG p (List.mem_cons_of_mem _ hp)
  · intro p hp j hj
    rcases List.mem_cons.mp hp with hp | hp
    · subst hp
      rcases Nat.lt_succ_iff_lt_or_eq.mp hj with hj' | hj'
      · exact seen_set_mono _ _ _ (hH (node, i) (List.mem_cons_self _ _) j hj')
      · subst hj'
        dsimp only
        rw [hct]
        exact seen_set_self _ _ (by rw [hE]; exact hc)
    · exact seen_set_mono _ _ _ (hH p (List.mem_cons_of_mem _ hp) j hj)
  · intro n hn hv
    rcases hI n hn hv with ⟨iw, hw⟩ | hall
    · rcases List.mem_cons.mp hw with hw | hw
      · have h1 := pair_eq_fst hw
        subst h1
        exact Or.inl ⟨i + 1, List.mem_cons_self _ _⟩
      · exact Or.inl ⟨iw, List.mem_cons_of_mem _ hw⟩
    · exact Or.inr (fun j hj => seen_set_mono _ _ _ (hall j hj))
  · intro n hn hv
    rcases hJ n hn hv with ⟨iw, hw⟩ | hpost
    · rcases List.mem_cons.mp hw with hw | hw
      · have h1 := pair_eq_fst hw
        subst h1
        exact Or.inl ⟨i + 1, List.mem_cons_self _ _⟩
      · exact Or.inl ⟨iw, List.mem_cons_of_mem _ hw⟩
    · exact Or.inr hpost
  · intro e he
    by_cases hec : e = c
    · subst hec
      refine Or.inr ⟨u, hu, huvis, ?_⟩
      dsimp only
      exact getD_listModify_append_self (by rw [hD]; exact hu)
    · have he' : s.edge_seen.getD e false = true := by
        have he2 : (s.edge_seen.set c true).getD e false = true := he
        rw [getD_set_ne _ _ _ (fun h => hec h.symm)] at he2
        exact he2
      rcases hK e he' with ⟨n, hn, hvis, hpar, hpe⟩ | ⟨n, hn, hvis, hmem⟩
      · exact Or.inl ⟨n, hn, hvis, hpar, hpe⟩
      · refine Or.inr ⟨n, hn, hvis, ?_⟩
        dsimp only
        exact mem_getD_listModify_append_persist hmem

theorem udfsInv_pop (und : List (List (Nat × Nat))) (nc ec : Nat)
    (s : UDfsState) (node i : Nat) (rest : List (Nat × Nat))
    (hinv : UdfsInv und nc ec s ((node, i) :: rest))
    (hge : (und.getD node []).length ≤ i) :
    UdfsInv und nc ec { s with postorder := s.postorder ++ [node] } rest := by
  obtain ⟨hA, hB, hC, hD, hE, hF, hG, hH, hI, hJ, hK, hL⟩ := hinv
  refine ⟨hA, hB, hC, hD, hE, hF, ?_, ?_, ?_, ?_, hK, hL⟩
  · intro p hp
    exact hG p (List.mem_cons_of_mem _ hp)
  · intro p hp
    exact hH p (List.mem_cons_of_mem _ hp)
  · intro n hn hv
    rcases hI n hn hv with ⟨iw, hw⟩ | hall
    · rcases List.mem_cons.mp hw with hw | hw
      · have h1 := pair_eq_fst hw
        subst h1
        refine Or.inr (fun j hj => ?_)
        exact hH (n, i) (List.mem_cons_self _ _) j (lt_of_lt_of_le hj hge)
      · exact Or.inl ⟨iw, hw⟩
    · exact Or.inr hall
  · intro n hn hv
    rcases hJ n hn hv with ⟨iw, hw⟩ | hpost
    · rcases List.mem_cons.mp hw with hw | hw
      · have h1 := pair_eq_fst hw
        subst h1
        dsimp only
        exact Or.inr (List.mem_append_right _ (List.mem_singleton.mpr rfl))
      · exact Or.inl ⟨iw, hw⟩
    · dsimp only
      exact Or.inr (List.mem_append_left _ hpost)

theorem udfsLoop_inv (und : List (List (Nat × Nat))) (nc ec : Nat)
    (hWF : UdfsWF und nc ec) :
    ∀ (fuel : Nat) (s : UDfsState) (stack : List (Nat × Nat)),
      udfsMeasure und nc s.dfsnum stack < fuel →
      UdfsInv und nc ec s stack →
      UdfsInv und nc ec (udfsLoop und fuel s stack) [] := by
  intro fuel
  induction fuel with
  | zero =>
    intro s stack hm _
    exact absurd hm (Nat.not_lt_zero _)
  | succ f ih =>
    intro s stack hm hinv
    cases stack with
    | nil => simpa only [udfsLoop] using hinv
    | cons top rest =>
      obtain ⟨node, i⟩ := top
      have hGfact := hinv.2.2.2.2.2.2.1
      obtain ⟨hnodeLt, hnodeVis⟩ := hGfact (node, i) (List.mem_cons_self _ _)
      simp only [udfsLoop]
      by_cases hlt : i < (und.getD node []).length
      · rw [if_pos hlt]
        have hqmem : (und.getD node []).getD i (0, 0) ∈ und.getD node [] := by
          rw [List.getD_eq_getElem _ _ hlt]
          exact List.getElem_mem hlt
        obtain ⟨hq2lt, hq1lt⟩ := hWF.2 node _ hqmem
        by_cases hseen :
            s.edge_seen.getD ((und.getD node []).getD i (0, 0)).1 false = true
        · rw [if_pos hseen]
          refine ih s ((node, i + 1) :: rest) ?_
            (udfsInv_skip und nc ec s node i rest hinv hseen)
          rw [udfsMeasure_cons] at hm
          rw [udfsMeasure_cons]
          omega
        · rw [if_neg hseen]
          dsimp only
          by_cases hz : s.dfsnum.getD ((und.getD node []).getD i (0, 0)).2 0 = 0
          · rw [if_pos (beq_iff_eq.mpr hz)]
            refine ih _ _ ?_
              (udfsInv_tree und nc ec s node i rest
                ((und.getD node []).getD i (0, 0)).1
                ((und.getD node []).getD i (0, 0)).2
                hinv rfl hq2lt hq1lt hz)
            dsimp only
            unfold udfsMeasure at hm ⊢
            simp only [List.map_cons, List.sum_cons] at hm ⊢
            have hset := udfsUnvis_set und nc s.dfsnum
              ((und.getD node []).getD i (0, 0)).2 (s.time + 1) hq2lt hinv.1 hz
              (Nat.succ_ne_zero _)
            omega
          · rw [if_neg (fun h => hz (beq_iff_eq.mp h))]
            by_cases hda : s.dfsnum.getD ((und.getD node []).getD i (0, 0)).2 0 <
                s.dfsnum.getD node 0
            · rw [if_pos hda]
              dsimp only
              refine ih _ _ ?_
                (udfsInv_back und nc ec s node i rest
                  ((und.getD node []).getD i (0, 0)).1
                  ((und.getD node []).getD i (0, 0)).2 node
                  hinv rfl hq1lt hq2lt hz)
              dsimp only
              rw [udfsMeasure_cons] at hm
              rw [udfsMeasure_cons]
              omega
            · rw [if_neg hda]
              dsimp only
              refine ih _ _ ?_
                (udfsInv_back und nc ec s node i rest
                  ((und.getD node []).getD i (0, 0)).1
                  node ((und.getD node []).getD i (0, 0)).2
                  hinv rfl hq1lt hnodeLt hnodeVis)
              dsimp only
              rw [udfsMeasure_cons] at hm
              rw [udfsMeasure_cons]
              omega
      · rw [if_neg hlt]
        refine ih _ _ ?_
          (udfsInv_pop und nc ec s node i rest hinv (Nat.le_of_not_lt hlt))
        dsimp only
        rw [udfsMeasure_cons] at hm
        omega

theorem foldl_len_sum :
    ∀ (l : List (List (Nat × Nat))) (a : Nat),
      l.foldl (fun acc x => acc + x.length) a =
        a + ∑ n ∈ Finset.range l.length, (l.getD n []).length := by
  intro l
  induction l with
  | nil => intro a; simp
  | cons x xs ih =>
    intro a
    rw [List.foldl_cons, ih, List.length_cons, Finset.sum_range_succ']
    simp only [List.getD_cons_succ, List.getD_cons_zero]
    omega

theorem udfsUnvis_le (und : List (List (Nat × Nat))) (nc : Nat)
    (dfsnum : List Nat) :
    udfsUnvis und nc dfsnum ≤
      (∑ n ∈ Finset.range nc, (und.getD n []).length) + nc := by
  unfold udfsUnvis
  calc (∑ n ∈ Finset.range nc,
        (if dfsnum.getD n 0 == 0 then (und.getD n []).length + 1 else 0)) ≤
      ∑ n ∈ Finset.range nc, ((und.getD n []).length + 1) :=
        Finset.sum_le_sum (fun n _ => by split <;> omega)
    _ = (∑ n ∈ Finset.range nc, (und.getD n []).length) + nc := by
        rw [Finset.sum_add_distrib, Finset.sum_const, Finset.card_range,
          smul_eq_mul, mul_one]

theorem dfsnum_set_pres (l : List Nat) (x v n : Nat) (hv : v ≠ 0)
    (h : l.getD n 0 ≠ 0) : (l.set x v).getD n 0 ≠ 0 := by
  by_cases hx : x = n
  · subst hx
    by_cases hxl : x < l.length
    · rw [getD_set_self _ _ _ hxl]
      exact hv
    · rw [List.set_eq_of_length_le (Nat.le_of_not_lt hxl)]
      exact h
  · rw [getD_set_ne _ _ _ hx]
    exact h

theorem udfsLoop_dfsnum_mono (und : List (List (Nat × Nat))) :
    ∀ (fuel : Nat) (s : UDfsState) (stack : List (Nat × Nat)) (n : Nat),
      s.dfsnum.getD n 0 ≠ 0 →
      (udfsLoop und fuel s stack).dfsnum.getD n 0 ≠ 0 := by
  intro fuel
  induction fuel with
  | zero =>
    intro s stack n h
    simpa only [udfsLoop] using h
  | succ f ih =>
    intro s stack n h
    cases stack with
    | nil => simpa only [udfsLoop] using h
    | cons top rest =>
      obtain ⟨node, i⟩ := top
      simp only [udfsLoop]
      by_cases hlt : i < (und.getD node []).length
      · rw [if_pos hlt]
        by_cases hseen :
            s.edge_seen.getD ((und.getD node []).getD i (0, 0)).1 false = true
        · rw [if_pos hseen]
          exact ih s _ n h
        · rw [if_neg hseen]
          dsimp only
          by_cases hz : s.dfsnum.getD ((und.getD node []).getD i (0, 0)).2 0 = 0
          · rw [if_pos (beq_iff_eq.mpr hz)]
            refine ih _ _ n ?_
            dsimp only
            exact dfsnum_set_pres _ _ _ _ (Nat.succ_ne_zero _) h
          · rw [if_neg (fun hcon => hz (beq_iff_eq.mp hcon))]
            refine ih _ _ n ?_
            dsimp only
            exact h
      · rw [if_neg hlt]
        exact ih _ rest n h

theorem udfsRun_dfsnum_mono (und : List (List (Nat × Nat))) (fuel : Nat)
    (s : UDfsState) (start n : Nat) (h : s.dfsnum.getD n 0 ≠ 0) :
    (udfsRun und fuel s start).dfsnum.getD n 0 ≠ 0 := by
  unfold udfsRun
  refine udfsLoop_dfsnum_mono und fuel _ _ n ?_
  dsimp only
  exact dfsnum_set_pres _ _ _ _ (Nat.succ_ne_zero _) h

theorem udfsRun_visits (und : List (List (Nat × Nat))) (fuel : Nat)
    (s : UDfsState) (start : Nat) (hstart : start < s.dfsnum.length) :
    (udfsRun und fuel s start).dfsnum.getD start 0 ≠ 0 := by
  unfold udfsRun
  refine udfsLoop_dfsnum_mono und fuel _ _ start ?_
  dsimp only
  rw [getD_set_self _ _ _ hstart]
  exact Nat.succ_ne_zero _

/-- The facts about a finished `dfs` call that survive between restarts:
array shapes, completeness of seen edges at visited nodes, post-order
membership, classification of seen edges, and clean sentinels at
unvisited nodes. -/
def UdfsPre (und : List (List (Nat × Nat))) (nc ec : Nat)
    (s : UDfsState) : Prop :=
  s.dfsnum.length = nc ∧
  s.parent.length = nc ∧
  s.parent_edge.length = nc ∧
  s.backedges_to.length = nc ∧
  s.edge_seen.length = ec ∧
  (∀ n, n < nc → s.dfsnum.getD n 0 ≠ 0 →
    ∀ j, j < (und.getD n []).length →
      s.edge_seen.getD ((und.getD n []).getD j (0, 0)).1 false = true) ∧
  (∀ n, n < nc → s.dfsnum.getD n 0 ≠ 0 → n ∈ s.postorder) ∧
  (∀ e, s.edge_seen.getD e false = true → UdfsClassified nc s e) ∧
  (∀ n, n < nc → s.dfsnum.getD n 0 = 0 →
    s.parent_edge.getD n (-1) = -1 ∧ s.parent.getD n (-1) = -1)

theorem udfsInv_nil_pre (und : List (List (Nat × Nat))) (nc ec : Nat)
    (s : UDfsState) (hinv : UdfsInv und nc ec s []) :
    UdfsPre und nc ec s := by
  obtain ⟨hA, hB, hC, hD, hE, hF, hG, hH, hI, hJ, hK, hL⟩ := hinv
  refine ⟨hA, hB, hC, hD, hE, ?_, ?_, hK, hL⟩
  · intro n hn hv
    rcases hI n hn hv with ⟨iw, hw⟩ | hall
    · exact absurd hw (List.not_mem_nil _)
    · exact hall
  · intro n hn hv
    rcases hJ n hn hv with ⟨iw, hw⟩ | hpost
    · exact absurd hw (List.not_mem_nil _)
    · exact hpost

theorem udfsPre_stamped (und : List (List (Nat × Nat))) (nc ec : Nat)
    (s : UDfsState) (start : Nat) (hpre : UdfsPre und nc ec s)
    (hstart : start < nc) (hz : s.dfsnum.getD start 0 = 0) :
    UdfsInv und nc ec
      { s with
        dfsnum := s.dfsnum.set start (s.time + 1),
        time := s.time + 1 }
      [(start, 0)] := by
  obtain ⟨hA, hB, hC, hD, hE, hI0, hJ0, hK, hL⟩ := hpre
  have hslen : start < s.dfsnum.length := by rw [hA]; exact hstart
  refine ⟨?_, hB, hC, hD, hE, Nat.succ_le_succ (Nat.zero_le _), ?_, ?_, ?_, ?_,
    ?_, ?_⟩
  · dsimp only
    rw [List.length_set]
    exact hA
  · intro p hp
    rcases List.mem_cons.mp hp with hp | hp
    · subst hp
      refine ⟨hstart, ?_⟩
      dsimp only
      rw [getD_set_self _ _ _ hslen]
      exact Nat.succ_ne_zero _
    · exact absurd hp (List.not_mem_nil _)
  · intro p hp j hj
    rcases List.mem_cons.mp hp with hp | hp
    · subst hp
      exact absurd hj (Nat.not_lt_zero j)
    · exact absurd hp (List.not_mem_nil _)
  · intro n hn hv
    by_cases hns : n = start
    · subst hns
      exact Or.inl ⟨0, List.mem_cons_self _ _⟩
    · have hv' : s.dfsnum.getD n 0 ≠ 0 := by
        rw [getD_set_ne _ _ _ (fun h => hns h.symm)] at hv
        exact hv
      exact Or.inr (hI0 n hn hv')
  · intro n hn hv
    by_cases hns : n = start
    · subst hns
      exact Or.inl ⟨0, List.mem_cons_self _ _⟩
    · have hv' : s.dfsnum.getD n 0 ≠ 0 := by
        rw [getD_set_ne _ _ _ (fun h => hns h.symm)] at hv
        exact hv
      exact Or.inr (hJ0 n hn hv')
  · intro e he
    rcases hK e he with ⟨n, hn, hvis, hpar, hpe⟩ | ⟨n, hn, hvis, hmem⟩
    · refine Or.inl ⟨n, hn, ?_, hpar, hpe⟩
      dsimp only
      exact dfsnum_set_pres _ _ _ _ (Nat.succ_ne_zero _) hvis
    · refine Or.inr ⟨n, hn, ?_, hmem⟩
      dsimp only
      exact dfsnum_set_pres _ _ _ _ (Nat.succ_ne_zero _) hvis
  · intro n hn h0
    have hns : start ≠ n := by
      intro h
      subst h
      rw [show ({ s with
          dfsnum := s.dfsnum.set start (s.time + 1),
          time := s.time + 1 } : UDfsState).dfsnum =
          s.dfsnum.set start (s.time + 1) from rfl,
        getD_set_self _ _ _ hslen] at h0
      exact Nat.succ_ne_zero _ h0
    have h0' : s.dfsnum.getD n 0 = 0 := by
      have h02 : (s.dfsnum.set start (s.time + 1)).getD n 0 = 0 := h0
      rw [getD_set_ne _ _ _ hns] at h02
      exact h02
    exact hL n hn h0'

theorem udfsRun_inv (und : List (List (Nat × Nat))) (nc ec : Nat)
    (hWF : UdfsWF und nc ec) (fuel : Nat) (s : UDfsState) (start : Nat)
    (hpre : UdfsPre und nc ec s) (hstart : start < nc)
    (hz : s.dfsnum.getD start 0 = 0) (hfuel : udfsFuel nc und ≤ fuel) :
    UdfsInv und nc ec (udfsRun und fuel s start) [] := by
  unfold udfsRun
  refine udfsLoop_inv und nc ec hWF fuel _ [(start, 0)] ?_
    (udfsPre_stamped und nc ec s start hpre hstart hz)
  dsimp only
  rw [udfsMeasure_cons]
  have hset := udfsUnvis_set und nc s.dfsnum start (s.time + 1) hstart hpre.1 hz
    (Nat.succ_ne_zero _)
  have hle := udfsUnvis_le und nc s.dfsnum
  have hfeq : udfsFuel nc und =
      (∑ n ∈ Finset.range nc, (und.getD n []).length) + nc + 2 := by
    unfold udfsFuel
    rw [foldl_len_sum, hWF.1]
    omega
  have hnil : udfsMeasure und nc (s.dfsnum.set start (s.time + 1)) [] =
      udfsUnvis und nc (s.dfsnum.set start (s.time + 1)) := by
    unfold udfsMeasure
    simp
  rw [hnil]
  omega

theorem restartFold_inv (und : List (List (Nat × Nat))) (nc ec : Nat)
    (hWF : UdfsWF und nc ec) :
    ∀ (l : List Nat) (s : UDfsState), (∀ n ∈ l, n < nc) →
      UdfsInv und nc ec s [] →
      UdfsInv und nc ec
        (l.foldl (fun s n => if s.dfsnum.getD n 0 == 0
          then udfsRun und (udfsFuel nc und) s n else s) s) [] ∧
      (∀ n ∈ l,
        (l.foldl (fun s n => if s.dfsnum.getD n 0 == 0
          then udfsRun und (udfsFuel nc und) s n else s) s).dfsnum.getD n 0 ≠ 0) ∧
      (∀ n, s.dfsnum.getD n 0 ≠ 0 →
        (l.foldl (fun s n => if s.dfsnum.getD n 0 == 0
          then udfsRun und (udfsFuel nc und) s n else s) s).dfsnum.getD n 0 ≠ 0) := by
  intro l
  induction l with
  | nil =>
    intro s _ hinv
    exact ⟨hinv, fun n hn => absurd hn (List.not_mem_nil _), fun n h => h⟩
  | cons m rest ih =>
    intro s hmem hinv
    simp only [List.foldl_cons]
    have hmlt : m < nc := hmem m (List.mem_cons_self _ _)
    by_cases hv : s.dfsnum.getD m 0 = 0
    · rw [if_pos (beq_iff_eq.mpr hv)]
      have hinv' : UdfsInv und nc ec (udfsRun und (udfsFuel nc und) s m) [] :=
        udfsRun_inv und nc ec hWF _ s m (udfsInv_nil_pre und nc ec s hinv)
          hmlt hv le_rfl
      have hvisit : (udfsRun und (udfsFuel nc und) s m).dfsnum.getD m 0 ≠ 0 :=
        udfsRun_visits und _ s m (by rw [hinv.1]; exact hmlt)
      obtain ⟨h1, h2, h3⟩ := ih (udfsRun und (udfsFuel nc und) s m)
        (fun n hn => hmem n (List.mem_cons_of_mem _ hn)) hinv'
      refine ⟨h1, ?_, ?_⟩
      · intro n hn
        rcases List.mem_cons.mp hn with hn | hn
        · subst hn
          exact h3 n hvisit
        · exact h2 n hn
      · intro n hvn
        exact h3 n (udfsRun_dfsnum_mono und _ s m n hvn)
    · rw [if_neg (fun hcon => hv (beq_iff_eq.mp hcon))]
      obtain ⟨h1, h2, h3⟩ := ih s
        (fun n hn => hmem n (List.mem_cons_of_mem _ hn)) hinv
      refine ⟨h1, ?_, h3⟩
      intro n hn
      rcases List.mem_cons.mp hn with hn | hn
      · subst hn
        exact h3 n hv
      · exact h2 n hn

theorem udfsAll_spec (nc ec : Nat) (und : List (List (Nat × Nat)))
    (root : Nat) (hWF : UdfsWF und nc ec) (hroot : root < nc) :
    UdfsInv und nc ec (udfsAll nc ec und root) [] ∧
    ∀ n, n < nc → (udfsAll nc ec und root).dfsnum.getD n 0 ≠ 0 := by
  unfold udfsAll
  have hs0pre : UdfsPre und nc ec
      { dfsnum := List.replicate nc 0
        parent := List.replicate nc (-1)
        parent_edge := List.replicate nc (-1)
        children := List.replicate nc []
        backedges_from := List.replicate nc []
        backedges_to := List.replicate nc []
        edge_upper := List.replicate ec (-1)
        edge_seen := List.replicate ec false
        postorder := []
        time := 0 } := by
    refine ⟨List.length_replicate _ _, List.length_replicate _ _,
      List.length_replicate _ _, List.length_replicate _ _,
      List.length_replicate _ _, ?_, ?_, ?_, ?_⟩
    · intro n _ hv
      exact absurd (getD_replicate 0 nc n) hv
    · intro n _ hv
      exact absurd (getD_replicate 0 nc n) hv
    · intro e he
      rw [getD_replicate] at he
      exact absurd he (by simp)
    · intro n _ _
      exact ⟨getD_replicate _ _ _, getD_replicate _ _ _⟩
  have hinv1 := udfsRun_inv und nc ec hWF (udfsFuel nc und) _ root hs0pre hroot
    (getD_replicate 0 nc root) le_rfl
  obtain ⟨h1, h2, h3⟩ := restartFold_inv und nc ec hWF (List.range nc) _
    (fun n hn => List.mem_range.mp hn) hinv1
  exact ⟨h1, fun n hn => h2 n (List.mem_range.mpr hn)⟩

/-! ### Supporting lemmas: value and handle invariants of the sweep -/

theorem getD_listModify_cases (f : α → α) (d : α) (xs : List α) (i x : Nat) :
    (listModify xs i f).getD x d = xs.getD x d ∨
    (x = i ∧ x < xs.length ∧
      (listModify xs i f).getD x d = f (xs.getD x d)) := by
  by_cases hix : i = x
  · subst hix
    by_cases hl : i < xs.length
    · exact Or.inr ⟨rfl, hl, getD_listModify_self f d xs i hl⟩
    · rw [listModify_oob f xs i (Nat.le_of_not_lt hl)]
      exact Or.inl rfl
  · exact Or.inl (getD_listModify_ne f d xs i x hix)

theorem getD_append_last (l : List α) (a d : α) :
    (l ++ [a]).getD l.length d = a := by
  rw [List.getD_append_right l [a] d l.length (le_refl l.length)]
  simp

/-- Every recorded class value is at least 1, every recorded recent class
is at least 1, and a recorded recent size comes with a recent class. -/
def SweepVal (es : List Edge) : Prop :=
  (∀ x c, (es.getD x defaultEdge).class_id = some c → 1 ≤ c) ∧
  (∀ x c, (es.getD x defaultEdge).recent_class = some c → 1 ≤ c) ∧
  (∀ x, (es.getD x defaultEdge).recent_size ≠ none →
    (es.getD x defaultEdge).recent_class ≠ none)

/-- Positions holding an assigned class keep holding one. -/
def ClassLe (es es' : List Edge) : Prop :=
  ∀ x, (es.getD x defaultEdge).class_id ≠ none →
    (es'.getD x defaultEdge).class_id ≠ none

/-- The scratch class fields agree position-wise. -/
def ClassEq (es es' : List Edge) : Prop :=
  ∀ x, (es'.getD x defaultEdge).class_id = (es.getD x defaultEdge).class_id ∧
    (es'.getD x defaultEdge).recent_size =
      (es.getD x defaultEdge).recent_size ∧
    (es'.getD x defaultEdge).recent_class =
      (es.getD x defaultEdge).recent_class

theorem classLe_refl (es : List Edge) : ClassLe es es := fun _ h => h

theorem classLe_trans {a b c : List Edge} (h1 : ClassLe a b)
    (h2 : ClassLe b c) : ClassLe a c := fun x h => h2 x (h1 x h)

theorem classEq_refl (es : List Edge) : ClassEq es es := fun _ => ⟨Eq.refl _, Eq.refl _, Eq.refl _⟩

theorem classEq_trans {a b c : List Edge} (h1 : ClassEq a b)
    (h2 : ClassEq b c) : ClassEq a c := fun x =>
  ⟨(h2 x).1.trans (h1 x).1, (h2 x).2.1.trans (h1 x).2.1,
    (h2 x).2.2.trans (h1 x).2.2⟩

theorem classEq_of_eq {a b : List Edge} (h : b = a) : ClassEq a b := by
  subst h
  exact classEq_refl _

theorem ClassEq.le {a b : List Edge} (h : ClassEq a b) : ClassLe a b :=
  fun x hx => by rw [(h x).1]; exact hx

theorem ClassEq.val {a b : List Edge} (h : ClassEq a b) (hv : SweepVal a) :
    SweepVal b := by
  obtain ⟨h1, h2, h3⟩ := hv
  refine ⟨?_, ?_, ?_⟩
  · intro x c hx
    rw [(h x).1] at hx
    exact h1 x c hx
  · intro x c hx
    rw [(h x).2.2] at hx
    exact h2 x c hx
  · intro x hx
    rw [(h x).2.1] at hx
    rw [(h x).2.2]
    exact h3 x hx

theorem classEq_listModify (es : List Edge) (i : Nat) (f : Edge → Edge)
    (hf : ∀ e, (f e).class_id = e.class_id ∧
      (f e).recent_size = e.recent_size ∧
      (f e).recent_class = e.recent_class) :
    ClassEq es (listModify es i f) := by
  intro x
  rcases getD_listModify_cases f defaultEdge es i x with h | ⟨_, _, h⟩
  · rw [h]
    exact ⟨rfl, rfl, rfl⟩
  · rw [h]
    exact hf _

theorem classLe_set_class (es : List Edge) (i : Nat) (c : Option Nat)
    (hc : c ≠ none) :
    ClassLe es (listModify es i (fun e => { e with class_id := c })) := by
  intro x hx
  rcases getD_listModify_cases (fun e => { e with class_id := c })
    defaultEdge es i x with h | ⟨_, _, h⟩
  · rw [h]; exact hx
  · rw [h]; exact hc

theorem sweepVal_set_class (es : List Edge) (i : Nat) (c : Option Nat)
    (hc : ∀ v, c = some v → 1 ≤ v) (h : SweepVal es) :
    SweepVal (listModify es i (fun e => { e with class_id := c })) := by
  obtain ⟨h1, h2, h3⟩ := h
  refine ⟨?_, ?_, ?_⟩
  · intro x v hx
    rcases getD_listModify_cases (fun e => { e with class_id := c })
      defaultEdge es i x with hcase | ⟨_, _, hcase⟩
    · rw [hcase] at hx
      exact h1 x v hx
    · rw [hcase] at hx
      exact hc v hx
  · intro x v hx
    rcases getD_listModify_cases (fun e => { e with class_id := c })
      defaultEdge es i x with hcase | ⟨_, _, hcase⟩
    · rw [hcase] at hx
      exact h2 x v hx
    · rw [hcase] at hx
      exact h2 x v hx
  · intro x hx
    rcases getD_listModify_cases (fun e => { e with class_id := c })
      defaultEdge es i x with hcase | ⟨_, _, hcase⟩
    · rw [hcase] at hx ⊢
      exact h3 x hx
    · rw [hcase] at hx ⊢
      exact h3 x hx

theorem sweepVal_set_recent (es : List Edge) (i : Nat) (sz : Option Nat)
    (v : Nat) (hv : 1 ≤ v) (h : SweepVal es) :
    SweepVal (listModify es i
      (fun e => { e with recent_size := sz, recent_class := some v })) := by
  obtain ⟨h1, h2, h3⟩ := h
  refine ⟨?_, ?_, ?_⟩
  · intro x c hx
    rcases getD_listModify_cases
      (fun e => { e with recent_size := sz, recent_class := some v })
      defaultEdge es i x with hcase | ⟨_, _, hcase⟩
    · rw [hcase] at hx
      exact h1 x c hx
    · rw [hcase] at hx
      exact h1 x c hx
  · intro x c hx
    rcases getD_listModify_cases
      (fun e => { e with recent_size := sz, recent_class := some v })
      defaultEdge es i x with hcase | ⟨_, _, hcase⟩
    · rw [hcase] at hx
      exact h2 x c hx
    · rw [hcase] at hx
      have : some v = some c := hx
      rw [← Option.some.inj this]
      exact hv
  · intro x hx
    rcases getD_listModify_cases
      (fun e => { e with recent_size := sz, recent_class := some v })
      defaultEdge es i x with hcase | ⟨_, _, hcase⟩
    · rw [hcase] at hx ⊢
      exact h3 x hx
    · rw [hcase]
      simp

theorem classLe_append (es ex : List Edge) : ClassLe es (es ++ ex) := by
  intro x hx
  by_cases hl : x < es.length
  · rw [List.getD_append es ex defaultEdge x hl]
    exact hx
  · rw [List.getD_eq_default es defaultEdge (Nat.le_of_not_lt hl)] at hx
    exact absurd rfl hx

theorem sweepVal_append (es ex : List Edge)
    (hex : ∀ e ∈ ex, e.class_id = none ∧ e.recent_size = none ∧
      e.recent_class = none)
    (h : SweepVal es) : SweepVal (es ++ ex) := by
  have hfields : ∀ x, ((es ++ ex).getD x defaultEdge).class_id =
        (es.getD x defaultEdge).class_id ∧
      ((es ++ ex).getD x defaultEdge).recent_size =
        (es.getD x defaultEdge).recent_size ∧
      ((es ++ ex).getD x defaultEdge).recent_class =
        (es.getD x defaultEdge).recent_class := by
    intro x
    by_cases hl : x < es.length
    · rw [List.getD_append es ex defaultEdge x hl]
      exact ⟨rfl, rfl, rfl⟩
    · rw [List.getD_eq_default es defaultEdge (Nat.le_of_not_lt hl)]
      by_cases hl2 : x < (es ++ ex).length
      · have hmem : (es ++ ex).getD x defaultEdge ∈ ex := by
          rw [List.getD_eq_getElem _ _ hl2,
            List.getElem_append_right (Nat.le_of_not_lt hl)]
          exact List.getElem_mem _
        obtain ⟨he1, he2, he3⟩ := hex _ hmem
        exact ⟨he1, he2, he3⟩
      · rw [List.getD_eq_default _ defaultEdge (Nat.le_of_not_lt hl2)]
        exact ⟨rfl, rfl, rfl⟩
  exact ClassEq.val hfields h

/-- Handle bounds of a bracket-list header against an arena size. -/
def BLWF (alen : Nat) (bl : BracketList) : Prop :=
  (∀ t, bl.head = some t → t < alen) ∧ (∀ t, bl.tail = some t → t < alen)

/-- Handle bounds of the whole sweep state: arena nodes hold in-range
edge ids and in-range neighbour handles, stored bracket lists hold
in-range handles. -/
def SweepWF (st : SweepState) : Prop :=
  (∀ i, i < st.arena.length →
    (st.arena.getD i ⟨0, none, none⟩).edge < st.edges.length ∧
    (∀ p, (st.arena.getD i ⟨0, none, none⟩).prev = some p →
      p < st.arena.length) ∧
    (∀ q, (st.arena.getD i ⟨0, none, none⟩).next = some q →
      q < st.arena.length)) ∧
  (∀ c, BLWF st.arena.length (st.blists.getD c emptyBracketList))

theorem BLWF_mono {alen alen' : Nat} (h : alen ≤ alen') (bl : BracketList)
    (hw : BLWF alen bl) : BLWF alen' bl :=
  ⟨fun t ht => lt_of_lt_of_le (hw.1 t ht) h,
   fun t ht => lt_of_lt_of_le (hw.2 t ht) h⟩

theorem emptyBL_wf (alen : Nat) : BLWF alen emptyBracketList := by
  refine ⟨fun t ht => ?_, fun t ht => ?_⟩ <;> exact Option.noConfusion ht

theorem blPush_good (st : SweepState) (bl : BracketList) (eid : Nat)
    (hwf : SweepWF st) (hbl : BLWF st.arena.length bl)
    (heid : eid < st.edges.length) :
    SweepWF (blPush st bl eid).1 ∧
    BLWF (st.arena.length + 1) (blPush st bl eid).2 ∧
    (blPush st bl eid).1.edges =
      listModify st.edges eid
        (fun e => { e with list_node := some st.arena.length }) ∧
    (blPush st bl eid).1.arena.length = st.arena.length + 1 ∧
    (blPush st bl eid).1.blists = st.blists := by
  obtain ⟨hA, hB⟩ := hwf
  unfold blPush
  cases htail : bl.tail with
  | none =>
    dsimp only
    have hlen : (st.arena ++ [(⟨eid, none, none⟩ : BracketNode)]).length =
        st.arena.length + 1 := by simp
    refine ⟨⟨?_, ?_⟩, ⟨?_, ?_⟩, Eq.refl _, hlen, Eq.refl _⟩
    · intro i hi
      rw [hlen] at hi
      by_cases hia : i < st.arena.length
      · rw [List.getD_append _ _ _ i hia]
        obtain ⟨h1, h2, h3⟩ := hA i hia
        refine ⟨?_, ?_, ?_⟩
        · rw [listModify_length]
          exact h1
        · intro p hp
          exact lt_of_lt_of_le (h2 p hp) (by rw [hlen]; omega)
        · intro q hq
          exact lt_of_lt_of_le (h3 q hq) (by rw [hlen]; omega)
      · have hieq : i = st.arena.length := by omega
        rw [hieq, getD_append_last]
        refine ⟨?_, ?_, ?_⟩
        · rw [listModify_length]
          exact heid
        · intro p hp
          exact Option.noConfusion hp
        · intro q hq
          exact Option.noConfusion hq
    · intro c
      rw [hlen]
      exact BLWF_mono (Nat.le_succ _) _ (hB c)
    · intro t ht
      have := Option.some.inj ht
      omega
    · intro t ht
      have := Option.some.inj ht
      omega
  | some t =>
    dsimp only
    have htlt : t < st.arena.length := hbl.2 t htail
    have hlen : (st.arena ++ [(⟨eid, some t, none⟩ : BracketNode)]).length =
        st.arena.length + 1 := by simp
    have hlen2 : (listModify (st.arena ++ [(⟨eid, some t, none⟩ : BracketNode)])
        t (fun nd => { nd with next := some st.arena.length })).length =
        st.arena.length + 1 := by
      rw [listModify_length]
      exact hlen
    refine ⟨⟨?_, ?_⟩, ⟨?_, ?_⟩, Eq.refl _, hlen2, Eq.refl _⟩
    · intro i hi
      rw [hlen2] at hi
      rcases getD_listModify_cases
        (fun nd => { nd with next := some st.arena.length })
        (⟨0, none, none⟩ : BracketNode)
        (st.arena ++ [(⟨eid, some t, none⟩ : BracketNode)]) t i with
        hcase | ⟨hit, _, hcase⟩
      · rw [hcase]
        by_cases hia : i < st.arena.length
        · rw [List.getD_append _ _ _ i hia]
          obtain ⟨h1, h2, h3⟩ := hA i hia
          refine ⟨?_, ?_, ?_⟩
          · rw [listModify_length]
            exact h1
          · intro p hp
            exact lt_of_lt_of_le (h2 p hp) (by rw [hlen2]; omega)
          · intro q hq
            exact lt_of_lt_of_le (h3 q hq) (by rw [hlen2]; omega)
        · have hieq : i = st.arena.length := by omega
          rw [hieq, getD_append_last]
          refine ⟨?_, ?_, ?_⟩
          · rw [listModify_length]
            exact heid
          · intro p hp
            have := Option.some.inj hp
            rw [hlen2, ← this]
            omega
          · intro q hq
            exact Option.noConfusion hq
      · subst hit
        rw [hcase, List.getD_append _ _ _ i htlt]
        obtain ⟨h1, h2, h3⟩ := hA i htlt
        refine ⟨?_, ?_, ?_⟩
        · dsimp only
          rw [listModify_length]
          exact h1
        · intro p hp
          dsimp only at hp
          exact lt_of_lt_of_le (h2 p hp) (by rw [hlen2]; omega)
        · intro q hq
          dsimp only at hq
          have := Option.some.inj hq
          rw [hlen2, ← this]
          omega
    · intro c
      rw [hlen2]
      exact BLWF_mono (Nat.le_succ _) _ (hB c)
    · intro t' ht'
      exact lt_of_lt_of_le (hbl.1 t' ht') (Nat.le_succ _)
    · intro t' ht'
      have := Option.some.inj ht'
      omega

theorem splicePrev_good (st : SweepState) (bl : BracketList)
    (nd : BracketNode) (hwf : SweepWF st) (hbl : BLWF st.arena.length bl)
    (hnp : ∀ p, nd.prev = some p → p < st.arena.length)
    (hnn : ∀ q, nd.next = some q → q < st.arena.length) :
    SweepWF (blDeleteSplicePrev st bl nd).1 ∧
    BLWF st.arena.length (blDeleteSplicePrev st bl nd).2 ∧
    (blDeleteSplicePrev st bl nd).1.edges = st.edges ∧
    (blDeleteSplicePrev st bl nd).1.arena.length = st.arena.length ∧
    (blDeleteSplicePrev st bl nd).1.blists = st.blists := by
  obtain ⟨hA, hB⟩ := hwf
  unfold blDeleteSplicePrev
  cases hprev : nd.prev with
  | none =>
    dsimp only
    exact ⟨⟨hA, hB⟩, ⟨hnn, hbl.2⟩, Eq.refl _, Eq.refl _, Eq.refl _⟩
  | some p =>
    dsimp only
    have hlen : (listModify st.arena p
        (fun x => { x with next := nd.next })).length = st.arena.length :=
      listModify_length _ _ _
    refine ⟨⟨?_, ?_⟩, ⟨?_, ?_⟩, Eq.refl _, hlen, Eq.refl _⟩
    · intro i hi
      rw [hlen] at hi
      rcases getD_listModify_cases (fun x => { x with next := nd.next })
        (⟨0, none, none⟩ : BracketNode) st.arena p i with
        hcase | ⟨_, _, hcase⟩
      · rw [hcase]
        obtain ⟨h1, h2, h3⟩ := hA i hi
        exact ⟨h1, fun p' hp' => by rw [hlen]; exact h2 p' hp',
          fun q' hq' => by rw [hlen]; exact h3 q' hq'⟩
      · rw [hcase]
        obtain ⟨h1, h2, h3⟩ := hA i hi
        exact ⟨h1, fun p' hp' => by rw [hlen]; exact h2 p' hp',
          fun q' hq' => by rw [hlen]; exact hnn q' hq'⟩
    · intro c
      rw [hlen]
      exact hB c
    · exact hbl.1
    · exact hbl.2

theorem spliceNext_good (st : SweepState) (bl : BracketList)
    (nd : BracketNode) (hwf : SweepWF st) (hbl : BLWF st.arena.length bl)
    (hnp : ∀ p, nd.prev = some p → p < st.arena.length) :
    SweepWF (blDeleteSpliceNext st bl nd).1 ∧
    BLWF st.arena.length (blDeleteSpliceNext st bl nd).2 ∧
    (blDeleteSpliceNext st bl nd).1.edges = st.edges ∧
    (blDeleteSpliceNext st bl nd).1.arena.length = st.arena.length ∧
    (blDeleteSpliceNext st bl nd).1.blists = st.blists := by
  obtain ⟨hA, hB⟩ := hwf
  unfold blDeleteSpliceNext
  cases hnext : nd.next with
  | none =>
    dsimp only
    exact ⟨⟨hA, hB⟩, ⟨hbl.1, hnp⟩, Eq.refl _, Eq.refl _, Eq.refl _⟩
  | some nx =>
    dsimp only
    have hlen : (listModify st.arena nx
        (fun x => { x with prev := nd.prev })).length = st.arena.length :=
      listModify_length _ _ _
    refine ⟨⟨?_, ?_⟩, ⟨?_, ?_⟩, Eq.refl _, hlen, Eq.refl _⟩
    · intro i hi
      rw [hlen] at hi
      rcases getD_listModify_cases (fun x => { x with prev := nd.prev })
        (⟨0, none, none⟩ : BracketNode) st.arena nx i with
        hcase | ⟨_, _, hcase⟩
      · rw [hcase]
        obtain ⟨h1, h2, h3⟩ := hA i hi
        exact ⟨h1, fun p' hp' => by rw [hlen]; exact h2 p' hp',
          fun q' hq' => by rw [hlen]; exact h3 q' hq'⟩
      · rw [hcase]
        obtain ⟨h1, h2, h3⟩ := hA i hi
        exact ⟨h1, fun p' hp' => by rw [hlen]; exact hnp p' hp',
          fun q' hq' => by rw [hlen]; exact h3 q' hq'⟩
    · intro c
      rw [hlen]
      exact hB c
    · exact hbl.1
    · exact hbl.2

theorem blDelete_good (st : SweepState) (bl : BracketList) (eid : Nat)
    (hwf : SweepWF st) (hbl : BLWF st.arena.length bl) :
    SweepWF (blDelete st bl eid).1 ∧
    BLWF (blDelete st bl eid).1.arena.length (blDelete st bl eid).2 ∧
    ClassEq st.edges (blDelete st bl eid).1.edges ∧
    (blDelete st bl eid).1.edges.length = st.edges.length ∧
    (blDelete st bl eid).1.arena.length = st.arena.length ∧
    (blDelete st bl eid).1.blists = st.blists := by
  unfold blDelete
  cases hln : (st.edges.getD eid defaultEdge).list_node with
  | none =>
    exact ⟨hwf, hbl, classEq_refl _, Eq.refl _, Eq.refl _, Eq.refl _⟩
  | some idx =>
    dsimp only
    have hnd : (∀ p, (st.arena.getD idx ⟨0, none, none⟩).prev = some p →
          p < st.arena.length) ∧
        (∀ q, (st.arena.getD idx ⟨0, none, none⟩).next = some q →
          q < st.arena.length) := by
      by_cases hidx : idx < st.arena.length
      · exact ⟨(hwf.1 idx hidx).2.1, (hwf.1 idx hidx).2.2⟩
      · rw [List.getD_eq_default _ _ (Nat.le_of_not_lt hidx)]
        exact ⟨fun p hp => Option.noConfusion hp,
          fun q hq => Option.noConfusion hq⟩
    obtain ⟨hw1, hb1, he1, ha1, hbl1⟩ := splicePrev_good st bl
      (st.arena.getD idx ⟨0, none, none⟩) hwf hbl hnd.1 hnd.2
    obtain ⟨hw2, hb2, he2, ha2, hbl2⟩ := spliceNext_good _ _
      (st.arena.getD idx ⟨0, none, none⟩) hw1 (by rw [← ha1] at hb1; exact hb1)
      (by rw [ha1]; exact hnd.1)
    set P2 := blDeleteSpliceNext
      (blDeleteSplicePrev st bl (st.arena.getD idx ⟨0, none, none⟩)).1
      (blDeleteSplicePrev st bl (st.arena.getD idx ⟨0, none, none⟩)).2
      (st.arena.getD idx ⟨0, none, none⟩) with hP2
    have hedgesEq : P2.1.edges = st.edges := he2.trans he1
    have harenaEq : P2.1.arena.length = st.arena.length := by rw [ha2, ha1]
    have hblistsEq : P2.1.blists = st.blists := hbl2.trans hbl1
    have hlenA : (listModify P2.1.arena idx
        (fun x => { x with prev := none, next := none })).length =
        st.arena.length := by
      rw [listModify_length]
      exact harenaEq
    have hlenE : (listModify P2.1.edges eid
        (fun e => { e with list_node := none })).length = st.edges.length := by
      rw [listModify_length, hedgesEq]
    refine ⟨⟨?_, ?_⟩, ?_, ?_, ?_, ?_, ?_⟩
    · intro i hi
      dsimp only at hi ⊢
      rw [hlenA] at hi
      rcases getD_listModify_cases
        (fun x => ({ x with prev := none, next := none } : BracketNode))
        (⟨0, none, none⟩ : BracketNode) P2.1.arena idx i with
        hcase | ⟨_, _, hcase⟩
      · rw [hcase]
        obtain ⟨h1, h2, h3⟩ := hw2.1 i (by rw [harenaEq]; exact hi)
        refine ⟨?_, ?_, ?_⟩
        · rw [hlenE, ← hedgesEq]
          exact h1
        · intro p hp
          rw [hlenA, ← harenaEq]
          exact h2 p hp
        · intro q hq
          rw [hlenA, ← harenaEq]
          exact h3 q hq
      · rw [hcase]
        obtain ⟨h1, h2, h3⟩ := hw2.1 i (by rw [harenaEq]; exact hi)
        refine ⟨?_, ?_, ?_⟩
        · dsimp only
          rw [hlenE, ← hedgesEq]
          exact h1
        · intro p hp
          exact Option.noConfusion hp
        · intro q hq
          exact Option.noConfusion hq
    · intro c
      dsimp only
      rw [hlenA]
      have hc := hw2.2 c
      rw [harenaEq] at hc
      exact hc
    · dsimp only
      rw [hlenA]
      have hb2' := hb2
      rw [ha1] at hb2'
      exact ⟨hb2'.1, hb2'.2⟩
    · dsimp only
      refine classEq_trans (classEq_of_eq hedgesEq) ?_
      exact classEq_listModify _ _ _
        (fun e => ⟨Eq.refl _, Eq.refl _, Eq.refl _⟩)
    · dsimp only
      exact hlenE
    · dsimp only
      exact hlenA
    · dsimp only
      exact hblistsEq

theorem classLe_listModify_keep (es : List Edge) (i : Nat) (f : Edge → Edge)
    (hf : ∀ e, (f e).class_id = e.class_id) :
    ClassLe es (listModify es i f) := by
  intro x hx
  rcases getD_listModify_cases f defaultEdge es i x with h | ⟨_, _, h⟩
  · rw [h]
    exact hx
  · rw [h, hf]
    exact hx

theorem sweepWF_transfer (st st' : SweepState) (hwf : SweepWF st)
    (ha : st'.arena = st.arena) (hb : st'.blists = st.blists)
    (he : st.edges.length ≤ st'.edges.length) : SweepWF st' := by
  obtain ⟨hA, hB⟩ := hwf
  refine ⟨?_, ?_⟩
  · intro i hi
    rw [ha] at hi ⊢
    obtain ⟨h1, h2, h3⟩ := hA i hi
    exact ⟨lt_of_lt_of_le h1 he, h2, h3⟩
  · intro c
    rw [ha, hb]
    exact hB c

theorem sweepWF_set_blist (st : SweepState) (n : Nat) (bl : BracketList)
    (hwf : SweepWF st) (hbl : BLWF st.arena.length bl) :
    SweepWF { st with blists := st.blists.set n bl } := by
  refine ⟨hwf.1, ?_⟩
  intro c
  by_cases hcn : n = c
  · subst hcn
    by_cases hl : n < st.blists.length
    · rw [getD_set_self _ _ _ hl]
      exact hbl
    · rw [List.set_eq_of_length_le (Nat.le_of_not_lt hl)]
      exact hwf.2 n
  · rw [getD_set_ne _ _ _ hcn]
    exact hwf.2 c

theorem concat_blist_good (st : SweepState) (l r : BracketList)
    (hwf : SweepWF st) (hl : BLWF st.arena.length l)
    (hr : BLWF st.arena.length r) :
    SweepWF (concat_blist st l r).1 ∧
    BLWF st.arena.length (concat_blist st l r).2 ∧
    (concat_blist st l r).1.edges = st.edges ∧
    (concat_blist st l r).1.arena.length = st.arena.length ∧
    (concat_blist st l r).1.blists = st.blists := by
  unfold concat_blist
  by_cases h1 : l.size == 0
  · rw [if_pos h1]
    exact ⟨hwf, hr, Eq.refl _, Eq.refl _, Eq.refl _⟩
  · rw [if_neg h1]
    by_cases h2 : r.size == 0
    · rw [if_pos h2]
      exact ⟨hwf, hl, Eq.refl _, Eq.refl _, Eq.refl _⟩
    · rw [if_neg h2]
      cases hlt : l.tail with
      | none =>
        cases hrh : r.head with
        | none => exact ⟨hwf, hl, Eq.refl _, Eq.refl _, Eq.refl _⟩
        | some rh => exact ⟨hwf, hl, Eq.refl _, Eq.refl _, Eq.refl _⟩
      | some lt =>
        cases hrh : r.head with
        | none => exact ⟨hwf, hl, Eq.refl _, Eq.refl _, Eq.refl _⟩
        | some rh =>
          dsimp only
          obtain ⟨hA, hB⟩ := hwf
          have hltb : lt < st.arena.length := hl.2 lt hlt
          have hrhb : rh < st.arena.length := hr.1 rh hrh
          have hlen : (listModify (listModify st.arena lt
              (fun x => { x with next := some rh })) rh
              (fun x => { x with prev := some lt })).length =
              st.arena.length := by
            rw [listModify_length, listModify_length]
          have hfact : ∀ j, j < st.arena.length →
              ((listModify st.arena lt
                (fun x => { x with next := some rh })).getD j
                  ⟨0, none, none⟩).edge < st.edges.length ∧
              (∀ p, ((listModify st.arena lt
                (fun x => { x with next := some rh })).getD j
                  ⟨0, none, none⟩).prev = some p → p < st.arena.length) ∧
              (∀ q, ((listModify st.arena lt
                (fun x => { x with next := some rh })).getD j
                  ⟨0, none, none⟩).next = some q → q < st.arena.length) := by
            intro j hj
            rcases getD_listModify_cases
              (fun x => ({ x with next := some rh } : BracketNode))
              (⟨0, none, none⟩ : BracketNode) st.arena lt j with
              hcase | ⟨_, _, hcase⟩
            · rw [hcase]
              exact hA j hj
            · rw [hcase]
              obtain ⟨g1, g2, g3⟩ := hA j hj
              refine ⟨g1, g2, ?_⟩
              intro q hq
              rw [← Option.some.inj hq]
              exact hrhb
          refine ⟨⟨?_, ?_⟩, ⟨?_, ?_⟩, Eq.refl _, hlen, Eq.refl _⟩
          · intro i hi
            dsimp only at hi ⊢
            rw [hlen] at hi
            rcases getD_listModify_cases
              (fun x => ({ x with prev := some lt } : BracketNode))
              (⟨0, none, none⟩ : BracketNode)
              (listModify st.arena lt (fun x => { x with next := some rh }))
              rh i with hcase | ⟨_, _, hcase⟩
            · rw [hcase]
              obtain ⟨g1, g2, g3⟩ := hfact i hi
              refine ⟨g1, ?_, ?_⟩
              · intro p hp
                rw [hlen]
                exact g2 p hp
              · intro q hq
                rw [hlen]
                exact g3 q hq
            · rw [hcase]
              obtain ⟨g1, g2, g3⟩ := hfact i hi
              refine ⟨g1, ?_, ?_⟩
              · intro p hp
                rw [hlen, ← Option.some.inj hp]
                exact hltb
              · intro q hq
                rw [hlen]
                exact g3 q hq
          · intro c
            dsimp only
            rw [hlen]
            exact hB c
          · intro t ht
            exact hl.1 t ht
          · intro t ht
            exact hr.2 t ht

theorem blTop_lt (st : SweepState) (bl : BracketList) (topId : Nat)
    (hwf : SweepWF st) (hbl : BLWF st.arena.length bl)
    (h : blTop st bl = some topId) : topId < st.edges.length := by
  unfold blTop at h
  cases htail : bl.tail with
  | none =>
    rw [htail] at h
    exact absurd h (by simp)
  | some t =>
    rw [htail] at h
    dsimp only at h
    have ht := hbl.2 t htail
    have hedge := (hwf.1 t ht).1
    rw [Option.some.inj h] at hedge
    exact hedge

theorem sweepConcat_fold_good (cs : List Nat) :
    ∀ (p : SweepState × BracketList), SweepWF p.1 →
      BLWF p.1.arena.length p.2 →
      SweepWF (cs.foldl
        (fun (p : SweepState × BracketList) c =>
          concat_blist p.1 (p.1.blists.getD c emptyBracketList) p.2) p).1 ∧
      BLWF (cs.foldl
        (fun (p : SweepState × BracketList) c =>
          concat_blist p.1 (p.1.blists.getD c emptyBracketList) p.2)
        p).1.arena.length
        (cs.foldl
          (fun (p : SweepState × BracketList) c =>
            concat_blist p.1 (p.1.blists.getD c emptyBracketList) p.2) p).2 := by
  induction cs with
  | nil =>
    intro p hwf hbl
    exact ⟨hwf, hbl⟩
  | cons c rest ih =>
    intro p hwf hbl
    simp only [List.foldl_cons]
    obtain ⟨g1, g2, g3, g4, g5⟩ := concat_blist_good p.1
      (p.1.blists.getD c emptyBracketList) p.2 hwf (hwf.2 c) hbl
    refine ih _ g1 ?_
    rw [g4]
    exact g2

theorem sweepCaps_fold_good (caps : List Nat) :
    ∀ (p : SweepState × BracketList), SweepWF p.1 →
      BLWF p.1.arena.length p.2 →
      SweepWF (caps.foldl
        (fun (p : SweepState × BracketList) cap => blDelete p.1 p.2 cap)
        p).1 ∧
      BLWF (caps.foldl
        (fun (p : SweepState × BracketList) cap => blDelete p.1 p.2 cap)
        p).1.arena.length
        (caps.foldl
          (fun (p : SweepState × BracketList) cap => blDelete p.1 p.2 cap)
          p).2 ∧
      ClassEq p.1.edges (caps.foldl
        (fun (p : SweepState × BracketList) cap => blDelete p.1 p.2 cap)
        p).1.edges ∧
      (caps.foldl
        (fun (p : SweepState × BracketList) cap => blDelete p.1 p.2 cap)
        p).1.edges.length = p.1.edges.length := by
  induction caps with
  | nil =>
    intro p hwf hbl
    exact ⟨hwf, hbl, classEq_refl _, Eq.refl _⟩
  | cons c rest ih =>
    intro p hwf hbl
    simp only [List.foldl_cons]
    obtain ⟨g1, g2, g3, g4, g5, g6⟩ := blDelete_good p.1 p.2 c hwf hbl
    obtain ⟨k1, k2, k3, k4⟩ := ih (blDelete p.1 p.2 c) g1 g2
    exact ⟨k1, k2, classEq_trans g3 k3, k4.trans g4⟩

theorem sweepBacks_fold_good (backs : List Nat) :
    ∀ (p : SweepState × BracketList), SweepWF p.1 →
      BLWF p.1.arena.length p.2 →
      SweepWF ((backs.foldl
        (fun (p : SweepState × BracketList) b_id =>
          let q := blDelete p.1 p.2 b_id
          let st := q.1
          if (st.edges.getD b_id defaultEdge).class_id == none then
            let st := { st with class_counter := st.class_counter + 1 }
            let edges' := listModify st.edges b_id
              (fun e => { e with class_id := some st.class_counter })
            ({ st with edges := edges' }, q.2)
          else (st, q.2))
        p)).1 ∧
      BLWF ((backs.foldl
        (fun (p : SweepState × BracketList) b_id =>
          let q := blDelete p.1 p.2 b_id
          let st := q.1
          if (st.edges.getD b_id defaultEdge).class_id == none then
            let st := { st with class_counter := st.class_counter + 1 }
            let edges' := listModify st.edges b_id
              (fun e => { e with class_id := some st.class_counter })
            ({ st with edges := edges' }, q.2)
          else (st, q.2))
        p)).1.arena.length
        ((backs.foldl
          (fun (p : SweepState × BracketList) b_id =>
            let q := blDelete p.1 p.2 b_id
            let st := q.1
            if (st.edges.getD b_id defaultEdge).class_id == none then
              let st := { st with class_counter := st.class_counter + 1 }
              let edges' := listModify st.edges b_id
                (fun e => { e with class_id := some st.class_counter })
              ({ st with edges := edges' }, q.2)
            else (st, q.2))
          p)).2 ∧
      ClassLe p.1.edges ((backs.foldl
        (fun (p : SweepState × BracketList) b_id =>
          let q := blDelete p.1 p.2 b_id
          let st := q.1
          if (st.edges.getD b_id defaultEdge).class_id == none then
            let st := { st with class_counter := st.class_counter + 1 }
            let edges' := listModify st.edges b_id
              (fun e => { e with class_id := some st.class_counter })
            ({ st with edges := edges' }, q.2)
          else (st, q.2))
        p)).1.edges ∧
      (SweepVal p.1.edges → SweepVal ((backs.foldl
        (fun (p : SweepState × BracketList) b_id =>
          let q := blDelete p.1 p.2 b_id
          let st := q.1
          if (st.edges.getD b_id defaultEdge).class_id == none then
            let st := { st with class_counter := st.class_counter + 1 }
            let edges' := listModify st.edges b_id
              (fun e => { e with class_id := some st.class_counter })
            ({ st with edges := edges' }, q.2)
          else (st, q.2))
        p)).1.edges) ∧
      ((backs.foldl
        (fun (p : SweepState × BracketList) b_id =>
          let q := blDelete p.1 p.2 b_id
          let st := q.1
          if (st.edges.getD b_id defaultEdge).class_id == none then
            let st := { st with class_counter := st.class_counter + 1 }
            let edges' := listModify st.edges b_id
              (fun e => { e with class_id := some st.class_counter })
            ({ st with edges := edges' }, q.2)
          else (st, q.2))
        p)).1.edges.length = p.1.edges.length ∧
      (∀ b ∈ backs, b < p.1.edges.length →
        (((backs.foldl
          (fun (p : SweepState × BracketList) b_id =>
            let q := blDelete p.1 p.2 b_id
            let st := q.1
            if (st.edges.getD b_id defaultEdge).class_id == none then
              let st := { st with class_counter := st.class_counter + 1 }
              let edges' := listModify st.edges b_id
                (fun e => { e with class_id := some st.class_counter })
              ({ st with edges := edges' }, q.2)
            else (st, q.2))
          p)).1.edges.getD b defaultEdge).class_id ≠ none) := by
  induction backs with
  | nil =>
    intro p hwf hbl
    exact ⟨hwf, hbl, classLe_refl _, fun hv => hv, Eq.refl _,
      fun b hb => absurd hb (List.not_mem_nil _)⟩
  | cons b rest ih =>
    intro p hwf hbl
    simp only [List.foldl_cons]
    obtain ⟨g1, g2, g3, g4, g5, g6⟩ := blDelete_good p.1 p.2 b hwf hbl
    by_cases hcls :
        ((blDelete p.1 p.2 b).1.edges.getD b defaultEdge).class_id = none
    · rw [if_pos (beq_iff_eq.mpr hcls)]
      have hwf1 : SweepWF
          { (blDelete p.1 p.2 b).1 with
            class_counter := (blDelete p.1 p.2 b).1.class_counter + 1,
            edges := listModify (blDelete p.1 p.2 b).1.edges b (fun e =>
              { e with class_id := some ((blDelete p.1 p.2 b).1.class_counter + 1) }) } := by
        refine sweepWF_transfer _ _ g1 (Eq.refl _) (Eq.refl _) ?_
        dsimp only
        rw [listModify_length]
      obtain ⟨k1, k2, k3, k4, k5, k6⟩ := ih
        ({ (blDelete p.1 p.2 b).1 with
            class_counter := (blDelete p.1 p.2 b).1.class_counter + 1,
            edges := listModify (blDelete p.1 p.2 b).1.edges b (fun e =>
              { e with class_id := some ((blDelete p.1 p.2 b).1.class_counter + 1) }) },
          (blDelete p.1 p.2 b).2) hwf1 g2
      have hle1 : ClassLe p.1.edges
          (listModify (blDelete p.1 p.2 b).1.edges b (fun e =>
            { e with class_id := some ((blDelete p.1 p.2 b).1.class_counter + 1) })) :=
        classLe_trans (ClassEq.le g3)
          (classLe_set_class _ _ _ (by simp))
      refine ⟨k1, k2, classLe_trans hle1 k3, ?_, ?_, ?_⟩
      · intro hv
        refine k4 ?_
        dsimp only
        exact sweepVal_set_class _ _ _
          (fun v hv' => by rw [← Option.some.inj hv']; omega)
          (ClassEq.val g3 hv)
      · dsimp only at k5
        rw [k5, listModify_length, g4]
      · intro b' hb' hlt
        rcases List.mem_cons.mp hb' with hb' | hb'
        · subst hb'
          refine k3 b' ?_
          dsimp only
          rw [getD_listModify_self _ _ _ _ (by rw [g4]; exact hlt)]
          simp
        · refine k6 b' hb' ?_
          dsimp only
          rw [listModify_length, g4]
          exact hlt
    · rw [if_neg (fun hcon => hcls (beq_iff_eq.mp hcon))]
      obtain ⟨k1, k2, k3, k4, k5, k6⟩ := ih
        ((blDelete p.1 p.2 b).1, (blDelete p.1 p.2 b).2) g1 g2
      refine ⟨k1, k2, classLe_trans (ClassEq.le g3) k3,
        fun hv => k4 (ClassEq.val g3 hv), k5.trans g4, ?_⟩
      intro b' hb' hlt
      rcases List.mem_cons.mp hb' with hb' | hb'
      · subst hb'
        exact k3 b' hcls
      · exact k6 b' hb' (by rw [g4]; exact hlt)

theorem sweepPush_fold_good (backs : List Nat) :
    ∀ (p : SweepState × BracketList), SweepWF p.1 →
      BLWF p.1.arena.length p.2 →
      (∀ e ∈ backs, e < p.1.edges.length) →
      SweepWF ((backs.foldl
        (fun (p : SweepState × BracketList) e_id => blPush p.1 p.2 e_id)
        p)).1 ∧
      BLWF ((backs.foldl
        (fun (p : SweepState × BracketList) e_id => blPush p.1 p.2 e_id)
        p)).1.arena.length
        ((backs.foldl
          (fun (p : SweepState × BracketList) e_id => blPush p.1 p.2 e_id)
          p)).2 ∧
      ClassEq p.1.edges ((backs.foldl
        (fun (p : SweepState × BracketList) e_id => blPush p.1 p.2 e_id)
        p)).1.edges ∧
      ((backs.foldl
        (fun (p : SweepState × BracketList) e_id => blPush p.1 p.2 e_id)
        p)).1.edges.length = p.1.edges.length := by
  induction backs with
  | nil =>
    intro p hwf hbl _
    exact ⟨hwf, hbl, classEq_refl _, Eq.refl _⟩
  | cons e rest ih =>
    intro p hwf hbl hmem
    simp only [List.foldl_cons]
    obtain ⟨g1, g2, g3, g4, g5⟩ := blPush_good p.1 p.2 e hwf hbl
      (hmem e (List.mem_cons_self _ _))
    have hce : ClassEq p.1.edges (blPush p.1 p.2 e).1.edges := by
      rw [g3]
      exact classEq_listModify _ _ _
        (fun a => ⟨Eq.refl _, Eq.refl _, Eq.refl _⟩)
    have hlen : (blPush p.1 p.2 e).1.edges.length = p.1.edges.length := by
      rw [g3, listModify_length]
    obtain ⟨k1, k2, k3, k4⟩ := ih ((blPush p.1 p.2 e).1, (blPush p.1 p.2 e).2)
      g1 (by rw [g4]; exact g2)
      (fun e' he' => by
        rw [hlen]
        exact hmem e' (List.mem_cons_of_mem _ he'))
    exact ⟨k1, k2, classEq_trans hce k3, k4.trans hlen⟩

theorem sweepCapping_good (st : SweepState) (bl : BracketList)
    (nbd : List Nat) (n hi0 hi2 : Nat)
    (hwf : SweepWF st) (hbl : BLWF st.arena.length bl) :
    SweepWF (sweepCapping st bl nbd n hi0 hi2).1 ∧
    BLWF (sweepCapping st bl nbd n hi0 hi2).1.arena.length
      (sweepCapping st bl nbd n hi0 hi2).2 ∧
    ClassLe st.edges (sweepCapping st bl nbd n hi0 hi2).1.edges ∧
    (SweepVal st.edges →
      SweepVal (sweepCapping st bl nbd n hi0 hi2).1.edges) ∧
    st.edges.length ≤ (sweepCapping st bl nbd n hi0 hi2).1.edges.length := by
  unfold sweepCapping
  by_cases h : hi2 < hi0
  · rw [if_pos h]
    dsimp only
    have hwfA : SweepWF { st with edges := st.edges ++
        [mkEdge st.edges.length n (nbd.getD hi2 0) "capping"] } := by
      refine sweepWF_transfer _ _ hwf (Eq.refl _) (Eq.refl _) ?_
      dsimp only
      rw [List.length_append]
      omega
    have hcapLt : st.edges.length < ({ st with edges := st.edges ++
        [mkEdge st.edges.length n (nbd.getD hi2 0) "capping"] } :
          SweepState).edges.length := by
      dsimp only
      rw [List.length_append]
      simp
    obtain ⟨g1, g2, g3, g4, g5⟩ := blPush_good
      { st with edges := st.edges ++
        [mkEdge st.edges.length n (nbd.getD hi2 0) "capping"] }
      bl st.edges.length hwfA hbl hcapLt
    have hceA : ClassEq (st.edges ++
        [mkEdge st.edges.length n (nbd.getD hi2 0) "capping"])
        (blPush { st with edges := st.edges ++
          [mkEdge st.edges.length n (nbd.getD hi2 0) "capping"] }
          bl st.edges.length).1.edges := by
      rw [g3]
      exact classEq_listModify _ _ _
        (fun a => ⟨Eq.refl _, Eq.refl _, Eq.refl _⟩)
    refine ⟨?_, ?_, ?_, ?_, ?_⟩
    · refine sweepWF_transfer _ _ g1 (Eq.refl _) (Eq.refl _) (le_refl _)
    · have hg2 := g2
      rw [← g4] at hg2
      exact hg2
    · exact classLe_trans (classLe_append _ _) (ClassEq.le hceA)
    · intro hv
      refine ClassEq.val hceA ?_
      refine sweepVal_append _ _ ?_ hv
      intro e he
      rw [List.mem_singleton.mp he]
      exact ⟨Eq.refl _, Eq.refl _, Eq.refl _⟩
    · have hlen : (blPush { st with edges := st.edges ++
          [mkEdge st.edges.length n (nbd.getD hi2 0) "capping"] }
          bl st.edges.length).1.edges.length =
          st.edges.length + 1 := by
        rw [g3, listModify_length]
        dsimp only
        rw [List.length_append]
        simp
      rw [hlen]
      omega
  · rw [if_neg h]
    exact ⟨hwf, hbl, classLe_refl _, fun hv => hv, le_refl _⟩

/-- The two scratch-field writers of the tree-edge step of the sweep. -/
def setRecent (sz c : Nat) (e : Edge) : Edge :=
  { e with recent_size := some sz, recent_class := some c }

def setClass (c : Option Nat) (e : Edge) : Edge :=
  { e with class_id := c }

theorem sweepTreeEdge_cases (d : UDfsState) (st : SweepState)
    (bl : BracketList) (n : Nat) (st' : SweepState)
    (h : sweepTreeEdge d st bl n = .ok st') :
    (d.parent.getD n (-1) = -1 ∧
      st' = { st with blists := st.blists.set n bl }) ∨
    (d.parent.getD n (-1) ≠ -1 ∧ ∃ topId, blTop st bl = some topId ∧
      ∃ SA : SweepState,
        ((SA = st ∧
            (st.edges.getD topId defaultEdge).recent_size = some bl.size) ∨
          SA = { st with class_counter := st.class_counter + 1, edges := listModify st.edges topId (setRecent bl.size (st.class_counter + 1)) }) ∧
        ∃ SB : SweepState,
          SB = { SA with edges := listModify SA.edges (d.parent_edge.getD n (-1)).toNat (setClass (SA.edges.getD topId defaultEdge).recent_class) } ∧
          (st' = { SB with blists := SB.blists.set n bl } ∨
            st' = { SB with edges := listModify SB.edges topId (setClass ((SB.edges.getD (d.parent_edge.getD n (-1)).toNat defaultEdge).class_id)), blists := SB.blists.set n bl })) := by
  unfold sweepTreeEdge at h
  by_cases hpar : d.parent.getD n (-1) = -1
  · rw [if_neg (by rw [hpar]; decide)] at h
    exact Or.inl ⟨hpar, (Except.ok.inj h).symm⟩
  · rw [if_pos (bne_iff_ne.mpr hpar)] at h
    cases htop : blTop st bl with
    | none =>
      rw [htop] at h
      exact absurd h (by simp)
    | some topId =>
      rw [htop] at h
      dsimp only at h
      split at h
      · rename_i hc1
        split at h
        · rename_i hc2
          refine Or.inr ⟨hpar, topId, rfl, _, Or.inr rfl, _, rfl,
            Or.inr ?_⟩
          exact (Except.ok.inj h).symm
        · rename_i hc2
          refine Or.inr ⟨hpar, topId, rfl, _, Or.inr rfl, _, rfl,
            Or.inl ?_⟩
          exact (Except.ok.inj h).symm
      · rename_i hc1
        have hsz : (st.edges.getD topId defaultEdge).recent_size =
            some bl.size := by
          simpa using hc1
        split at h
        · rename_i hc2
          refine Or.inr ⟨hpar, topId, rfl, st, Or.inl ⟨rfl, hsz⟩, _, rfl,
            Or.inr ?_⟩
          exact (Except.ok.inj h).symm
        · rename_i hc2
          refine Or.inr ⟨hpar, topId, rfl, st, Or.inl ⟨rfl, hsz⟩, _, rfl,
            Or.inl ?_⟩
          exact (Except.ok.inj h).symm

theorem sweepTreeEdge_good (d : UDfsState) (st : SweepState)
    (bl : BracketList) (n : Nat) (st' : SweepState)
    (h : sweepTreeEdge d st bl n = .ok st')
    (hwf : SweepWF st) (hbl : BLWF st.arena.length bl)
    (hval : SweepVal st.edges)
    (htid : d.parent.getD n (-1) ≠ -1 →
      (d.parent_edge.getD n (-1)).toNat < st.edges.length) :
    SweepWF st' ∧ SweepVal st'.edges ∧ ClassLe st.edges st'.edges ∧
    st'.edges.length = st.edges.length ∧
    (d.parent.getD n (-1) ≠ -1 →
      (st'.edges.getD (d.parent_edge.getD n (-1)).toNat
        defaultEdge).class_id ≠ none) := by
  rcases sweepTreeEdge_cases d st bl n st' h with ⟨hpar, hst⟩ |
    ⟨hpar, topId, htop, SA, hSA, SB, hSB, hfin⟩
  · subst hst
    exact ⟨sweepWF_set_blist st n bl hwf hbl, hval, classLe_refl _,
      Eq.refl _, fun hcon => absurd hpar hcon⟩
  · have htoplt : topId < st.edges.length := blTop_lt st bl topId hwf hbl htop
    have htree := htid hpar
    have hSAfacts : SweepWF SA ∧ SweepVal SA.edges ∧
        ClassLe st.edges SA.edges ∧ SA.edges.length = st.edges.length ∧
        SA.arena = st.arena ∧ SA.blists = st.blists ∧
        (SA.edges.getD topId defaultEdge).recent_class ≠ none := by
      rcases hSA with ⟨hSAeq, hsz⟩ | hSAeq
      · subst hSAeq
        refine ⟨hwf, hval, classLe_refl _, Eq.refl _, Eq.refl _, Eq.refl _,
          ?_⟩
        exact hval.2.2 topId (by rw [hsz]; simp)
      · subst hSAeq
        refine ⟨?_, ?_, ?_, ?_, Eq.refl _, Eq.refl _, ?_⟩
        · refine sweepWF_transfer _ _ hwf (Eq.refl _) (Eq.refl _) ?_
          dsimp only
          rw [listModify_length]
        · exact sweepVal_set_recent _ _ _ _ (by omega) hval
        · exact classLe_listModify_keep _ _ _ (fun e => Eq.refl _)
        · dsimp only
          exact listModify_length _ _ _
        · dsimp only
          rw [getD_listModify_self _ _ _ _ htoplt]
          simp [setRecent]
    obtain ⟨hwfA, hvalA, hleA, hlenA, harA, hblsA, hrcA⟩ := hSAfacts
    obtain ⟨rc, hrc⟩ := Option.ne_none_iff_exists'.mp hrcA
    have hrcge : 1 ≤ rc := hvalA.2.1 topId rc hrc
    have htreeA : (d.parent_edge.getD n (-1)).toNat < SA.edges.length := by
      rw [hlenA]
      exact htree
    subst hSB
    have hvalB : SweepVal (listModify SA.edges (d.parent_edge.getD n (-1)).toNat (setClass (SA.edges.getD topId defaultEdge).recent_class)) := by
      refine sweepVal_set_class _ _ _ ?_ hvalA
      intro v hv
      rw [hrc] at hv
      rw [← Option.some.inj hv]
      exact hrcge
    have hleB : ClassLe SA.edges (listModify SA.edges (d.parent_edge.getD n (-1)).toNat (setClass (SA.edges.getD topId defaultEdge).recent_class)) := by
      refine classLe_set_class _ _ _ ?_
      rw [hrc]
      simp
    have hlenB : (listModify SA.edges (d.parent_edge.getD n (-1)).toNat (setClass (SA.edges.getD topId defaultEdge).recent_class)).length = SA.edges.length :=
      listModify_length _ _ _
    have hwfB : SweepWF { SA with edges := listModify SA.edges (d.parent_edge.getD n (-1)).toNat (setClass (SA.edges.getD topId defaultEdge).recent_class) } := by
      refine sweepWF_transfer _ _ hwfA (Eq.refl _) (Eq.refl _) ?_
      dsimp only
      rw [hlenB]
    have hcovB : ((listModify SA.edges (d.parent_edge.getD n (-1)).toNat (setClass (SA.edges.getD topId defaultEdge).recent_class)).getD (d.parent_edge.getD n (-1)).toNat defaultEdge).class_id = some rc := by
      rw [getD_listModify_self _ _ _ _ htreeA]
      exact hrc
    have hblB : BLWF ({ SA with edges := listModify SA.edges (d.parent_edge.getD n (-1)).toNat (setClass (SA.edges.getD topId defaultEdge).recent_class) } : SweepState).arena.length bl := by
      dsimp only
      rw [harA]
      exact hbl
    rcases hfin with hst | hst
    · subst hst
      refine ⟨sweepWF_set_blist _ n bl hwfB hblB, hvalB,
        classLe_trans hleA hleB, ?_, ?_⟩
      · dsimp only
        rw [hlenB, hlenA]
      · intro _
        dsimp only
        rw [hcovB]
        simp
    · subst hst
      have hvalC : SweepVal (listModify (listModify SA.edges (d.parent_edge.getD n (-1)).toNat (setClass (SA.edges.getD topId defaultEdge).recent_class)) topId (setClass (((listModify SA.edges (d.parent_edge.getD n (-1)).toNat (setClass (SA.edges.getD topId defaultEdge).recent_class)).getD (d.parent_edge.getD n (-1)).toNat defaultEdge).class_id))) := by
        refine sweepVal_set_class _ _ _ ?_ hvalB
        intro v hv
        rw [hcovB] at hv
        rw [← Option.some.inj hv]
        exact hrcge
      have hleC : ClassLe (listModify SA.edges (d.parent_edge.getD n (-1)).toNat (setClass (SA.edges.getD topId defaultEdge).recent_class)) (listModify (listModify SA.edges (d.parent_edge.getD n (-1)).toNat (setClass (SA.edges.getD topId defaultEdge).recent_class)) topId (setClass (((listModify SA.edges (d.parent_edge.getD n (-1)).toNat (setClass (SA.edges.getD topId defaultEdge).recent_class)).getD (d.parent_edge.getD n (-1)).toNat defaultEdge).class_id))) := by
        refine classLe_set_class _ _ _ ?_
        rw [hcovB]
        simp
      have hwfC : SweepWF { SA with edges := listModify (listModify SA.edges (d.parent_edge.getD n (-1)).toNat (setClass (SA.edges.getD topId defaultEdge).recent_class)) topId (setClass (((listModify SA.edges (d.parent_edge.getD n (-1)).toNat (setClass (SA.edges.getD topId defaultEdge).recent_class)).getD (d.parent_edge.getD n (-1)).toNat defaultEdge).class_id)) } := by
        refine sweepWF_transfer _ _ hwfA (Eq.refl _) (Eq.refl _) ?_
        dsimp only
        rw [listModify_length, hlenB]
      refine ⟨?_, hvalC, classLe_trans hleA (classLe_trans hleB hleC), ?_,
        ?_⟩
      · have hfinwf := sweepWF_set_blist _ n bl hwfC (by
          dsimp only
          rw [harA]
          exact hbl)
        exact hfinwf
      · dsimp only
        rw [listModify_length, hlenB, hlenA]
      · intro _
        dsimp only
        refine hleC _ ?_
        rw [hcovB]
        simp

theorem sweepNode_good (node_count : Nat) (d : UDfsState)
    (nbd : List Nat) (st : SweepState) (n : Nat) (st' : SweepState) (ec : Nat)
    (h : sweepNode node_count d nbd st n = .ok st')
    (hwf : SweepWF st) (hval : SweepVal st.edges)
    (hec : ec ≤ st.edges.length)
    (hbt : ∀ b ∈ d.backedges_to.getD n [], b < ec)
    (hbf : ∀ b ∈ d.backedges_from.getD n [], b < ec)
    (hpe : d.parent.getD n (-1) ≠ -1 →
      (d.parent_edge.getD n (-1)).toNat < ec) :
    SweepWF st' ∧ SweepVal st'.edges ∧ ClassLe st.edges st'.edges ∧
    ec ≤ st'.edges.length ∧
    (∀ b ∈ d.backedges_to.getD n [],
      (st'.edges.getD b defaultEdge).class_id ≠ none) ∧
    (d.parent.getD n (-1) ≠ -1 →
      (st'.edges.getD (d.parent_edge.getD n (-1)).toNat
        defaultEdge).class_id ≠ none) := by
  set ST0 : SweepState := { st with hi := st.hi.set n (if sweepHi0 node_count d n < (sweepHi12 node_count d st n).1 then sweepHi0 node_count d n else (sweepHi12 node_count d st n).1) } with hST0
  set Q1 := sweepConcatChildren ST0 (d.children.getD n []) with hQ1
  set Q2 := sweepDeleteCaps Q1.1 Q1.2 (Q1.1.capping_to.getD n []) with hQ2
  set Q3 := sweepDeleteBacks Q2.1 Q2.2 (d.backedges_to.getD n []) with hQ3
  set Q4 := sweepPushBacks Q3.1 Q3.2 (d.backedges_from.getD n []) with hQ4
  set Q5 := sweepCapping Q4.1 Q4.2 nbd n (sweepHi0 node_count d n)
    (sweepHi12 node_count d st n).2 with hQ5
  have h5 : sweepTreeEdge d Q5.1 Q5.2 n = .ok st' := h
  have hwf0 : SweepWF ST0 := by
    refine sweepWF_transfer st ST0 hwf ?_ ?_ ?_
    · rw [hST0]
    · rw [hST0]
    · rw [hST0]
  have hval0 : SweepVal ST0.edges := by
    rw [hST0]
    exact hval
  have hgood1 := sweepConcat_fold_good (d.children.getD n [])
    (ST0, emptyBracketList) hwf0 (emptyBL_wf _)
  have hwf1 : SweepWF Q1.1 := hgood1.1
  have hbl1 : BLWF Q1.1.arena.length Q1.2 := hgood1.2
  have hP1e : Q1.1.edges = st.edges := by
    rw [hQ1, sweepConcatChildren_edges', hST0]
  have hgood2 := sweepCaps_fold_good (Q1.1.capping_to.getD n [])
    (Q1.1, Q1.2) hwf1 hbl1
  have hwf2 : SweepWF Q2.1 := hgood2.1
  have hbl2 : BLWF Q2.1.arena.length Q2.2 := hgood2.2.1
  have hce2 : ClassEq Q1.1.edges Q2.1.edges := hgood2.2.2.1
  have hlen2 : Q2.1.edges.length = Q1.1.edges.length := hgood2.2.2.2
  have hgood3 := sweepBacks_fold_good (d.backedges_to.getD n [])
    (Q2.1, Q2.2) hwf2 hbl2
  have hwf3 : SweepWF Q3.1 := hgood3.1
  have hbl3 : BLWF Q3.1.arena.length Q3.2 := hgood3.2.1
  have hle3 : ClassLe Q2.1.edges Q3.1.edges := hgood3.2.2.1
  have hval3p : SweepVal Q2.1.edges → SweepVal Q3.1.edges := hgood3.2.2.2.1
  have hlen3 : Q3.1.edges.length = Q2.1.edges.length := hgood3.2.2.2.2.1
  have hcov3 : ∀ b ∈ d.backedges_to.getD n [], b < Q2.1.edges.length →
      (Q3.1.edges.getD b defaultEdge).class_id ≠ none := hgood3.2.2.2.2.2
  have hlen3' : Q3.1.edges.length = st.edges.length := by
    rw [hlen3, hlen2, hP1e]
  have hgood4 := sweepPush_fold_good (d.backedges_from.getD n [])
    (Q3.1, Q3.2) hwf3 hbl3
    (fun e he => by
      rw [hlen3']
      exact lt_of_lt_of_le (hbf e he) hec)
  have hwf4 : SweepWF Q4.1 := hgood4.1
  have hbl4 : BLWF Q4.1.arena.length Q4.2 := hgood4.2.1
  have hce4 : ClassEq Q3.1.edges Q4.1.edges := hgood4.2.2.1
  have hlen4 : Q4.1.edges.length = Q3.1.edges.length := hgood4.2.2.2
  have hgood5 := sweepCapping_good Q4.1 Q4.2 nbd n
    (sweepHi0 node_count d n) (sweepHi12 node_count d st n).2 hwf4 hbl4
  have hwf5 : SweepWF Q5.1 := hgood5.1
  have hbl5 : BLWF Q5.1.arena.length Q5.2 := hgood5.2.1
  have hle5 : ClassLe Q4.1.edges Q5.1.edges := hgood5.2.2.1
  have hval5p : SweepVal Q4.1.edges → SweepVal Q5.1.edges := hgood5.2.2.2.1
  have hlen5 : Q4.1.edges.length ≤ Q5.1.edges.length := hgood5.2.2.2.2
  have hval5 : SweepVal Q5.1.edges := by
    refine hval5p (ClassEq.val hce4 (hval3p (ClassEq.val hce2 ?_)))
    rw [hP1e]
    exact hval
  have hec5 : ec ≤ Q5.1.edges.length := by
    refine le_trans ?_ hlen5
    rw [hlen4, hlen3']
    exact hec
  obtain ⟨hwf6, hval6, hle6, hlen6, hcov6⟩ := sweepTreeEdge_good d Q5.1 Q5.2
    n st' h5 hwf5 hbl5 hval5
    (fun hp => lt_of_lt_of_le (hpe hp) hec5)
  have hleAll : ClassLe st.edges st'.edges := by
    refine classLe_trans (ClassEq.le (classEq_of_eq hP1e)) ?_
    refine classLe_trans (ClassEq.le hce2) ?_
    refine classLe_trans hle3 ?_
    refine classLe_trans (ClassEq.le hce4) ?_
    exact classLe_trans hle5 hle6
  refine ⟨hwf6, hval6, hleAll, ?_, ?_, hcov6⟩
  · rw [hlen6]
    exact hec5
  · intro b hb
    have hcb : (Q3.1.edges.getD b defaultEdge).class_id ≠ none := by
      refine hcov3 b hb ?_
      rw [hlen2, hP1e]
      exact lt_of_lt_of_le (hbt b hb) hec
    exact hle6 b (hle5 b ((ClassEq.le hce4) b hcb))

theorem sweepAll_good (node_count : Nat) (d : UDfsState) (nbd : List Nat)
    (ec : Nat)
    (hbt : ∀ m, ∀ b ∈ d.backedges_to.getD m [], b < ec)
    (hbf : ∀ m, ∀ b ∈ d.backedges_from.getD m [], b < ec)
    (hpe : ∀ m, d.parent.getD m (-1) ≠ -1 →
      (d.parent_edge.getD m (-1)).toNat < ec) :
    ∀ (ns : List Nat) (st st' : SweepState),
      sweepAll node_count d nbd ns st = .ok st' →
      SweepWF st → SweepVal st.edges → ec ≤ st.edges.length →
      SweepWF st' ∧ SweepVal st'.edges ∧ ClassLe st.edges st'.edges ∧
      ec ≤ st'.edges.length ∧
      (∀ m ∈ ns, (∀ b ∈ d.backedges_to.getD m [],
          (st'.edges.getD b defaultEdge).class_id ≠ none) ∧
        (d.parent.getD m (-1) ≠ -1 →
          (st'.edges.getD (d.parent_edge.getD m (-1)).toNat
            defaultEdge).class_id ≠ none)) := by
  intro ns
  induction ns with
  | nil =>
    intro st st' h hwf hval hec
    unfold sweepAll at h
    rw [← Except.ok.inj h]
    exact ⟨hwf, hval, classLe_refl _, hec,
      fun m hm => absurd hm (List.not_mem_nil _)⟩
  | cons m rest ih =>
    intro st st' h hwf hval hec
    unfold sweepAll at h
    cases hsn : sweepNode node_count d nbd st m with
    | error e =>
      rw [hsn] at h
      exact absurd h (by simp)
    | ok st1 =>
      rw [hsn] at h
      obtain ⟨g1, g2, g3, g4, g5, g6⟩ := sweepNode_good node_count d nbd st
        m st1 ec hsn hwf hval hec (hbt m) (hbf m) (hpe m)
      obtain ⟨k1, k2, k3, k4, k5⟩ := ih st1 st' h g1 g2 g4
      refine ⟨k1, k2, classLe_trans g3 k3, k4, ?_⟩
      intro m' hm'
      rcases List.mem_cons.mp hm' with hm' | hm'
      · subst hm'
        exact ⟨fun b hb => k3 b (g5 b hb), fun hp => k3 _ (g6 hp)⟩
      · exact k5 m' hm'

/-- Like `EdgesExt`, but additionally recording that every appended
projection carries the `capping` kind. -/
def CapExt (es es' : List Edge) : Prop :=
  ∃ extra, es'.map projEdge = es.map projEdge ++ extra ∧
    ∀ p ∈ extra, p.2.2.2 = "capping"

theorem capExt_refl (es : List Edge) : CapExt es es :=
  ⟨[], by simp, fun p hp => absurd hp (List.not_mem_nil _)⟩

theorem capExt_trans {es es' es'' : List Edge} (h1 : CapExt es es')
    (h2 : CapExt es' es'') : CapExt es es'' := by
  obtain ⟨x1, h1, hk1⟩ := h1
  obtain ⟨x2, h2, hk2⟩ := h2
  refine ⟨x1 ++ x2, by rw [h2, h1, List.append_assoc], ?_⟩
  intro p hp
  rcases List.mem_append.mp hp with hp | hp
  · exact hk1 p hp
  · exact hk2 p hp

theorem capExt_of_map_eq {es es' : List Edge}
    (h : es'.map projEdge = es.map projEdge) : CapExt es es' :=
  ⟨[], by rw [h, List.append_nil], fun p hp => absurd hp (List.not_mem_nil _)⟩

theorem sweepCapping_capext (st : SweepState) (bl : BracketList)
    (node_by_dfsnum : List Nat) (n hi0 hi2 : Nat) :
    CapExt st.edges
      ((sweepCapping st bl node_by_dfsnum n hi0 hi2).1).edges := by
  unfold sweepCapping
  by_cases h : hi2 < hi0
  · rw [if_pos h]
    dsimp only
    refine ⟨[projEdge (mkEdge st.edges.length n (node_by_dfsnum.getD hi2 0)
      "capping")], ?_, ?_⟩
    · rw [blPush_edges_proj]
      simp
    · intro p hp
      rw [List.mem_singleton.mp hp]
      rfl
  · rw [if_neg h]
    exact capExt_refl _

theorem sweepNode_capext (node_count : Nat) (d : UDfsState)
    (node_by_dfsnum : List Nat) (st : SweepState) (n : Nat)
    (st' : SweepState)
    (h : sweepNode node_count d node_by_dfsnum st n = .ok st') :
    CapExt st.edges st'.edges := by
  unfold sweepNode at h
  have htree := sweepTreeEdge_proj _ _ _ _ _ h
  refine capExt_trans ?_ (capExt_of_map_eq htree)
  refine capExt_trans ?_ (sweepCapping_capext _ _ _ _ _ _)
  refine capExt_trans ?_ (capExt_of_map_eq (sweepPushBacks_proj' _ _ _))
  refine capExt_trans ?_ (capExt_of_map_eq (sweepDeleteBacks_proj' _ _ _))
  refine capExt_trans ?_ (capExt_of_map_eq (sweepDeleteCaps_proj' _ _ _))
  refine capExt_of_map_eq ?_
  rw [sweepConcatChildren_edges']

theorem sweepAll_capext (node_count : Nat) (d : UDfsState)
    (node_by_dfsnum : List Nat) :
    ∀ (ns : List Nat) (st st' : SweepState),
      sweepAll node_count d node_by_dfsnum ns st = .ok st' →
      CapExt st.edges st'.edges := by
  intro ns
  induction ns with
  | nil =>
    intro st st' h
    unfold sweepAll at h
    rw [← Except.ok.inj h]
    exact capExt_refl _
  | cons n rest ih =>
    intro st st' h
    unfold sweepAll at h
    cases hsn : sweepNode node_count d node_by_dfsnum st n with
    | error e =>
      rw [hsn] at h
      exact absurd h (by simp)
    | ok st1 =>
      rw [hsn] at h
      exact capExt_trans (sweepNode_capext _ _ _ _ _ _ hsn) (ih st1 st' h)

theorem capExt_tail_kind {es es' : List Edge} (h : CapExt es es') (j : Nat)
    (hj1 : es.length ≤ j) (hj2 : j < es'.length) :
    (es'.getD j defaultEdge).kind = "capping" := by
  obtain ⟨extra, hm, hcap⟩ := h
  have hlen : es'.length = es.length + extra.length := by
    have := congrArg List.length hm
    simpa using this
  have hproj : projEdge (es'.getD j defaultEdge) =
      extra.getD (j - es.length) (projEdge defaultEdge) := by
    have h1 : (es'.map projEdge).getD j (projEdge defaultEdge) =
        projEdge (es'.getD j defaultEdge) := List.getD_map _ _ _
    rw [← h1, hm, List.getD_append_right (es.map projEdge) extra _ j
      (by simpa using hj1)]
    simp
  have hmem : extra.getD (j - es.length) (projEdge defaultEdge) ∈ extra := by
    have hjlt : j - es.length < extra.length := by omega
    rw [List.getD_eq_getElem _ _ hjlt]
    exact List.getElem_mem _
  have := hcap _ hmem
  rw [← hproj] at this
  exact this

/-- Range facts of the DFS output arrays: registered back-edge ids and
parent-edge ids are real edge ids. -/
def UdfsQ (nc ec : Nat) (s : UDfsState) : Prop :=
  s.parent.length = nc ∧ s.parent_edge.length = nc ∧
  (∀ n b, b ∈ s.backedges_to.getD n [] → b < ec) ∧
  (∀ n b, b ∈ s.backedges_from.getD n [] → b < ec) ∧
  (∀ n, n < nc → s.parent.getD n (-1) ≠ -1 →
    ∃ e, e < ec ∧ s.parent_edge.getD n (-1) = Int.ofNat e)

theorem udfsLoop_q (und : List (List (Nat × Nat))) (nc ec : Nat)
    (hWF : UdfsWF und nc ec) :
    ∀ (fuel : Nat) (s : UDfsState) (stack : List (Nat × Nat)),
      UdfsQ nc ec s → UdfsQ nc ec (udfsLoop und fuel s stack) := by
  intro fuel
  induction fuel with
  | zero =>
    intro s stack hq
    simpa only [udfsLoop] using hq
  | succ f ih =>
    intro s stack hq
    cases stack with
    | nil => simpa only [udfsLoop] using hq
    | cons top rest =>
      obtain ⟨node, i⟩ := top
      simp only [udfsLoop]
      by_cases hlt : i < (und.getD node []).length
      · rw [if_pos hlt]
        have hqmem : (und.getD node []).getD i (0, 0) ∈ und.getD node [] := by
          rw [List.getD_eq_getElem _ _ hlt]
          exact List.getElem_mem hlt
        obtain ⟨hq2lt, hq1lt⟩ := hWF.2 node _ hqmem
        by_cases hseen :
            s.edge_seen.getD ((und.getD node []).getD i (0, 0)).1 false = true
        · rw [if_pos hseen]
          exact ih s _ hq
        · rw [if_neg hseen]
          dsimp only
          obtain ⟨hB, hC, hM, hN, hO⟩ := hq
          by_cases hz : s.dfsnum.getD ((und.getD node []).getD i (0, 0)).2 0 = 0
          · rw [if_pos (beq_iff_eq.mpr hz)]
            refine ih _ _ ?_
            refine ⟨?_, ?_, hM, hN, ?_⟩
            · dsimp only
              rw [List.length_set]
              exact hB
            · dsimp only
              rw [List.length_set]
              exact hC
            · intro m hm hpar
              dsimp only at hpar ⊢
              by_cases hmt : m = ((und.getD node []).getD i (0, 0)).2
              · subst hmt
                refine ⟨((und.getD node []).getD i (0, 0)).1, hq1lt, ?_⟩
                rw [getD_set_self _ _ _ (by rw [hC]; exact hq2lt)]
              · have hne : ((und.getD node []).getD i (0, 0)).2 ≠ m :=
                  fun hcon => hmt hcon.symm
                rw [getD_set_ne _ _ _ hne] at hpar
                obtain ⟨e, he, hpe⟩ := hO m hm hpar
                refine ⟨e, he, ?_⟩
                rw [getD_set_ne _ _ _ hne]
                exact hpe
          · rw [if_neg (fun hcon => hz (beq_iff_eq.mp hcon))]
            refine ih _ _ ?_
            refine ⟨hB, hC, ?_, ?_, hO⟩
            · intro m b hb
              dsimp only at hb
              rcases mem_getD_listModify_append hb with hb | hb
              · exact hM m b hb
              · rw [hb]
                exact hq1lt
            · intro m b hb
              dsimp only at hb
              rcases mem_getD_listModify_append hb with hb | hb
              · exact hN m b hb
              · rw [hb]
                exact hq1lt
      · rw [if_neg hlt]
        exact ih _ rest hq

theorem udfsAll_q (nc ec : Nat) (und : List (List (Nat × Nat)))
    (root : Nat) (hWF : UdfsWF und nc ec) :
    UdfsQ nc ec (udfsAll nc ec und root) := by
  unfold udfsAll
  have hq0 : UdfsQ nc ec
      { dfsnum := List.replicate nc 0
        parent := List.replicate nc (-1)
        parent_edge := List.replicate nc (-1)
        children := List.replicate nc []
        backedges_from := List.replicate nc []
        backedges_to := List.replicate nc []
        edge_upper := List.replicate ec (-1)
        edge_seen := List.replicate ec false
        postorder := []
        time := 0 } := by
    refine ⟨List.length_replicate _ _, List.length_replicate _ _, ?_, ?_, ?_⟩
    · intro n b hb
      rw [getD_replicate] at hb
      exact absurd hb (List.not_mem_nil _)
    · intro n b hb
      rw [getD_replicate] at hb
      exact absurd hb (List.not_mem_nil _)
    · intro n _ hpar
      rw [getD_replicate] at hpar
      exact absurd rfl hpar
  have hrun : ∀ (s : UDfsState) (start : Nat), UdfsQ nc ec s →
      UdfsQ nc ec (udfsRun und (udfsFuel nc und) s start) := by
    intro s start hq
    unfold udfsRun
    refine udfsLoop_q und nc ec hWF _ _ _ ?_
    exact ⟨hq.1, hq.2.1, hq.2.2.1, hq.2.2.2.1, hq.2.2.2.2⟩
  have hfold : ∀ (l : List Nat) (s : UDfsState), UdfsQ nc ec s →
      UdfsQ nc ec (l.foldl
        (fun s n => if s.dfsnum.getD n 0 == 0
          then udfsRun und (udfsFuel nc und) s n else s) s) := by
    intro l
    induction l with
    | nil => intro s hq; exact hq
    | cons m rest ih =>
      intro s hq
      simp only [List.foldl_cons]
      by_cases hv : s.dfsnum.getD m 0 == 0
      · rw [if_pos hv]
        exact ih _ (hrun s m hq)
      · rw [if_neg hv]
        exact ih _ hq
  exact hfold (List.range nc) _ (hrun _ root hq0)

theorem sweepVal_of_fresh (es : List Edge)
    (hfresh : ∀ ed ∈ es, ed.class_id = none ∧ ed.recent_size = none ∧
      ed.recent_class = none) : SweepVal es := by
  have hfields : ∀ x, (es.getD x defaultEdge).class_id = none ∧
      (es.getD x defaultEdge).recent_size = none ∧
      (es.getD x defaultEdge).recent_class = none := by
    intro x
    by_cases hx : x < es.length
    · refine hfresh _ ?_
      rw [List.getD_eq_getElem _ _ hx]
      exact List.getElem_mem _
    · rw [List.getD_eq_default _ _ (Nat.le_of_not_lt hx)]
      exact ⟨rfl, rfl, rfl⟩
  refine ⟨?_, ?_, ?_⟩
  · intro x c hc
    rw [(hfields x).1] at hc
    exact absurd hc (by simp)
  · intro x c hc
    rw [(hfields x).2.2] at hc
    exact absurd hc (by simp)
  · intro x hx
    rw [(hfields x).2.1] at hx
    exact absurd rfl hx

theorem cycle_equivalence_classes (nc : Nat) (edges : List Edge)
    (und : List (List (Nat × Nat))) (root : Nat) (edges' : List Edge)
    (h : cycle_equivalence nc edges und root = .ok edges')
    (hWF : UdfsWF und nc edges.length)
    (hroot : root < nc)
    (hfresh : ∀ ed ∈ edges, ed.class_id = none ∧ ed.recent_size = none ∧
      ed.recent_class = none) :
    ∀ x v n, n < nc → (x, v) ∈ und.getD n [] →
      ∃ c, (edges'.getD x defaultEdge).class_id = some c ∧ 1 ≤ c := by
  unfold cycle_equivalence at h
  dsimp only at h
  split at h
  · exact absurd h (by simp)
  · rename_i st hs
    have hedges : st.edges = edges' := Except.ok.inj h
    obtain ⟨hinv, hvisited⟩ := udfsAll_spec nc edges.length und root hWF hroot
    have hq := udfsAll_q nc edges.length und root hWF
    have hI := hinv.2.2.2.2.2.2.2.2.1
    have hJ := hinv.2.2.2.2.2.2.2.2.2.1
    have hK := hinv.2.2.2.2.2.2.2.2.2.2.1
    have hwf0 : SweepWF
        ({ edges := edges
           arena := []
           blists := List.replicate nc emptyBracketList
           capping_to := List.replicate nc []
           hi := List.replicate nc (nc + 1)
           class_counter := 0 } : SweepState) := by
      refine ⟨?_, ?_⟩
      · intro i hi
        rw [List.length_nil] at hi
        exact absurd hi (Nat.not_lt_zero i)
      · intro c
        dsimp only
        rw [getD_replicate]
        exact emptyBL_wf _
    have hpeAll : ∀ m,
        (udfsAll nc edges.length und root).parent.getD m (-1) ≠ -1 →
        ((udfsAll nc edges.length und root).parent_edge.getD m (-1)).toNat <
          edges.length := by
      intro m hpar
      by_cases hm : m < nc
      · obtain ⟨e, he, hpe⟩ := hq.2.2.2.2 m hm hpar
        rw [hpe]
        exact he
      · exfalso
        refine hpar ?_
        refine List.getD_eq_default _ _ ?_
        rw [hq.1]
        exact Nat.le_of_not_lt hm
    obtain ⟨wfF, valF, leF, ecF, covF⟩ := sweepAll_good nc
      (udfsAll nc edges.length und root) _ edges.length
      hq.2.2.1 hq.2.2.2.1 hpeAll
      (udfsAll nc edges.length und root).postorder _ st hs hwf0
      (sweepVal_of_fresh edges hfresh) (le_refl _)
    intro x v n hn hmem
    obtain ⟨j, hj, hjeq⟩ := List.getElem_of_mem hmem
    have hvisn := hvisited n hn
    have hseenx :
        (udfsAll nc edges.length und root).edge_seen.getD x false = true := by
      rcases hI n hn hvisn with ⟨iw, hw⟩ | hall
      · exact absurd hw (List.not_mem_nil _)
      · have hthis := hall j hj
        rw [List.getD_eq_getElem _ _ hj, hjeq] at hthis
        exact hthis
    rcases hK x hseenx with ⟨m, hm, hvism, hparm, hpem⟩ |
      ⟨m, hm, hvism, hmemb⟩
    · have hpost : m ∈ (udfsAll nc edges.length und root).postorder := by
        rcases hJ m hm hvism with ⟨iw, hw⟩ | hp
        · exact absurd hw (List.not_mem_nil _)
        · exact hp
      have hcov := (covF m hpost).2 hparm
      rw [hpem] at hcov
      obtain ⟨c, hc⟩ := Option.ne_none_iff_exists'.mp hcov
      refine ⟨c, ?_, valF.1 x c hc⟩
      rw [← hedges]
      exact hc
    · have hpost : m ∈ (udfsAll nc edges.length und root).postorder := by
        rcases hJ m hm hvism with ⟨iw, hw⟩ | hp
        · exact absurd hw (List.not_mem_nil _)
        · exact hp
      have hcov := (covF m hpost).1 x hmemb
      obtain ⟨c, hc⟩ := Option.ne_none_iff_exists'.mp hcov
      refine ⟨c, ?_, valF.1 x c hc⟩
      rw [← hedges]
      exact hc

theorem cycle_equivalence_capext (node_count : Nat) (edges : List Edge)
    (und : List (List (Nat × Nat))) (root : Nat) (edges' : List Edge)
    (h : cycle_equivalence node_count edges und root = .ok edges') :
    CapExt edges edges' := by
  unfold cycle_equivalence at h
  dsimp only at h
  split at h
  · exact absurd h (by simp)
  · rename_i st hs
    have hext := sweepAll_capext _ _ _ _ _ _ hs
    rw [← Except.ok.inj h]
    exact hext

theorem augEdges_fresh (adj : List (String × AdjInfo)) :
    ∀ ed ∈ augEdges adj, ed.class_id = none ∧ ed.recent_size = none ∧
      ed.recent_class = none := by
  intro ed hed
  unfold augEdges buildEdges at hed
  rcases List.mem_map.mp hed with ⟨p, hp, hpe⟩
  rw [← hpe]
  exact ⟨rfl, rfl, rfl⟩

theorem augEdges_id_at (adj : List (String × AdjInfo)) (j : Nat)
    (hj : j < (augEdges adj).length) :
    ((augEdges adj).getD j defaultEdge).id = j := by
  have h1 : ((augEdges adj).map (fun e => e.id)).getD j defaultEdge.id =
      ((augEdges adj).getD j defaultEdge).id := List.getD_map _ _ _
  rw [← h1, augEdges_map_id, List.getD_eq_getElem _ _ (by simpa using hj)]
  exact List.getElem_range _ _

theorem pub_mem_rev (nodes_order : List String) :
    ∀ (es : List Edge) (acc : List EdgeInfo) (pe : EdgeInfo),
      pe ∈ es.foldl (publishStep nodes_order) acc →
      pe ∈ acc ∨ ∃ el ∈ es, ¬(el.kind = "capping") ∧
        pe.kind = el.kind ∧
        pe.class_id = (match el.class_id with
          | some c => Int.ofNat c
          | none => -1) := by
  intro es
  induction es with
  | nil =>
    intro acc pe hpe
    exact Or.inl hpe
  | cons e rest ih =>
    intro acc pe hpe
    simp only [List.foldl_cons] at hpe
    rcases ih _ pe hpe with hacc | ⟨el, hel, hk, h1, h2⟩
    · unfold publishStep at hacc
      by_cases hk : e.kind == "capping"
      · rw [if_pos hk] at hacc
        exact Or.inl hacc
      · rw [if_neg hk] at hacc
        rcases List.mem_append.mp hacc with hacc | hacc
        · exact Or.inl hacc
        · rw [List.mem_singleton.mp hacc]
          exact Or.inr ⟨e, List.mem_cons_self _ _, by simpa using hk, rfl,
            rfl⟩
    · exact Or.inr ⟨el, List.mem_cons_of_mem _ hel, hk, h1, h2⟩

/-- The concrete result of `compute_pst` on the linear chain, used to
instantiate hypotheses at a concrete input. -/
def c10WitnessRes : PSTResult :=
  (compute_pst chainAdj true).toOption.getD ⟨0, [], [], "", ""⟩

/-! ### Claims -/

/-- Claim C1: the boundary-pair set of `compute_pst` is supposed to equal
the naive cycle-membership/dominance oracle on every input; on the
self-loop input `A→A` the oracle produces the canonical pair
`(super_entry→A, A→super_exit)` while the implementation produces no
non-root region at all, so the two sets differ. -/
theorem c1_self_loop_divergence :
    (compute_pst selfLoopAdj).map pst_pairs = .ok [] ∧
      oracle_pairs selfLoopAdj =
        [(("__super_entry__", "A", "super_entry"),
          ("A", "__super_exit__", "super_exit"))] ∧
      ([] : List ((String × String × String) × (String × String × String))) ≠
        oracle_pairs selfLoopAdj :=
  ⟨rfl, rfl, by decide⟩

/-- Claim C2: two non-back edges are supposed to share a class id iff
they lie on identical sets of simple undirected cycles of the augmented
graph; on the self-loop input `A→A`, the augmented edges `1`
(`super_entry→A`) and `2` (`A→super_exit`) have identical simple-cycle
membership, yet `compute_pst` publishes class ids `3` and `1` for them. -/
theorem c2_self_loop_divergence :
    cycleMembership (augNodes selfLoopAdj).length (augEdges selfLoopAdj) 1 =
      cycleMembership (augNodes selfLoopAdj).length (augEdges selfLoopAdj) 2 ∧
    (compute_pst selfLoopAdj).map (fun r => (pubClass r 1, pubClass r 2)) =
      .ok (3, 1) ∧
    (3 : Int) ≠ 1 :=
  ⟨rfl, rfl, by decide⟩

/-- Claim C3: parent pointers are supposed to form a forest rooted at
region 0; on the input with two unreachable 2-cycles next to a chain,
regions 3 and 4 point at each other, so no parent chain from them
reaches the root. -/
theorem c3_parent_cycle :
    (compute_pst c3Adj).map
      (fun r => ((findRegion r.regions 3).parent, (findRegion r.regions 4).parent)) =
      .ok (some 4, some 3) :=
  rfl

/-- Claim C4: `compute_pst` is supposed never to raise the
not-strongly-connected error on a non-empty input; on the non-empty
input whose component `A↔B, B→C, C↔D` has no entry or exit node while
`X→Y` supplies the graph's entries, the augmentation leaves that
component disconnected and the bracket engine raises the error. -/
theorem c4_not_strongly_connected :
    c4Adj ≠ [] ∧
      compute_pst c4Adj =
        .error "empty bracket list; graph may not be strongly connected" :=
  ⟨by decide, rfl⟩

/-- Claim C5 (counterexample): on the linear chain `A→B, B→C` the claim
expects exactly one non-root region, but `compute_pst` returns three. -/
theorem c5_counterexample :
    (compute_pst chainAdj).map (fun r => (nonRootRegions r).length) = .ok 3 ∧
      (3 : Nat) ≠ 1 :=
  ⟨rfl, by decide⟩

/-- Claim C5 (amended): on the linear chain `A→B, B→C`, `compute_pst`
returns exactly three non-root regions, chained along the augmented
backbone — `(super_entry→A, A→B)`, `(A→B, B→C)`, `(B→C, C→super_exit)` —
and no non-root region has children. -/
theorem c5_amended_chain_regions :
    (compute_pst chainAdj).map pst_pairs =
      .ok [(("__super_entry__", "A", "super_entry"), ("A", "B", "orig")),
           (("A", "B", "orig"), ("B", "C", "orig")),
           (("B", "C", "orig"), ("C", "__super_exit__", "super_exit"))] ∧
    (compute_pst chainAdj).map (fun r => (nonRootRegions r).map (·.children)) =
      .ok [[], [], []] :=
  ⟨rfl, rfl⟩

/-- Claim C7: on the self-loop input `A→A`, the self-loop edge (id 0)
gets class id 2, no other published edge carries that class, and no
non-root region has the self-loop as entry or exit edge. -/
theorem c7_self_loop_own_class :
    (compute_pst selfLoopAdj).map
      (fun r =>
        (pubClass r 0,
         (r.edges.filter (fun e => e.id != 0 && e.class_id == pubClass r 0)).length,
         ((nonRootRegions r).filter
           (fun g => g.entry_edge == some 0 || g.exit_edge == some 0)).length)) =
      .ok (2, 0, 0) :=
  rfl

/-- Claim C8: the `strict` flag has no observable effect — `compute_pst`
returns identical results for any two values of the flag, on every
input. -/
theorem c8_strict_no_effect (adj : List (String × AdjInfo)) (s₁ s₂ : Bool) :
    compute_pst adj s₁ = compute_pst adj s₂ :=
  rfl

/-- Claim C9: on the empty adjacency, `compute_pst` fails with the
bracket-engine error instead of returning a result. -/
theorem c9_empty_graph_error :
    compute_pst ([] : List (String × AdjInfo)) =
      .error "empty bracket list; graph may not be strongly connected" :=
  rfl

/-- Claim C10: whenever `compute_pst` returns, every non-root region has
distinct entry and exit edge ids, both of which are ids of published
edges of kind neither `back` nor `capping`, and no edge id is the entry
(resp. exit) of two regions. -/
theorem c10_region_boundaries (adj : List (String × AdjInfo))
    (res : PSTResult) (h : compute_pst adj true = .ok res) :
    (∀ g ∈ nonRootRegions res, ∃ a b,
        g.entry_edge = some a ∧ g.exit_edge = some b ∧ a ≠ b ∧
        (∃ pe ∈ res.edges, pe.id = a ∧ pe.kind ≠ "back" ∧
          pe.kind ≠ "capping") ∧
        (∃ pe ∈ res.edges, pe.id = b ∧ pe.kind ≠ "back" ∧
          pe.kind ≠ "capping")) ∧
    ((nonRootRegions res).map (fun g => g.entry_edge)).Nodup ∧
    ((nonRootRegions res).map (fun g => g.exit_edge)).Nodup := by
  obtain ⟨edges', hce, hres⟩ := compute_pst_ok h
  subst hres
  have hnodup := edge_order_nodup adj edges'
  have hRB := buildRegions_inv edges'
    (dfs_edge_order (dadjOf adj) edges' (rootOf adj)) hnodup
  obtain ⟨-, -, -, hreg, hEnt, hEx, hId, -⟩ := hRB
  have hmain := publishResult_regions_proj adj edges'
  have hfiltermap :
      (nonRootRegions (publishResult adj edges')).map projReg =
        (buildRegions edges'
          (dfs_edge_order (dadjOf adj) edges' (rootOf adj))).map projReg := by
    unfold nonRootRegions
    have hroot : (publishResult adj edges').root = 0 := rfl
    rw [hroot, filter_id_map_projReg, hmain, ← filter_id_map_projReg,
      List.filter_append]
    have h1 : (buildRegions edges'
        (dfs_edge_order (dadjOf adj) edges' (rootOf adj))).filter
          (fun r => r.id != 0) =
        buildRegions edges' (dfs_edge_order (dadjOf adj) edges' (rootOf adj)) :=
      List.filter_eq_self.mpr (fun r hr => by simpa using hId r hr)
    rw [h1]
    simp
  refine ⟨?_, ?_, ?_⟩
  · intro g hg
    obtain ⟨r0, hr0, hpr⟩ := mem_map_proj_transfer hfiltermap g hg
    obtain ⟨a, b, h1, h2, h3, h4, h5⟩ := hreg r0 hr0
    have hentry : g.entry_edge = some a := by
      have he := congrArg (fun t : Nat × Option Nat × Option Nat => t.2.1) hpr
      simp only [projReg] at he
      rw [← he, h1]
    have hexit : g.exit_edge = some b := by
      have he := congrArg (fun t : Nat × Option Nat × Option Nat => t.2.2) hpr
      simp only [projReg] at he
      rw [← he, h2]
    have hext := cycle_equivalence_ext _ _ _ _ _ hce
    have hpa := order_edge_published adj edges' hext a h3
    have hpb := order_edge_published adj edges' hext b h4
    have hedges : (publishResult adj edges').edges =
        edges'.foldl (publishStep (augNodes adj)) [] := rfl
    rw [hedges]
    exact ⟨a, b, hentry, hexit, h5, hpa, hpb⟩
  · rw [map_entry_of_proj hfiltermap]
    exact hEnt
  · rw [map_exit_of_proj hfiltermap]
    exact hEx

/-- Witness for claim C10 at the linear-chain input: the hypothesis of
the theorem is discharged by evaluation. -/
theorem c10_region_boundaries_witness :
    (∀ g ∈ nonRootRegions c10WitnessRes, ∃ a b,
        g.entry_edge = some a ∧ g.exit_edge = some b ∧ a ≠ b ∧
        (∃ pe ∈ c10WitnessRes.edges, pe.id = a ∧ pe.kind ≠ "back" ∧
          pe.kind ≠ "capping") ∧
        (∃ pe ∈ c10WitnessRes.edges, pe.id = b ∧ pe.kind ≠ "back" ∧
          pe.kind ≠ "capping")) ∧
    ((nonRootRegions c10WitnessRes).map (fun g => g.entry_edge)).Nodup ∧
    ((nonRootRegions c10WitnessRes).map (fun g => g.exit_edge)).Nodup :=
  c10_region_boundaries chainAdj c10WitnessRes rfl

/-- Claim C6: on every input adjacency (and either strict flag) on which
`compute_pst` returns a result, every edge of the published edge table
whose kind is not `back` carries a class id of at least 1; in particular
the sentinel `-1` never occurs on a published non-back edge. -/
theorem c6_published_non_back_classes (adj : List (String × AdjInfo))
    (strict : Bool) (res : PSTResult)
    (h : compute_pst adj strict = .ok res) :
    ∀ pe ∈ res.edges, pe.kind ≠ "back" → 1 ≤ pe.class_id := by
  obtain ⟨edges', hce, hres⟩ := compute_pst_ok h
  subst hres
  intro pe hpe _
  have hpe' : pe ∈ edges'.foldl (publishStep (augNodes adj)) [] := hpe
  rcases pub_mem_rev (augNodes adj) edges' [] pe hpe' with hacc |
    ⟨el, hel, helk, hkpe, hcls⟩
  · exact absurd hacc (List.not_mem_nil _)
  · obtain ⟨j, hj, hjel⟩ := List.getElem_of_mem hel
    have hcapext : CapExt (augEdges adj) edges' :=
      cycle_equivalence_capext _ _ _ _ _ hce
    have hjlt : j < (augEdges adj).length := by
      by_contra hcon
      have hkcap := capExt_tail_kind hcapext j (Nat.le_of_not_lt hcon) hj
      rw [List.getD_eq_getElem _ _ hj, hjel] at hkcap
      exact helk hkcap
    have hedmem : (augEdges adj).getD j defaultEdge ∈ augEdges adj := by
      rw [List.getD_eq_getElem _ _ hjlt]
      exact List.getElem_mem _
    have hidj : ((augEdges adj).getD j defaultEdge).id = j :=
      augEdges_id_at adj j hjlt
    have hupres := und_edge_present adj _ hedmem
    rw [hidj] at hupres
    have hult := (augEdges_uv_lt adj _ hedmem).1
    have hUWF : UdfsWF (undAdjOf adj) (augNodes adj).length
        (augEdges adj).length :=
      ⟨undAdjOf_length adj, fun n q hq => undAdjOf_entries adj n q hq⟩
    obtain ⟨c, hc, hcge⟩ := cycle_equivalence_classes (augNodes adj).length
      (augEdges adj) (undAdjOf adj) (rootOf adj) edges' hce hUWF
      (rootOf_lt adj) (augEdges_fresh adj) j
      (((augEdges adj).getD j defaultEdge).v) (((augEdges adj).getD j
        defaultEdge).u) hult hupres
    have helcls : el.class_id = some c := by
      rw [← hjel, ← List.getD_eq_getElem _ defaultEdge hj]
      exact hc
    rw [hcls, helcls]
    rw [show (match some c with
      | some c => Int.ofNat c
      | none => (-1 : Int)) = Int.ofNat c from rfl, Int.ofNat_eq_natCast]
    exact_mod_cast hcge

/-- The concrete result of `compute_pst` on the linear chain, used to
discharge the hypotheses of the C6 theorem at a concrete input. -/
def c6WitnessRes : PSTResult :=
  (compute_pst chainAdj true).toOption.getD ⟨0, [], [], "", ""⟩

theorem c6_published_non_back_classes_witness :
    1 ≤ (c6WitnessRes.edges.getD 0 ⟨0, "", "", "", -1⟩).class_id :=
  c6_published_non_back_classes chainAdj true c6WitnessRes rfl
    (c6WitnessRes.edges.getD 0 ⟨0, "", "", "", -1⟩) (by decide) (by decide)

end SESE
